import Mathlib

/-!
Verification of the maze path-finder core: the wall-based grid model, the
randomized maze generator, and the four search algorithms (BFS, DFS, A*,
Dijkstra) of src/game/solver.ts together with generateMaze of
src/game/mazeGenerator.ts.

The embedding is shallow: each TypeScript function is translated into an
executable Lean function.  JavaScript mutable matrices become functions
updated pointwise; the unbounded while-loops become fuel-indexed recursion
where the value none signals that the fuel was exhausted (the JS loop would
still be running), some none is the NotFound result null, and some (some s)
is a returned Solution.  JS numbers holding Infinity (gScore, fScore,
distance matrices) become WithTop Int.
-/

/-- Position: integer row and column (JS object {r, c}). -/
structure Pos where
  r : Int
  c : Int
deriving DecidableEq, Repr

/-- The four wall flags of a cell. -/
structure Walls where
  top : Bool
  right : Bool
  bottom : Bool
  left : Bool
deriving DecidableEq, Repr

/-- MazeCell: wall flags plus the generator's scratch visited flag. -/
structure MazeCell where
  walls : Walls
  visited : Bool
deriving DecidableEq, Repr

/-- Level: binary grid (0 = empty, 1 = wall), start position, and optional
wall data (cells). -/
structure Level where
  grid : List (List Nat)
  start : Pos
  cells : Option (List (List MazeCell))
deriving DecidableEq, Repr

/-- rows = level.grid.length -/
def rowsN (lv : Level) : Nat := lv.grid.length

/-- cols = level.grid[0].length -/
def colsN (lv : Level) : Nat := (lv.grid.headD []).length

def rowsZ (lv : Level) : Int := (rowsN lv : Int)

def colsZ (lv : Level) : Int := (colsN lv : Int)

/-- Reading the binary grid at a position.  In-bounds reads return the stored
entry; out-of-bounds reads default to 1 (JS would yield undefined, which the
code only ever compares against 0, so any nonzero default is faithful). -/
def gridAt (lv : Level) (p : Pos) : Nat :=
  (lv.grid.getD p.r.toNat []).getD p.c.toNat 1

/-- A cell whose four walls are all present (default for out-of-bounds reads;
never reached on in-bounds data). -/
def allWallsCell : MazeCell := ⟨⟨true, true, true, true⟩, false⟩

/-- Reading the wall-data matrix at a position. -/
def cellAt (cs : List (List MazeCell)) (p : Pos) : MazeCell :=
  (cs.getD p.r.toNat []).getD p.c.toNat allWallsCell

/-- The four direction offsets, in source order: up, down, left, right. -/
def DIRS : List Pos := [⟨-1, 0⟩, ⟨1, 0⟩, ⟨0, -1⟩, ⟨0, 1⟩]

/-- Heuristic for A*: distance to the nearest border,
min(pos.r, pos.c, rows - 1 - pos.r, cols - 1 - pos.c). -/
def heuristic (pos : Pos) (rows cols : Int) : Int :=
  min (min pos.r pos.c) (min (rows - 1 - pos.r) (cols - 1 - pos.c))

/-- The shared movement predicate canMoveBetween, textually repeated inside
solveBFS, solveDFS, solveAStar and solveDijkstra (and App.tsx): with wall
data, test the wall flag of frm facing tgt; without, test that the target
cell of the binary grid is 0. -/
def canMoveBetween (lv : Level) (frm tgt : Pos) : Bool :=
  match lv.cells with
  | some cs =>
    let dr := tgt.r - frm.r
    let dc := tgt.c - frm.c
    if dr = -1 ∧ dc = 0 then !(cellAt cs frm).walls.top
    else if dr = 1 ∧ dc = 0 then !(cellAt cs frm).walls.bottom
    else if dr = 0 ∧ dc = -1 then !(cellAt cs frm).walls.left
    else if dr = 0 ∧ dc = 1 then !(cellAt cs frm).walls.right
    else false
  | none => gridAt lv tgt == 0

/-- The exit test evaluated on each dequeued/expanded cell, textually repeated
inside all four solvers: with wall data, a border cell whose outward wall is
clear; without wall data, any border cell. -/
def canExitCheck (lv : Level) (cur : Pos) : Bool :=
  match lv.cells with
  | some cs =>
    if cur.r = 0 ∧ !(cellAt cs cur).walls.top then true
    else if cur.r = rowsZ lv - 1 ∧ !(cellAt cs cur).walls.bottom then true
    else if cur.c = 0 ∧ !(cellAt cs cur).walls.left then true
    else if cur.c = colsZ lv - 1 ∧ !(cellAt cs cur).walls.right then true
    else false
  | none =>
    decide (cur.r = 0 ∨ cur.c = 0 ∨ cur.r = rowsZ lv - 1 ∨ cur.c = colsZ lv - 1)

/-- Out-of-bounds test performed by every neighbor loop:
nxt.r < 0 || nxt.r >= rows || nxt.c < 0 || nxt.c >= cols. -/
def oobCheck (lv : Level) (p : Pos) : Bool :=
  decide (p.r < 0 ∨ p.r ≥ rowsZ lv ∨ p.c < 0 ∨ p.c ≥ colsZ lv)

/-- Algorithm-specific telemetry of a detailed step; unused fields are none
(absent in the JS object). -/
structure AlgorithmData where
  queueSize : Option Nat := none
  currentLevel : Option Nat := none
  neighborsAdded : Option Nat := none
  stackDepth : Option Nat := none
  isBacktracking : Option Bool := none
  deadEnd : Option Bool := none
  gScore : Option (WithTop Int) := none
  hScore : Option Int := none
  fScore : Option (WithTop Int) := none
  openSetSize : Option Nat := none
  currentDistance : Option (WithTop Int) := none
  relaxationCount : Option Nat := none
  priorityQueueSize : Option Nat := none
deriving DecidableEq, Repr

/-- One entry of the step trace. -/
structure DetailedStep where
  position : Pos
  stepNumber : Nat
  algorithmData : AlgorithmData
deriving DecidableEq, Repr

/-- A* score matrices snapshotted at termination. -/
structure AStarScores where
  gScores : List (List (WithTop Int))
  hScores : List (List Int)
  fScores : List (List (WithTop Int))
deriving DecidableEq, Repr

/-- A returned Solution. -/
structure Solution where
  distance : Int
  path : List Pos
  visitedCells : List Pos
  algorithm : String
  detailedSteps : List DetailedStep
  aStarScores : Option AStarScores := none
deriving DecidableEq, Repr

/-- Pointwise update of a function-represented matrix. -/
def upd {α : Type} (f : Pos → α) (p : Pos) (v : α) : Pos → α :=
  fun q => if q = p then v else f q

/-- Encoding of a predecessor as a linear index: cur.r * cols + cur.c. -/
def encodeIdx (cols : Int) (p : Pos) : Int := p.r * cols + p.c

/-- Decoding a linear index: { r: Math.floor(idx / cols), c: idx % cols }. -/
def decodeIdx (cols : Int) (k : Int) : Pos := ⟨k / cols, k % cols⟩

/-- The predecessor-walk of solveBFS (both the currentLevel while-loop and the
path reconstruction): starting at p, repeatedly follow the stored linear
index until the sentinel -1 of the start cell.  Returns the chain
[p, parent p, ..., start]; none when the stored data is missing or cyclic
(the JS loop would crash or spin). -/
def parentChainB (V : Pos → Option Int) (cols : Int) : Nat → Pos → Option (List Pos)
  | 0, _ => none
  | fuel + 1, p =>
    match V p with
    | none => none
    | some k =>
      if k = -1 then some [p]
      else
        match parentChainB V cols fuel (decodeIdx cols k) with
        | none => none
        | some l => some (p :: l)

/-- State of the solveBFS main loop. -/
structure BfsState where
  visitedM : Pos → Option Int
  visitedCells : List Pos
  detailedSteps : List DetailedStep
  queue : List Pos
  stepNumber : Nat

/-- The neighbor loop of solveBFS: for each direction, skip out-of-bounds,
blocked, or already-discovered targets; otherwise record the predecessor,
enqueue, and count. -/
def bfsNeighbors (lv : Level) (cur : Pos) :
    List Pos → (Pos → Option Int) → List Pos → Nat →
    (Pos → Option Int) × List Pos × Nat
  | [], V, q, n => (V, q, n)
  | d :: ds, V, q, n =>
    let nxt : Pos := ⟨cur.r + d.r, cur.c + d.c⟩
    if oobCheck lv nxt then bfsNeighbors lv cur ds V q n
    else if !(canMoveBetween lv cur nxt) then bfsNeighbors lv cur ds V q n
    else if (V nxt).isSome then bfsNeighbors lv cur ds V q n
    else
      bfsNeighbors lv cur ds (upd V nxt (some (encodeIdx (colsZ lv) cur)))
        (q ++ [nxt]) (n + 1)

/-- Generous fuel for the inner predecessor walks: chains visit pairwise
distinct in-bounds cells, so rows * cols + 1 steps always suffice. -/
def chainFuel (lv : Level) : Nat := rowsN lv * colsN lv + 1

/-- The while (queue.length) loop of solveBFS. -/
def bfsLoop (lv : Level) : Nat → BfsState → Option (Option Solution)
  | 0, _ => none
  | fuel + 1, st =>
    match st.queue with
    | [] => some none
    | cur :: rest =>
      let visitedCells := st.visitedCells ++ [cur]
      match parentChainB st.visitedM (colsZ lv) (chainFuel lv) cur with
      | none => none
      | some chain =>
        let currentLevel := chain.length - 1
        if canExitCheck lv cur then
          some (some
            { distance := (chain.length : Int) - 1
              path := chain.reverse
              visitedCells := visitedCells
              algorithm := "BFS"
              detailedSteps := st.detailedSteps })
        else
          match bfsNeighbors lv cur DIRS st.visitedM rest 0 with
          | (V2, q2, neighborsAdded) =>
            bfsLoop lv fuel
              { visitedM := V2
                visitedCells := visitedCells
                detailedSteps := st.detailedSteps ++
                  [⟨cur, st.stepNumber,
                    { queueSize := some q2.length
                      currentLevel := some currentLevel
                      neighborsAdded := some neighborsAdded }⟩]
                queue := q2
                stepNumber := st.stepNumber + 1 }

/-- Total fuel for the BFS main loop; the loop measure starts below
2 * rows * cols (see bfsLoop correctness lemmas). -/
def bfsFuel (lv : Level) : Nat := 2 * (rowsN lv * colsN lv) + 2

/-- solveBFS. -/
def solveBFS (lv : Level) (fuel : Nat) : Option (Option Solution) :=
  bfsLoop lv fuel
    { visitedM := upd (fun _ => none) lv.start (some (-1))
      visitedCells := []
      detailedSteps := []
      queue := [lv.start]
      stepNumber := 0 }

/-- The parent-pointer walk shared by solveDFS, solveAStar and solveDijkstra:
follow parent links until null, returning [p, parent p, ..., start]. -/
def parentChainP (parent : Pos → Option Pos) : Nat → Pos → Option (List Pos)
  | 0, _ => none
  | fuel + 1, p =>
    match parent p with
    | none => some [p]
    | some q =>
      match parentChainP parent fuel q with
      | none => none
      | some l => some (p :: l)

/-- The linear minimum scan of solveAStar and solveDijkstra: starting from
openSet[0] at index 0, replace the running best only on a strictly smaller
score, so ties keep the earliest element.  Returns the chosen element and
its index. -/
def scanMinAux (score : Pos → WithTop Int) : List Pos → Pos → Nat → Nat → Pos × Nat
  | [], best, bi, _ => (best, bi)
  | x :: xs, best, bi, i =>
    if score x < score best then scanMinAux score xs x i (i + 1)
    else scanMinAux score xs best bi (i + 1)

/-- State of the solveDijkstra main loop. -/
structure DijState where
  visitedM : Pos → Bool
  visitedCells : List Pos
  detailedSteps : List DetailedStep
  dist : Pos → WithTop Int
  parent : Pos → Option Pos
  queue : List Pos
  stepNumber : Nat

/-- The relaxation loop of solveDijkstra over the four directions (vis is the
visited matrix, with the current cell already marked). -/
def dijNeighbors (lv : Level) (cur : Pos) (vis : Pos → Bool) :
    List Pos → (Pos → WithTop Int) → (Pos → Option Pos) → List Pos → Nat →
    (Pos → WithTop Int) × (Pos → Option Pos) × List Pos × Nat
  | [], dist, parent, q, n => (dist, parent, q, n)
  | d :: ds, dist, parent, q, n =>
    let nxt : Pos := ⟨cur.r + d.r, cur.c + d.c⟩
    if oobCheck lv nxt then dijNeighbors lv cur vis ds dist parent q n
    else if !(canMoveBetween lv cur nxt) then dijNeighbors lv cur vis ds dist parent q n
    else if vis nxt then dijNeighbors lv cur vis ds dist parent q n
    else
      let newDistance := dist cur + 1
      if newDistance < dist nxt then
        let dist2 := upd dist nxt newDistance
        let parent2 := upd parent nxt (some cur)
        if nxt ∈ q then dijNeighbors lv cur vis ds dist2 parent2 q (n + 1)
        else dijNeighbors lv cur vis ds dist2 parent2 (q ++ [nxt]) (n + 1)
      else dijNeighbors lv cur vis ds dist parent q n

/-- The while (queue.length > 0) loop of solveDijkstra. -/
def dijLoop (lv : Level) : Nat → DijState → Option (Option Solution)
  | 0, _ => none
  | fuel + 1, st =>
    match st.queue with
    | [] => some none
    | q0 :: qrest =>
      let pick := scanMinAux st.dist qrest q0 0 1
      let current := pick.1
      let queue1 := st.queue.eraseIdx pick.2
      let vis1 := upd st.visitedM current true
      let visitedCells := st.visitedCells ++ [current]
      if canExitCheck lv current then
        match parentChainP st.parent (chainFuel lv) current with
        | none => none
        | some l =>
          some (some
            { distance := (l.length : Int) - 1
              path := l.reverse
              visitedCells := visitedCells
              algorithm := "Dijkstra"
              detailedSteps := st.detailedSteps })
      else
        match dijNeighbors lv current vis1 DIRS st.dist st.parent queue1 0 with
        | (dist2, parent2, queue2, relaxationCount) =>
          dijLoop lv fuel
            { visitedM := vis1
              visitedCells := visitedCells
              detailedSteps := st.detailedSteps ++
                [⟨current, st.stepNumber,
                  { currentDistance := some (dist2 current)
                    relaxationCount := some relaxationCount
                    priorityQueueSize := some queue2.length }⟩]
              dist := dist2
              parent := parent2
              queue := queue2
              stepNumber := st.stepNumber + 1 }

/-- Fuel sufficient for the Dijkstra and A* main loops (each iteration settles
a distinct in-bounds cell). -/
def pqFuel (lv : Level) : Nat := rowsN lv * colsN lv + 1

/-- solveDijkstra. -/
def solveDijkstra (lv : Level) (fuel : Nat) : Option (Option Solution) :=
  dijLoop lv fuel
    { visitedM := fun _ => false
      visitedCells := []
      detailedSteps := []
      dist := upd (fun _ => (⊤ : WithTop Int)) lv.start 0
      parent := fun _ => none
      queue := [lv.start]
      stepNumber := 0 }

/-- State of the solveAStar main loop. -/
structure AstState where
  visitedM : Pos → Bool
  visitedCells : List Pos
  detailedSteps : List DetailedStep
  g : Pos → WithTop Int
  f : Pos → WithTop Int
  parent : Pos → Option Pos
  openSet : List Pos
  stepNumber : Nat

/-- The relaxation loop of solveAStar over the four directions. -/
def astNeighbors (lv : Level) (cur : Pos) (vis : Pos → Bool) :
    List Pos → (Pos → WithTop Int) → (Pos → WithTop Int) → (Pos → Option Pos) →
    List Pos →
    (Pos → WithTop Int) × (Pos → WithTop Int) × (Pos → Option Pos) × List Pos
  | [], g, f, parent, q => (g, f, parent, q)
  | d :: ds, g, f, parent, q =>
    let nxt : Pos := ⟨cur.r + d.r, cur.c + d.c⟩
    if oobCheck lv nxt then astNeighbors lv cur vis ds g f parent q
    else if !(canMoveBetween lv cur nxt) then astNeighbors lv cur vis ds g f parent q
    else if vis nxt then astNeighbors lv cur vis ds g f parent q
    else
      let tentativeGScore := g cur + 1
      if tentativeGScore < g nxt then
        let parent2 := upd parent nxt (some cur)
        let g2 := upd g nxt tentativeGScore
        let f2 := upd f nxt
          (g2 nxt + ((heuristic nxt (rowsZ lv) (colsZ lv) : Int) : WithTop Int))
        if nxt ∈ q then astNeighbors lv cur vis ds g2 f2 parent2 q
        else astNeighbors lv cur vis ds g2 f2 parent2 (q ++ [nxt])
      else astNeighbors lv cur vis ds g f parent q

/-- rows × cols matrix materialization used for the A* score snapshots. -/
def scoreMatrix {α : Type} (lv : Level) (f : Nat → Nat → α) : List (List α) :=
  (List.range (rowsN lv)).map (fun r => (List.range (colsN lv)).map (fun c => f r c))

/-- The while (openSet.length > 0) loop of solveAStar. -/
def astLoop (lv : Level) : Nat → AstState → Option (Option Solution)
  | 0, _ => none
  | fuel + 1, st =>
    match st.openSet with
    | [] => some none
    | q0 :: qrest =>
      let pick := scanMinAux st.f qrest q0 0 1
      let current := pick.1
      let open1 := st.openSet.eraseIdx pick.2
      let vis1 := upd st.visitedM current true
      let visitedCells := st.visitedCells ++ [current]
      let detailedSteps := st.detailedSteps ++
        [⟨current, st.stepNumber,
          { gScore := some (st.g current)
            hScore := some (heuristic current (rowsZ lv) (colsZ lv))
            fScore := some (st.f current)
            openSetSize := some open1.length }⟩]
      if canExitCheck lv current then
        match parentChainP st.parent (chainFuel lv) current with
        | none => none
        | some l =>
          some (some
            { distance := (l.length : Int) - 1
              path := l.reverse
              visitedCells := visitedCells
              algorithm := "A*"
              detailedSteps := detailedSteps
              aStarScores := some
                { gScores := scoreMatrix lv (fun r c => st.g ⟨r, c⟩)
                  hScores := scoreMatrix lv
                    (fun r c => heuristic ⟨r, c⟩ (rowsZ lv) (colsZ lv))
                  fScores := scoreMatrix lv (fun r c => st.f ⟨r, c⟩) } })
      else
        match astNeighbors lv current vis1 DIRS st.g st.f st.parent open1 with
        | (g2, f2, parent2, open2) =>
          astLoop lv fuel
            { visitedM := vis1
              visitedCells := visitedCells
              detailedSteps := detailedSteps
              g := g2
              f := f2
              parent := parent2
              openSet := open2
              stepNumber := st.stepNumber + 1 }

/-- solveAStar. -/
def solveAStar (lv : Level) (fuel : Nat) : Option (Option Solution) :=
  astLoop lv fuel
    { visitedM := fun _ => false
      visitedCells := []
      detailedSteps := []
      g := upd (fun _ => (⊤ : WithTop Int)) lv.start 0
      f := upd (fun _ => (⊤ : WithTop Int)) lv.start
        ((heuristic lv.start (rowsZ lv) (colsZ lv) : Int) : WithTop Int)
      parent := fun _ => none
      openSet := [lv.start]
      stepNumber := 0 }

/-- State of solveDFS (visited matrix, visit order, trace, parents, counter). -/
structure DfsState where
  visitedM : Pos → Bool
  visitedCells : List Pos
  detailedSteps : List DetailedStep
  parent : Pos → Option Pos
  stepNumber : Nat

/-- The neighbor loop of the dfs helper, parameterized by the recursive
descent at the next depth. -/
def dfsNbrs (lv : Level)
    (go : Pos → DfsState → Option (Option Pos × DfsState)) (pos : Pos) :
    List Pos → DfsState → Nat → Option (Option Pos × DfsState × Nat)
  | [], st, n => some (none, st, n)
  | d :: ds', st, n =>
    let nxt : Pos := ⟨pos.r + d.r, pos.c + d.c⟩
    if oobCheck lv nxt then dfsNbrs lv go pos ds' st n
    else if !(canMoveBetween lv pos nxt) then dfsNbrs lv go pos ds' st n
    else if st.visitedM nxt then dfsNbrs lv go pos ds' st n
    else
      let st1 : DfsState := { st with parent := upd st.parent nxt (some pos) }
      match go nxt st1 with
      | none => none
      | some (some e, st2) => some (some e, st2, n + 1)
      | some (none, st2) => dfsNbrs lv go pos ds' st2 (n + 1)

/-- The recursive dfs helper of solveDFS: mark and record pos, compute the
stack depth by walking parents, test the exit, otherwise descend into each
unvisited passable neighbor in direction order, and push the trace entry
when the call backtracks (returns null). -/
def dfsGo (lv : Level) : Nat → Pos → DfsState → Option (Option Pos × DfsState)
  | 0, _, _ => none
  | fuel' + 1, pos, st =>
    let st1 : DfsState :=
      { st with
        visitedM := upd st.visitedM pos true
        visitedCells := st.visitedCells ++ [pos] }
    match parentChainP st1.parent (chainFuel lv) pos with
    | none => none
    | some l =>
      let stackDepth := l.length - 1
      if canExitCheck lv pos then some (some pos, st1)
      else
        match dfsNbrs lv (dfsGo lv fuel') pos DIRS st1 0 with
        | none => none
        | some (some e, st2, _) => some (some e, st2)
        | some (none, st2, validNeighbors) =>
          some (none,
            { st2 with
              detailedSteps := st2.detailedSteps ++
                [⟨pos, st2.stepNumber,
                  { stackDepth := some stackDepth
                    isBacktracking := some false
                    deadEnd := some (validNeighbors = 0) }⟩]
              stepNumber := st2.stepNumber + 1 })

/-- solveDFS: run the dfs helper from start and reconstruct the path. -/
def solveDFS (lv : Level) (fuel : Nat) : Option (Option Solution) :=
  let st0 : DfsState :=
    { visitedM := fun _ => false
      visitedCells := []
      detailedSteps := []
      parent := fun _ => none
      stepNumber := 0 }
  match dfsGo lv fuel lv.start st0 with
  | none => none
  | some (none, _) => some none
  | some (some e, st) =>
    match parentChainP st.parent (chainFuel lv) e with
    | none => none
    | some l =>
      some (some
        { distance := (l.length : Int) - 1
          path := l.reverse
          visitedCells := st.visitedCells
          algorithm := "DFS"
          detailedSteps := st.detailedSteps })

/-! ## The movement graph induced by a level -/

/-- A position is inside the rows × cols rectangle. -/
def InBounds (lv : Level) (p : Pos) : Prop :=
  0 ≤ p.r ∧ p.r < rowsZ lv ∧ 0 ≤ p.c ∧ p.c < colsZ lv

instance (lv : Level) (p : Pos) : Decidable (InBounds lv p) := by
  unfold InBounds; infer_instance

/-- One step in a direction. -/
def stepPos (p d : Pos) : Pos := ⟨p.r + d.r, p.c + d.c⟩

/-- 4-adjacency: q is one of the four orthogonal neighbors of p. -/
def Adjacent (p q : Pos) : Prop := ∃ d ∈ DIRS, q = stepPos p d

instance (p q : Pos) : Decidable (Adjacent p q) := by
  unfold Adjacent; infer_instance

/-- A directed edge of the movement graph: both endpoints in bounds, the
target 4-adjacent to the source, and movement allowed by the oracle. -/
def Edge (lv : Level) (p q : Pos) : Prop :=
  InBounds lv p ∧ InBounds lv q ∧ Adjacent p q ∧ canMoveBetween lv p q = true

instance (lv : Level) (p q : Pos) : Decidable (Edge lv p q) := by
  unfold Edge; infer_instance

/-- n-step reachability along movement edges. -/
inductive ReachN (lv : Level) : Pos → Pos → Nat → Prop
  | refl (p : Pos) : ReachN lv p p 0
  | cons {p q r : Pos} {n : Nat} : Edge lv p q → ReachN lv q r n →
      ReachN lv p r (n + 1)

/-- b is reachable from a at minimal edge count n. -/
def MinReach (lv : Level) (a b : Pos) (n : Nat) : Prop :=
  ReachN lv a b n ∧ ∀ m, ReachN lv a b m → n ≤ m

/-- Some cell satisfying the exit test is reachable from start. -/
def Solvable (lv : Level) : Prop :=
  ∃ e n, ReachN lv lv.start e n ∧ canExitCheck lv e = true

/-- k is the minimum edge count from start to a cell satisfying the
exit test. -/
def OptimalExitD (lv : Level) (k : Nat) : Prop :=
  (∃ e, ReachN lv lv.start e k ∧ canExitCheck lv e = true) ∧
  ∀ e m, ReachN lv lv.start e m → canExitCheck lv e = true → k ≤ m

lemma oobCheck_eq_false_iff (lv : Level) (p : Pos) :
    oobCheck lv p = false ↔ InBounds lv p := by
  simp only [oobCheck, decide_eq_false_iff_not, InBounds]
  constructor
  · intro h
    push_neg at h
    omega
  · intro h
    push_neg
    omega

lemma ReachN.trans {lv : Level} {a b c : Pos} {n m : Nat}
    (h1 : ReachN lv a b n) (h2 : ReachN lv b c m) : ReachN lv a c (n + m) := by
  induction h1 with
  | refl _ => simpa using h2
  | cons e _ ih =>
    have h3 := ReachN.cons e (ih h2)
    convert h3 using 1
    omega

lemma ReachN.single {lv : Level} {a b : Pos} (h : Edge lv a b) :
    ReachN lv a b 1 := ReachN.cons h (ReachN.refl b)

lemma ReachN.snoc {lv : Level} {a b c : Pos} {n : Nat}
    (h1 : ReachN lv a b n) (h2 : Edge lv b c) : ReachN lv a c (n + 1) :=
  h1.trans (ReachN.single h2)

/-- Any set containing a and closed under edges contains everything
reachable from a. -/
lemma reach_closed {lv : Level} {S : Pos → Prop} {a t : Pos} {n : Nat}
    (ha : S a) (hcl : ∀ x, S x → ∀ y, Edge lv x y → S y)
    (h : ReachN lv a t n) : S t := by
  induction h with
  | refl _ => exact ha
  | cons e _ ih => exact ih (hcl _ ha _ e)

/-- Frontier decomposition: a path from inside S to outside S crosses an
edge leaving S. -/
lemma reach_frontier {lv : Level} {S : Pos → Prop} {a t : Pos} {n : Nat}
    (h : ReachN lv a t n) :
    S a → ¬ S t → ∃ x y i j, S x ∧ ¬ S y ∧ Edge lv x y ∧ ReachN lv a x i ∧
      ReachN lv y t j ∧ i + 1 + j = n := by
  induction h with
  | refl p => exact fun ha ht => absurd ha ht
  | @cons p q r m e hr ih =>
    intro ha ht
    by_cases hq : S q
    · obtain ⟨x, y, i, j, hx, hy, hxy, hax, hyt, hsum⟩ := ih hq ht
      exact ⟨x, y, i + 1, j, hx, hy, hxy, ReachN.cons e hax, hyt, by omega⟩
    · exact ⟨p, q, 0, m, ha, hq, e, ReachN.refl p, hr, by omega⟩

/-- Row-major encoding of an in-bounds position, as a natural number. -/
def cellCode (lv : Level) (p : Pos) : Nat := p.r.toNat * colsN lv + p.c.toNat

lemma cellCode_lt (lv : Level) (p : Pos) (hp : InBounds lv p) :
    cellCode lv p < rowsN lv * colsN lv := by
  obtain ⟨h1, h2, h3, h4⟩ := hp
  have hr : p.r.toNat < rowsN lv := by
    simp only [rowsZ] at h2; omega
  have hc : p.c.toNat < colsN lv := by
    simp only [colsZ] at h4; omega
  calc cellCode lv p < p.r.toNat * colsN lv + colsN lv := by
        simp only [cellCode]; omega
    _ = (p.r.toNat + 1) * colsN lv := by ring
    _ ≤ rowsN lv * colsN lv := Nat.mul_le_mul_right _ (by omega)

lemma rowmajor_inj {C a b c d : Nat} (hb : b < C) (hd : d < C)
    (h : a * C + b = c * C + d) : a = c ∧ b = d := by
  have key : ∀ x y u v : Nat, u < C → x < y → x * C + u = y * C + v → False := by
    intro x y u v hu hxy heq
    have h1 : (x + 1) * C ≤ y * C := Nat.mul_le_mul_right _ (by omega)
    have h2 : x * C + C ≤ y * C := by
      have h3 : (x + 1) * C = x * C + C := by ring
      omega
    omega
  have hac : a = c := by
    by_contra hne
    rcases Nat.lt_or_ge a c with hlt | hge
    · exact key a c b d hb hlt h
    · exact key c a d b hd (by omega) h.symm
  subst hac
  constructor
  · rfl
  · omega

lemma cellCode_inj (lv : Level) (p q : Pos) (hp : InBounds lv p)
    (hq : InBounds lv q) (h : cellCode lv p = cellCode lv q) : p = q := by
  obtain ⟨hp1, hp2, hp3, hp4⟩ := hp
  obtain ⟨hq1, hq2, hq3, hq4⟩ := hq
  simp only [cellCode] at h
  have hcp : p.c.toNat < colsN lv := by simp only [colsZ] at hp4; omega
  have hcq : q.c.toNat < colsN lv := by simp only [colsZ] at hq4; omega
  obtain ⟨h5, h6⟩ := rowmajor_inj hcp hcq h
  have hr : p.r = q.r := by omega
  have hc : p.c = q.c := by omega
  cases p; cases q; simp_all

/-- A duplicate-free list of in-bounds positions has at most rows * cols
elements. -/
lemma nodup_inbounds_length (lv : Level) (l : List Pos) (hn : l.Nodup)
    (hb : ∀ p ∈ l, InBounds lv p) : l.length ≤ rowsN lv * colsN lv := by
  classical
  have hinj : ∀ p ∈ l, ∀ q ∈ l, cellCode lv p = cellCode lv q → p = q := by
    intro p hp q hq h
    exact cellCode_inj lv p q (hb p hp) (hb q hq) h
  have hmapnd : (l.map (cellCode lv)).Nodup := by
    exact List.Nodup.map_on hinj hn
  have hsub : (l.map (cellCode lv)).toFinset ⊆
      Finset.range (rowsN lv * colsN lv) := by
    intro x hx
    simp only [List.mem_toFinset, List.mem_map] at hx
    obtain ⟨p, hp, rfl⟩ := hx
    simp only [Finset.mem_range]
    exact cellCode_lt lv p (hb p hp)
  have := Finset.card_le_card hsub
  rw [List.toFinset_card_of_nodup hmapnd, Finset.card_range,
    List.length_map] at this
  exact this

/-! ## The BFS predecessor chains -/

lemma decode_encode (cols : Int) (q : Pos) (h0 : 0 ≤ q.c) (h1 : q.c < cols)
    (h2 : 0 ≤ q.r) : decodeIdx cols (encodeIdx cols q) = q := by
  have hc : cols ≠ 0 := by omega
  simp only [decodeIdx, encodeIdx]
  have hdi : (q.r * cols + q.c) / cols = q.r := by
    rw [add_comm, mul_comm, Int.add_mul_ediv_left _ _ hc,
      Int.ediv_eq_zero_of_lt h0 h1]
    omega
  have hmo : (q.r * cols + q.c) % cols = q.c := by
    rw [add_comm, mul_comm, Int.add_mul_emod_self_left]
    exact Int.emod_eq_of_lt h0 h1
  rw [hdi, hmo]

lemma encode_nonneg (cols : Int) (q : Pos) (h0 : 0 ≤ q.c) (h2 : 0 ≤ q.r)
    (hcol : 0 ≤ cols) : 0 ≤ encodeIdx cols q := by
  simp only [encodeIdx]
  have : 0 ≤ q.r * cols := mul_nonneg h2 hcol
  omega

/-- The chain stored in the BFS visited matrix below a cell p:
[p, parent p, ..., start], each link a movement edge from parent to child. -/
inductive IsChainB (lv : Level) (V : Pos → Option Int) : Pos → List Pos → Prop
  | base : V lv.start = some (-1) → IsChainB lv V lv.start [lv.start]
  | step {p q : Pos} {l : List Pos} : IsChainB lv V q l →
      V p = some (encodeIdx (colsZ lv) q) → Edge lv q p →
      IsChainB lv V p (p :: l)

lemma IsChainB.ne_nil {lv : Level} {V : Pos → Option Int} {p : Pos}
    {l : List Pos} (h : IsChainB lv V p l) : l ≠ [] := by
  cases h <;> simp

lemma IsChainB.head {lv : Level} {V : Pos → Option Int} {p : Pos}
    {l : List Pos} (h : IsChainB lv V p l) : l.head? = some p := by
  cases h <;> rfl

lemma IsChainB.getLast {lv : Level} {V : Pos → Option Int} {p : Pos}
    {l : List Pos} (h : IsChainB lv V p l) :
    l.getLast? = some lv.start := by
  induction h with
  | base _ => rfl
  | @step p q l hq hv he ih =>
    rw [List.getLast?_cons, ih]
    cases hq <;> simp_all

lemma IsChainB.mem_discovered {lv : Level} {V : Pos → Option Int} {p : Pos}
    {l : List Pos} (h : IsChainB lv V p l) : ∀ x ∈ l, V x ≠ none := by
  induction h with
  | base hb => intro x hx; simp at hx; subst hx; simp [hb]
  | @step p q l hq hv he ih =>
    intro x hx
    rcases List.mem_cons.mp hx with rfl | hx2
    · simp [hv]
    · exact ih x hx2

lemma IsChainB.mem_inbounds {lv : Level} {V : Pos → Option Int} {p : Pos}
    {l : List Pos} (h : IsChainB lv V p l) (hs : InBounds lv lv.start) :
    ∀ x ∈ l, InBounds lv x := by
  induction h with
  | base _ => intro x hx; simp at hx; subst hx; exact hs
  | @step p q l hq hv he ih =>
    intro x hx
    rcases List.mem_cons.mp hx with rfl | hx2
    · exact he.2.1
    · exact ih x hx2

lemma IsChainB.reach {lv : Level} {V : Pos → Option Int} {p : Pos}
    {l : List Pos} (h : IsChainB lv V p l) :
    ReachN lv lv.start p (l.length - 1) := by
  induction h with
  | base _ => exact ReachN.refl _
  | @step p q l hq hv he ih =>
    have hlen : l ≠ [] := hq.ne_nil
    have : ReachN lv lv.start p (l.length - 1 + 1) := ih.snoc he
    have harith : l.length - 1 + 1 = (p :: l).length - 1 := by
      cases l with
      | nil => exact absurd rfl hlen
      | cons a as => simp
    exact harith ▸ this

/-- Links of a stored chain, viewed along the reversed list, are edges. -/
lemma IsChainB.chain_edges {lv : Level} {V : Pos → Option Int} {p : Pos}
    {l : List Pos} (h : IsChainB lv V p l) :
    List.Chain' (fun a b => Edge lv a b) l.reverse := by
  induction h with
  | base _ => simp
  | @step p q l hq hv he ih =>
    simp only [List.reverse_cons]
    apply List.Chain'.append ih (List.chain'_singleton p)
    intro x hx y hy
    rw [List.getLast?_reverse, hq.head] at hx
    simp only [Option.mem_def, Option.some_inj] at hx hy
    simp only [List.head?_cons, Option.some_inj] at hy
    subst hx
    subst hy
    exact he

/-- The predecessor walk computes exactly the stored chain, given enough
fuel. -/
lemma IsChainB.walk {lv : Level} {V : Pos → Option Int} {p : Pos}
    {l : List Pos} (h : IsChainB lv V p l) (hs : InBounds lv lv.start) :
    ∀ fuel, l.length ≤ fuel → parentChainB V (colsZ lv) fuel p = some l := by
  induction h with
  | base hb =>
    intro fuel hf
    cases fuel with
    | zero => simp at hf
    | succ f => simp [parentChainB, hb]
  | @step p q l hq hv he ih =>
    intro fuel hf
    cases fuel with
    | zero => simp at hf
    | succ f =>
      have hqb : InBounds lv q := he.1
      have hnn : 0 ≤ encodeIdx (colsZ lv) q :=
        encode_nonneg _ _ hqb.2.2.1 hqb.1 (by simp [colsZ])
      have hne : encodeIdx (colsZ lv) q ≠ -1 := by omega
      have hdec : decodeIdx (colsZ lv) (encodeIdx (colsZ lv) q) = q :=
        decode_encode _ _ hqb.2.2.1 hqb.2.2.2 hqb.1
      have hlen : l.length ≤ f := by simpa using hf
      simp only [parentChainB, hv]
      rw [if_neg hne, hdec, ih f hlen]

/-- Stored chains survive extensions of the visited matrix that preserve
already-stored values. -/
lemma IsChainB.mono {lv : Level} {V V2 : Pos → Option Int} {p : Pos}
    {l : List Pos}
    (hext : ∀ x v, V x = some v → V2 x = some v)
    (h : IsChainB lv V p l) : IsChainB lv V2 p l := by
  induction h with
  | base hb => exact IsChainB.base (hext _ _ hb)
  | @step p q l hq hv he ih => exact IsChainB.step ih (hext _ _ hv) he

/-! ## solveBFS: loop invariant and correctness -/

lemma minreach_unique {lv : Level} {a b : Pos} {n m : Nat}
    (h1 : MinReach lv a b n) (h2 : MinReach lv a b m) : n = m :=
  Nat.le_antisymm (h1.2 m h2.1) (h2.2 n h1.1)

/-- Loop invariant of solveBFS. -/
structure BfsInv (lv : Level) (st : BfsState) : Prop where
  startV : st.visitedM lv.start = some (-1)
  inb : ∀ p, st.visitedM p ≠ none → InBounds lv p
  disc_iff : ∀ p, st.visitedM p ≠ none ↔ (p ∈ st.visitedCells ∨ p ∈ st.queue)
  nodupAll : (st.visitedCells ++ st.queue).Nodup
  chains : ∀ p, st.visitedM p ≠ none →
    ∃ l, IsChainB lv st.visitedM p l ∧ l.Nodup ∧
      MinReach lv lv.start p (l.length - 1)
  closure : ∀ x ∈ st.visitedCells, ∀ y, Edge lv x y → st.visitedM y ≠ none
  noExit : ∀ x ∈ st.visitedCells, canExitCheck lv x = false
  queueLevels : ∃ d A B, st.queue = A ++ B ∧
    (∀ a ∈ A, MinReach lv lv.start a d) ∧
    (∀ b ∈ B, MinReach lv lv.start b (d + 1))
  trace : st.detailedSteps.map (fun s => s.position) = st.visitedCells
  binZero : lv.cells = none → ∀ p, st.visitedM p ≠ none → p ≠ lv.start →
    gridAt lv p = 0

/-- Shape of the queue seen from its head: the head realizes the minimum
level dc, and the tail splits into a dc-level part followed by a
(dc+1)-level part. -/
lemma bfs_queue_shape {lv : Level} {st : BfsState} (inv : BfsInv lv st)
    {cur : Pos} {rest : List Pos} (hq : st.queue = cur :: rest) :
    ∃ dc A2 B2, MinReach lv lv.start cur dc ∧ rest = A2 ++ B2 ∧
      (∀ a ∈ A2, MinReach lv lv.start a dc) ∧
      (∀ b ∈ B2, MinReach lv lv.start b (dc + 1)) := by
  obtain ⟨d, A, B, hAB, hA, hB⟩ := inv.queueLevels
  rw [hq] at hAB
  cases A with
  | nil =>
    cases B with
    | nil => simp at hAB
    | cons b B2 =>
      simp only [List.nil_append, List.cons.injEq] at hAB
      obtain ⟨rfl, rfl⟩ := hAB
      refine ⟨d + 1, rest, [], hB _ (by simp), by simp, ?_, by simp⟩
      intro a ha
      exact hB a (by simp [ha])
  | cons a A2 =>
    simp only [List.cons_append, List.cons.injEq] at hAB
    obtain ⟨rfl, rfl⟩ := hAB
    refine ⟨d, A2, B, hA _ (by simp), rfl, ?_, hB⟩
    intro x hx
    exact hA x (by simp [hx])

/-- Full behavior of the solveBFS neighbor loop. -/
lemma bfsNeighbors_spec (lv : Level) (cur : Pos) (hcur : InBounds lv cur) :
    ∀ (ds : List Pos), (∀ d ∈ ds, d ∈ DIRS) →
    ∀ (V : Pos → Option Int) (q : List Pos) (n : Nat),
    ∃ news V2,
      bfsNeighbors lv cur ds V q n = (V2, q ++ news, n + news.length) ∧
      news.Nodup ∧
      (∀ p ∈ news, V p = none ∧ Edge lv cur p ∧
        V2 p = some (encodeIdx (colsZ lv) cur)) ∧
      (∀ p, p ∉ news → V2 p = V p) ∧
      (∀ y, (∃ d ∈ ds, y = stepPos cur d) → Edge lv cur y → V2 y ≠ none) := by
  intro ds
  induction ds with
  | nil =>
    intro _ V q n
    exact ⟨[], V, by simp [bfsNeighbors], by simp, by simp, fun _ _ => rfl,
      by simp⟩
  | cons d ds ih =>
    intro hds V q n
    have hdDIR : d ∈ DIRS := hds d (by simp)
    have hds2 : ∀ x ∈ ds, x ∈ DIRS := fun x hx => hds x (by simp [hx])
    set nxt : Pos := ⟨cur.r + d.r, cur.c + d.c⟩ with hnxt
    have hstep : nxt = stepPos cur d := rfl
    by_cases hoob : oobCheck lv nxt = true
    · obtain ⟨news, V2, heq, hnd, hmem, hold, hcov⟩ := ih hds2 V q n
      refine ⟨news, V2, ?_, hnd, hmem, hold, ?_⟩
      · simpa [bfsNeighbors, hoob] using heq
      · intro y hy hedge
        obtain ⟨d2, hd2, rfl⟩ := hy
        rcases List.mem_cons.mp hd2 with rfl | hd2'
        · exact absurd ((oobCheck_eq_false_iff lv _).mpr hedge.2.1)
            (by simp [← hstep, hoob])
        · exact hcov _ ⟨d2, hd2', rfl⟩ hedge
    · have hoob2 : oobCheck lv nxt = false := by simpa using hoob
      by_cases hmv : canMoveBetween lv cur nxt = true
      · by_cases hvn : V nxt = none
        · -- fresh discovery: enqueue nxt and keep going
          have hedge : Edge lv cur nxt :=
            ⟨hcur, (oobCheck_eq_false_iff lv nxt).mp hoob2,
              ⟨d, hdDIR, hstep⟩, hmv⟩
          obtain ⟨news, V2, heq, hnd, hmem, hold, hcov⟩ :=
            ih hds2 (upd V nxt (some (encodeIdx (colsZ lv) cur)))
              (q ++ [nxt]) (n + 1)
          have hVnxt : upd V nxt (some (encodeIdx (colsZ lv) cur)) nxt =
              some (encodeIdx (colsZ lv) cur) := by simp [upd]
          have hnxtnotnews : nxt ∉ news := by
            intro hmem2
            have := (hmem nxt hmem2).1
            rw [hVnxt] at this
            simp at this
          refine ⟨nxt :: news, V2, ?_, ?_, ?_, ?_, ?_⟩
          · have : bfsNeighbors lv cur (d :: ds) V q n =
                bfsNeighbors lv cur ds
                  (upd V nxt (some (encodeIdx (colsZ lv) cur))) (q ++ [nxt])
                  (n + 1) := by
              simp [bfsNeighbors, hoob2, hmv, hvn]
            rw [this, heq]
            simp
            omega
          · exact List.Nodup.cons hnxtnotnews hnd
          · intro p hp
            rcases List.mem_cons.mp hp with rfl | hp2
            · exact ⟨hvn, hedge, by rw [hold nxt hnxtnotnews, hVnxt]⟩
            · obtain ⟨h1, h2, h3⟩ := hmem p hp2
              have hpne : p ≠ nxt := by
                intro hcontra
                subst hcontra
                rw [hVnxt] at h1
                simp at h1
              refine ⟨?_, h2, h3⟩
              have := h1
              simp only [upd] at this
              rw [if_neg hpne] at this
              exact this
          · intro p hp
            have hp1 : p ∉ news := fun h => hp (by simp [h])
            have hp2 : p ≠ nxt := fun h => hp (by simp [h])
            rw [hold p hp1]
            simp only [upd]
            rw [if_neg hp2]
          · intro y hy hedge2
            obtain ⟨d2, hd2, rfl⟩ := hy
            rcases List.mem_cons.mp hd2 with rfl | hd2'
            · rw [← hstep, hold nxt hnxtnotnews, hVnxt]
              simp
            · exact hcov _ ⟨d2, hd2', rfl⟩ hedge2
        · -- already discovered
          obtain ⟨news, V2, heq, hnd, hmem, hold, hcov⟩ := ih hds2 V q n
          have hvs : (V nxt).isSome = true := by
            rcases h : V nxt with _ | v
            · exact absurd h hvn
            · rfl
          refine ⟨news, V2, ?_, hnd, hmem, hold, ?_⟩
          · simpa [bfsNeighbors, hoob2, hmv, hvs] using heq
          · intro y hy hedge2
            obtain ⟨d2, hd2, rfl⟩ := hy
            rcases List.mem_cons.mp hd2 with rfl | hd2'
            · rw [← hstep]
              by_cases hyn : nxt ∈ news
              · rw [(hmem nxt hyn).2.2]
                simp
              · rw [hold nxt hyn]
                exact hvn
            · exact hcov _ ⟨d2, hd2', rfl⟩ hedge2
      · -- movement blocked
        have hmv2 : canMoveBetween lv cur nxt = false := by simpa using hmv
        obtain ⟨news, V2, heq, hnd, hmem, hold, hcov⟩ := ih hds2 V q n
        refine ⟨news, V2, ?_, hnd, hmem, hold, ?_⟩
        · simpa [bfsNeighbors, hoob2, hmv2] using heq
        · intro y hy hedge2
          obtain ⟨d2, hd2, rfl⟩ := hy
          rcases List.mem_cons.mp hd2 with rfl | hd2'
          · rw [← hstep] at hedge2 ⊢
            exact absurd hedge2.2.2.2 (by simp [← hstep, hmv2])
          · exact hcov _ ⟨d2, hd2', rfl⟩ hedge2

/-- Everything established about a Solution returned by solveBFS or
solveDijkstra (and, except for the trace alignment, solveAStar). -/
structure SearchOut (lv : Level) (sol : Solution) : Prop where
  pathEdges : List.Chain' (fun a b => Edge lv a b) sol.path
  pathHead : sol.path.head? = some lv.start
  pathLast : ∃ e, sol.path.getLast? = some e ∧ canExitCheck lv e = true
  distEq : sol.distance = (sol.path.length : Int) - 1
  pathNe : sol.path ≠ []
  opt : OptimalExitD lv (sol.path.length - 1)
  vcNodup : sol.visitedCells.Nodup
  vcReach : ∀ p ∈ sol.visitedCells, ∃ n, ReachN lv lv.start p n
  traceEq : sol.detailedSteps.map (fun s => s.position) =
    sol.visitedCells.dropLast
  binZero : lv.cells = none → ∀ p ∈ sol.visitedCells, p ≠ lv.start →
    gridAt lv p = 0
  lastVC : sol.visitedCells.getLast? = sol.path.getLast?

lemma bfsLoop_spec (lv : Level) (hs : InBounds lv lv.start) :
    ∀ (fuel : Nat) (st : BfsState), BfsInv lv st →
    2 * (rowsN lv * colsN lv) + 1 ≤
      2 * st.visitedCells.length + st.queue.length + fuel →
    (∃ r, bfsLoop lv fuel st = some r) ∧
    (∀ sol, bfsLoop lv fuel st = some (some sol) → SearchOut lv sol) ∧
    (bfsLoop lv fuel st = some none →
      ∀ e n, ReachN lv lv.start e n → canExitCheck lv e = false) := by
  intro fuel
  induction fuel with
  | zero =>
    intro st inv hmeas
    exfalso
    have h1 : (st.visitedCells ++ st.queue).length ≤ rowsN lv * colsN lv := by
      apply nodup_inbounds_length lv _ inv.nodupAll
      intro p hp
      exact inv.inb p ((inv.disc_iff p).mpr (List.mem_append.mp hp))
    simp only [List.length_append] at h1
    omega
  | succ fuel ih =>
    intro st inv hmeas
    have hSstart : st.visitedM lv.start ≠ none := by
      rw [inv.startV]; simp
    rcases hq : st.queue with _ | ⟨cur, rest⟩
    · -- queue exhausted: NotFound; the reachable component holds no exit
      have hres : bfsLoop lv (fuel + 1) st = some none := by
        simp [bfsLoop, hq]
      refine ⟨⟨none, hres⟩, ?_, ?_⟩
      · intro sol hsol
        rw [hres] at hsol
        simp at hsol
      · intro _ e n hre
        have hSe : st.visitedM e ≠ none := by
          refine @reach_closed lv (fun z => st.visitedM z ≠ none) lv.start e n
            hSstart ?_ hre
          intro x hx y hxy
          rcases (inv.disc_iff x).mp hx with hvc | hqq
          · exact inv.closure x hvc y hxy
          · rw [hq] at hqq; simp at hqq
        rcases (inv.disc_iff e).mp hSe with hvc | hqq
        · exact inv.noExit e hvc
        · rw [hq] at hqq; simp at hqq
    · -- dequeue cur
      have hcurV : st.visitedM cur ≠ none :=
        (inv.disc_iff cur).mpr (Or.inr (by simp [hq]))
      have hcurB : InBounds lv cur := inv.inb cur hcurV
      obtain ⟨lc, hlc, hlcnd, hlcmin⟩ := inv.chains cur hcurV
      have hlcb : ∀ x ∈ lc, InBounds lv x := fun x hx =>
        inv.inb x (hlc.mem_discovered x hx)
      have hlclen : lc.length ≤ rowsN lv * colsN lv :=
        nodup_inbounds_length lv lc hlcnd hlcb
      have hwalk : parentChainB st.visitedM (colsZ lv) (chainFuel lv) cur =
          some lc :=
        hlc.walk hs (chainFuel lv) (by simp only [chainFuel]; omega)
      obtain ⟨dc, A2, B2, hcmin, hrestAB, hA2, hB2⟩ := bfs_queue_shape inv hq
      have hdc : lc.length - 1 = dc := minreach_unique hlcmin hcmin
      have hlen1 : 1 ≤ lc.length := by
        cases hlcval : lc with
        | nil => exact absurd hlcval hlc.ne_nil
        | cons a as => simp
      have hqueuelev : ∀ w ∈ st.queue,
          ∃ dw, MinReach lv lv.start w dw ∧ dc ≤ dw ∧ dw ≤ dc + 1 := by
        rw [hq]
        intro w hw
        rcases List.mem_cons.mp hw with rfl | hw2
        · exact ⟨dc, hcmin, le_refl _, by omega⟩
        · rw [hrestAB] at hw2
          rcases List.mem_append.mp hw2 with h | h
          · exact ⟨dc, hA2 w h, le_refl _, by omega⟩
          · exact ⟨dc + 1, hB2 w h, by omega, le_refl _⟩
      -- any cell undiscovered so far lies at level dc + 1 or beyond
      have hfresh : ∀ y m, st.visitedM y = none → ReachN lv lv.start y m →
          dc + 1 ≤ m := by
        intro y m hy hym
        by_contra hcon
        push_neg at hcon
        obtain ⟨x, y2, i, j, hSx, hSy2, hxy2, hax, _, hsum⟩ :=
          @reach_frontier lv (fun z => st.visitedM z ≠ none) lv.start y m
            hym hSstart (fun h => h hy)
        rcases (inv.disc_iff x).mp hSx with hvc | hqq
        · exact hSy2 (inv.closure x hvc y2 hxy2)
        · obtain ⟨dw, hdw, hdw1, _⟩ := hqueuelev x hqq
          have : dw ≤ i := hdw.2 i hax
          omega
      -- any reachable exit lies at level dc or beyond
      have hexitmin : ∀ e m, ReachN lv lv.start e m →
          canExitCheck lv e = true → dc ≤ m := by
        intro e m hre hex
        rcases hVe : st.visitedM e with _ | v
        · have := hfresh e m hVe hre
          omega
        · have hVe2 : st.visitedM e ≠ none := by rw [hVe]; simp
          rcases (inv.disc_iff e).mp hVe2 with hvc | hqq
          · rw [inv.noExit e hvc] at hex; simp at hex
          · obtain ⟨dw, hdw, hdw1, _⟩ := hqueuelev e hqq
            have : dw ≤ m := hdw.2 m hre
            omega
      by_cases hexit : canExitCheck lv cur = true
      · -- exit found: the returned solution
        have hres : bfsLoop lv (fuel + 1) st = some (some
            { distance := (lc.length : Int) - 1
              path := lc.reverse
              visitedCells := st.visitedCells ++ [cur]
              algorithm := "BFS"
              detailedSteps := st.detailedSteps }) := by
          simp only [bfsLoop, hq]
          rw [hwalk]
          simp only [hexit, if_true]
        refine ⟨⟨_, hres⟩, ?_, ?_⟩
        · intro sol hsol
          rw [hres] at hsol
          have hsol2 := Option.some_injective _ (Option.some_injective _ hsol)
          subst hsol2
          constructor
          · exact hlc.chain_edges
          · rw [List.head?_reverse]; exact hlc.getLast
          · exact ⟨cur, by rw [List.getLast?_reverse]; exact hlc.head, hexit⟩
          · simp
          · simp only [ne_eq, List.reverse_eq_nil_iff]; exact hlc.ne_nil
          · constructor
            · refine ⟨cur, ?_, hexit⟩
              simpa using hlcmin.1
            · intro e m hre hex
              have := hexitmin e m hre hex
              simp only [List.length_reverse]
              omega
          · have hsub : List.Sublist (st.visitedCells ++ [cur])
                (st.visitedCells ++ cur :: rest) :=
              List.Sublist.append_left
                (List.Sublist.cons₂ cur (List.nil_sublist rest)) _
            exact List.Nodup.sublist hsub (by rw [← hq]; exact inv.nodupAll)
          · intro p hp
            rcases List.mem_append.mp hp with hvc | hc
            · obtain ⟨l2, hl2, _, hmin2⟩ :=
                inv.chains p ((inv.disc_iff p).mpr (Or.inl hvc))
              exact ⟨l2.length - 1, hmin2.1⟩
            · simp at hc
              subst hc
              exact ⟨lc.length - 1, hlcmin.1⟩
          · simp only [List.dropLast_concat]
            exact inv.trace
          · intro hcells p hp hpne
            rcases List.mem_append.mp hp with hvc | hc
            · exact inv.binZero hcells p
                ((inv.disc_iff p).mpr (Or.inl hvc)) hpne
            · simp at hc
              subst hc
              exact inv.binZero hcells p hcurV hpne
          · rw [List.getLast?_concat, List.getLast?_reverse]
            exact hlc.head.symm
        · intro hnone
          rw [hres] at hnone
          simp at hnone
      · -- continue: expand cur and recurse
        have hexit2 : canExitCheck lv cur = false := by
          simpa using hexit
        obtain ⟨news, V2, hfold, hnewnd, hnewmem, hold, hcov⟩ :=
          bfsNeighbors_spec lv cur hcurB DIRS (fun d hd => hd)
            st.visitedM rest 0
        have hext : ∀ x v, st.visitedM x = some v → V2 x = some v := by
          intro x v hx
          by_cases hn : x ∈ news
          · exact absurd hx (by rw [(hnewmem x hn).1]; simp)
          · rw [hold x hn]; exact hx
        have hneNone : ∀ x, st.visitedM x ≠ none → V2 x ≠ none := by
          intro x hx
          rcases hxv : st.visitedM x with _ | v
          · exact absurd hxv hx
          · rw [hext x v hxv]; simp
        have hnewlev : ∀ p ∈ news, MinReach lv lv.start p (dc + 1) := by
          intro p hp
          obtain ⟨h1, h2, _⟩ := hnewmem p hp
          exact ⟨hcmin.1.snoc h2, fun m hm => hfresh p m h1 hm⟩
        set st2 : BfsState :=
          { visitedM := V2
            visitedCells := st.visitedCells ++ [cur]
            detailedSteps := st.detailedSteps ++
              [⟨cur, st.stepNumber,
                { queueSize := some (rest ++ news).length
                  currentLevel := some (lc.length - 1)
                  neighborsAdded := some (0 + news.length) }⟩]
            queue := rest ++ news
            stepNumber := st.stepNumber + 1 } with hst2
        have hred : bfsLoop lv (fuel + 1) st = bfsLoop lv fuel st2 := by
          simp only [bfsLoop, hq]
          rw [hwalk]
          simp only [hexit2, if_false, Bool.false_eq_true]
          rw [hfold]
        have inv2 : BfsInv lv st2 := by
          constructor
          · -- startV
            have hstartnot : lv.start ∉ news := by
              intro h
              exact hSstart (hnewmem _ h).1
            show V2 lv.start = some (-1)
            rw [hold _ hstartnot]
            exact inv.startV
          · -- inb
            show ∀ p, V2 p ≠ none → InBounds lv p
            intro p hp
            by_cases hn : p ∈ news
            · exact (hnewmem p hn).2.1.2.1
            · rw [hold p hn] at hp
              exact inv.inb p hp
          · -- disc_iff
            intro p
            show V2 p ≠ none ↔
              p ∈ st.visitedCells ++ [cur] ∨ p ∈ rest ++ news
            constructor
            · intro hp
              by_cases hn : p ∈ news
              · exact Or.inr (List.mem_append.mpr (Or.inr hn))
              · rw [hold p hn] at hp
                rcases (inv.disc_iff p).mp hp with hvc | hqq
                · exact Or.inl (List.mem_append.mpr (Or.inl hvc))
                · rw [hq] at hqq
                  rcases List.mem_cons.mp hqq with rfl | hr
                  · exact Or.inl (by simp)
                  · exact Or.inr (List.mem_append.mpr (Or.inl hr))
            · intro hp
              rcases hp with hvc | hqq
              · rcases List.mem_append.mp hvc with h | h
                · exact hneNone p ((inv.disc_iff p).mpr (Or.inl h))
                · simp at h
                  subst h
                  exact hneNone p hcurV
              · rcases List.mem_append.mp hqq with h | h
                · exact hneNone p
                    ((inv.disc_iff p).mpr (Or.inr (by simp [hq, h])))
                · rw [(hnewmem p h).2.2]
                  simp
          · -- nodupAll
            show ((st.visitedCells ++ [cur]) ++ (rest ++ news)).Nodup
            have hassoc : (st.visitedCells ++ [cur]) ++ (rest ++ news) =
                (st.visitedCells ++ cur :: rest) ++ news := by
              simp
            rw [hassoc]
            refine List.Nodup.append (by rw [← hq]; exact inv.nodupAll)
              hnewnd ?_
            intro a ha hna
            have h1 : st.visitedM a ≠ none := by
              refine (inv.disc_iff a).mpr ?_
              rcases List.mem_append.mp ha with h | h
              · exact Or.inl h
              · exact Or.inr (by rw [hq]; exact h)
            exact h1 (hnewmem a hna).1
          · -- chains
            show ∀ p, V2 p ≠ none → ∃ l, IsChainB lv V2 p l ∧ l.Nodup ∧
              MinReach lv lv.start p (l.length - 1)
            intro p hp
            by_cases hn : p ∈ news
            · obtain ⟨h1, h2, h3⟩ := hnewmem p hn
              refine ⟨p :: lc, ?_, ?_, ?_⟩
              · exact IsChainB.step (hlc.mono hext) h3 h2
              · refine List.Nodup.cons ?_ hlcnd
                intro hmem2
                exact (hlc.mem_discovered p hmem2) h1
              · have hcons : (p :: lc).length - 1 = dc + 1 := by
                  simp only [List.length_cons]
                  omega
                rw [hcons]
                exact hnewlev p hn
            · rw [hold p hn] at hp
              obtain ⟨l2, hl2, hnd2, hmin2⟩ := inv.chains p hp
              exact ⟨l2, hl2.mono hext, hnd2, hmin2⟩
          · -- closure
            show ∀ x ∈ st.visitedCells ++ [cur], ∀ y, Edge lv x y →
              V2 y ≠ none
            intro x hx y hxy
            rcases List.mem_append.mp hx with h | h
            · exact hneNone y (inv.closure x h y hxy)
            · simp at h
              subst h
              obtain ⟨d, hd, hdy⟩ := hxy.2.2.1
              exact hcov y ⟨d, hd, hdy⟩ hxy
          · -- noExit
            show ∀ x ∈ st.visitedCells ++ [cur], canExitCheck lv x = false
            intro x hx
            rcases List.mem_append.mp hx with h | h
            · exact inv.noExit x h
            · simp at h
              subst h
              exact hexit2
          · -- queueLevels
            refine ⟨dc, A2, B2 ++ news, ?_, hA2, ?_⟩
            · show rest ++ news = A2 ++ (B2 ++ news)
              rw [hrestAB]
              simp
            · intro b hb
              rcases List.mem_append.mp hb with h | h
              · exact hB2 b h
              · exact hnewlev b h
          · -- trace
            show (st.detailedSteps ++ _).map (fun s => s.position) =
              st.visitedCells ++ [cur]
            simp [inv.trace]
          · -- binZero
            show lv.cells = none → ∀ p, V2 p ≠ none → p ≠ lv.start →
              gridAt lv p = 0
            intro hcells p hp hpne
            by_cases hn : p ∈ news
            · obtain ⟨h1, h2, _⟩ := hnewmem p hn
              have hmv := h2.2.2.2
              rw [canMoveBetween, hcells] at hmv
              simpa using hmv
            · rw [hold p hn] at hp
              exact inv.binZero hcells p hp hpne
        have hmeas2 : 2 * (rowsN lv * colsN lv) + 1 ≤
            2 * st2.visitedCells.length + st2.queue.length + fuel := by
          show 2 * (rowsN lv * colsN lv) + 1 ≤
            2 * (st.visitedCells ++ [cur]).length + (rest ++ news).length + fuel
          rw [hq] at hmeas
          simp only [List.length_append, List.length_cons,
            List.length_singleton] at hmeas ⊢
          omega
        obtain ⟨hex2, hout2, hnone2⟩ := ih st2 inv2 hmeas2
        rw [hred]
        exact ⟨hex2, hout2, hnone2⟩

/-- The initial BFS state satisfies the invariant. -/
lemma bfs_init_inv (lv : Level) (hs : InBounds lv lv.start) :
    BfsInv lv
      { visitedM := upd (fun _ => none) lv.start (some (-1))
        visitedCells := []
        detailedSteps := []
        queue := [lv.start]
        stepNumber := 0 } := by
  constructor
  · simp [upd]
  · intro p hp
    simp only [upd] at hp
    by_cases hpe : p = lv.start
    · subst hpe; exact hs
    · rw [if_neg hpe] at hp; simp at hp
  · intro p
    simp only [upd, List.mem_singleton, List.not_mem_nil, false_or]
    by_cases hpe : p = lv.start
    · subst hpe; simp
    · rw [if_neg hpe]; simp [hpe]
  · simp
  · intro p hp
    simp only [upd] at hp
    by_cases hpe : p = lv.start
    · subst hpe
      refine ⟨[lv.start], IsChainB.base (by simp [upd]), by simp, ?_⟩
      exact ⟨ReachN.refl _, fun m _ => Nat.zero_le m⟩
    · rw [if_neg hpe] at hp; simp at hp
  · intro x hx; simp at hx
  · intro x hx; simp at hx
  · refine ⟨0, [lv.start], [], by simp, ?_, by simp⟩
    intro a ha
    simp at ha
    subst ha
    exact ⟨ReachN.refl _, fun m _ => Nat.zero_le m⟩
  · simp
  · intro _ p hp hpne
    simp only [upd] at hp
    by_cases hpe : p = lv.start
    · exact absurd hpe hpne
    · rw [if_neg hpe] at hp; simp at hp

/-- Master correctness of solveBFS at its canonical fuel. -/
theorem solveBFS_spec (lv : Level) (hs : InBounds lv lv.start) :
    (∃ r, solveBFS lv (bfsFuel lv) = some r) ∧
    (∀ sol, solveBFS lv (bfsFuel lv) = some (some sol) → SearchOut lv sol) ∧
    (solveBFS lv (bfsFuel lv) = some none →
      ∀ e n, ReachN lv lv.start e n → canExitCheck lv e = false) := by
  have h := bfsLoop_spec lv hs (bfsFuel lv) _ (bfs_init_inv lv hs)
    (by simp [bfsFuel]; omega)
  exact h

/-- On a solvable level, solveBFS returns a Solution with all the recorded
properties. -/
lemma solveBFS_solvable (lv : Level) (hs : InBounds lv lv.start)
    (hsolv : Solvable lv) :
    ∃ sol, solveBFS lv (bfsFuel lv) = some (some sol) ∧ SearchOut lv sol := by
  obtain ⟨⟨r, hr⟩, hout, hnone⟩ := solveBFS_spec lv hs
  match r, hr with
  | none, hr =>
    obtain ⟨e, n, hre, hex⟩ := hsolv
    rw [hnone hr e n hre] at hex
    simp at hex
  | some sol, hr => exact ⟨sol, hr, hout sol hr⟩

/-- On a level whose reachable component holds no exit, solveBFS returns the
NotFound sentinel. -/
lemma solveBFS_notfound (lv : Level) (hs : InBounds lv lv.start)
    (hne : ∀ e n, ReachN lv lv.start e n → canExitCheck lv e = false) :
    solveBFS lv (bfsFuel lv) = some none := by
  obtain ⟨⟨r, hr⟩, hout, _⟩ := solveBFS_spec lv hs
  match r, hr with
  | none, hr => exact hr
  | some sol, hr =>
    have out := hout sol hr
    obtain ⟨e, hlast, hex⟩ := out.pathLast
    have hevc : e ∈ sol.visitedCells := by
      have h1 : sol.visitedCells.getLast? = some e := by
        rw [out.lastVC, hlast]
      exact List.mem_of_mem_getLast? h1
    obtain ⟨n, hre⟩ := out.vcReach e hevc
    rw [hne e n hre] at hex
    simp at hex

/-! ## Shared machinery for the two linear-scan solvers -/

lemma minreach_exists {lv : Level} {a b : Pos} {n : Nat}
    (h : ReachN lv a b n) : ∃ k, MinReach lv a b k := by
  classical
  have hne : {m | ReachN lv a b m}.Nonempty := ⟨n, h⟩
  exact ⟨sInf {m | ReachN lv a b m}, Nat.sInf_mem hne,
    fun m hm => Nat.sInf_le hm⟩

/-- Frontier decomposition along a minimal path: the crossing edge lands on
a cell with exact minimal distance i + 1, and the remaining path to the
target is recorded. -/
lemma frontier_min {lv : Level} {S : Pos → Prop} {t : Pos} {k : Nat}
    (hmin : MinReach lv lv.start t k) (hstart : S lv.start) (ht : ¬ S t) :
    ∃ x y i j, S x ∧ ¬ S y ∧ Edge lv x y ∧ MinReach lv lv.start x i ∧
      MinReach lv lv.start y (i + 1) ∧ ReachN lv y t j ∧ i + 1 + j = k := by
  obtain ⟨x, y, i, j, hSx, hSy, hxy, hax, hyt, hsum⟩ :=
    reach_frontier hmin.1 hstart ht
  refine ⟨x, y, i, j, hSx, hSy, hxy, ⟨hax, ?_⟩, ⟨hax.snoc hxy, ?_⟩, hyt, hsum⟩
  · intro m hm
    by_contra hcon
    push_neg at hcon
    have : ReachN lv lv.start t (m + 1 + j) := (hm.snoc hxy).trans hyt
    have := hmin.2 _ this
    omega
  · intro m hm
    by_contra hcon
    push_neg at hcon
    have : ReachN lv lv.start t (m + j) := hm.trans hyt
    have := hmin.2 _ this
    omega

/-- The chain stored in a parent-pointer matrix below p:
[p, parent p, ..., start], each link a movement edge. -/
inductive IsChainP (lv : Level) (parent : Pos → Option Pos) :
    Pos → List Pos → Prop
  | base : parent lv.start = none → IsChainP lv parent lv.start [lv.start]
  | step {p q : Pos} {l : List Pos} : IsChainP lv parent q l →
      parent p = some q → Edge lv q p → IsChainP lv parent p (p :: l)

lemma IsChainP.ne_nilP {lv : Level} {parent : Pos → Option Pos} {p : Pos}
    {l : List Pos} (h : IsChainP lv parent p l) : l ≠ [] := by
  cases h <;> simp

lemma IsChainP.headP {lv : Level} {parent : Pos → Option Pos} {p : Pos}
    {l : List Pos} (h : IsChainP lv parent p l) : l.head? = some p := by
  cases h <;> rfl

lemma IsChainP.getLastP {lv : Level} {parent : Pos → Option Pos} {p : Pos}
    {l : List Pos} (h : IsChainP lv parent p l) :
    l.getLast? = some lv.start := by
  induction h with
  | base _ => rfl
  | @step p q l hq hv he ih =>
    rw [List.getLast?_cons, ih]
    cases hq <;> simp_all

lemma IsChainP.reachP {lv : Level} {parent : Pos → Option Pos} {p : Pos}
    {l : List Pos} (h : IsChainP lv parent p l) :
    ReachN lv lv.start p (l.length - 1) := by
  induction h with
  | base _ => exact ReachN.refl _
  | @step p q l hq hv he ih =>
    have hlen : l ≠ [] := hq.ne_nilP
    have h2 : ReachN lv lv.start p (l.length - 1 + 1) := ih.snoc he
    have harith : l.length - 1 + 1 = (p :: l).length - 1 := by
      cases l with
      | nil => exact absurd rfl hlen
      | cons a as => simp
    exact harith ▸ h2

lemma IsChainP.chain_edgesP {lv : Level} {parent : Pos → Option Pos} {p : Pos}
    {l : List Pos} (h : IsChainP lv parent p l) :
    List.Chain' (fun a b => Edge lv a b) l.reverse := by
  induction h with
  | base _ => simp
  | @step p q l hq hv he ih =>
    simp only [List.reverse_cons]
    apply List.Chain'.append ih (List.chain'_singleton p)
    intro x hx y hy
    rw [List.getLast?_reverse, hq.headP] at hx
    simp only [Option.mem_def, Option.some_inj] at hx hy
    simp only [List.head?_cons, Option.some_inj] at hy
    subst hx
    subst hy
    exact he

/-- The parent-pointer walk computes exactly the stored chain, given fuel. -/
lemma IsChainP.walkP {lv : Level} {parent : Pos → Option Pos} {p : Pos}
    {l : List Pos} (h : IsChainP lv parent p l) :
    ∀ fuel, l.length ≤ fuel → parentChainP parent fuel p = some l := by
  induction h with
  | base hb =>
    intro fuel hf
    cases fuel with
    | zero => simp at hf
    | succ f => simp [parentChainP, hb]
  | @step p q l hq hv he ih =>
    intro fuel hf
    cases fuel with
    | zero => simp at hf
    | succ f =>
      have hlen : l.length ≤ f := by simpa using hf
      simp only [parentChainP, hv]
      rw [ih f hlen]

/-- A stored chain only depends on the parent pointers at its own cells. -/
lemma IsChainP.congr {lv : Level} {parent parent2 : Pos → Option Pos} {p : Pos}
    {l : List Pos} (h : IsChainP lv parent p l)
    (hagree : ∀ x ∈ l, parent2 x = parent x) : IsChainP lv parent2 p l := by
  induction h with
  | base hb => exact IsChainP.base ((hagree _ (by simp)).trans hb)
  | @step p q l hq hv he ih =>
    refine IsChainP.step (ih ?_) ((hagree p (by simp)).trans hv) he
    intro x hx
    exact hagree x (by simp [hx])

/-- Behavior of the linear minimum scan: it returns a position of the list
whose score is minimal, together with its index, presented as a splitting
of the list. -/
lemma scanMinAux_spec (score : Pos → WithTop Int) :
    ∀ (xs : List Pos) (best : Pos) (bi i : Nat),
    (scanMinAux score xs best bi i = (best, bi) ∧
      ∀ w ∈ xs, score best ≤ score w) ∨
    (∃ pre post, xs = pre ++ (scanMinAux score xs best bi i).1 :: post ∧
      (scanMinAux score xs best bi i).2 = i + pre.length ∧
      score (scanMinAux score xs best bi i).1 ≤ score best ∧
      ∀ w ∈ xs, score (scanMinAux score xs best bi i).1 ≤ score w) := by
  intro xs
  induction xs with
  | nil => intro best bi i; left; exact ⟨rfl, by simp⟩
  | cons x xs ih =>
    intro best bi i
    by_cases hx : score x < score best
    · -- best replaced by x
      have hout : scanMinAux score (x :: xs) best bi i =
          scanMinAux score xs x i (i + 1) := by
        simp [scanMinAux, hx]
      rcases ih x i (i + 1) with ⟨heq, hmin⟩ | ⟨pre, post, hsplit, hidx, hle, hmin⟩
      · right
        refine ⟨[], xs, ?_, ?_, ?_, ?_⟩
        · rw [hout, heq]
          simp
        · rw [hout, heq]
          simp
        · rw [hout, heq]
          exact le_of_lt hx
        · rw [hout, heq]
          intro w hw
          rcases List.mem_cons.mp hw with rfl | hw2
          · exact le_refl _
          · exact hmin w hw2
      · right
        refine ⟨x :: pre, post, ?_, ?_, ?_, ?_⟩
        · rw [hout]; simp [← hsplit]
        · rw [hout, hidx]; simp; omega
        · rw [hout]; exact le_trans hle (le_of_lt hx)
        · rw [hout]
          intro w hw
          rcases List.mem_cons.mp hw with rfl | hw2
          · exact hle
          · exact hmin w hw2
    · -- best kept
      have hout : scanMinAux score (x :: xs) best bi i =
          scanMinAux score xs best bi (i + 1) := by
        simp [scanMinAux, hx]
      push_neg at hx
      rcases ih best bi (i + 1) with ⟨heq, hmin⟩ | ⟨pre, post, hsplit, hidx, hle, hmin⟩
      · left
        refine ⟨by rw [hout, heq], ?_⟩
        intro w hw
        rcases List.mem_cons.mp hw with rfl | hw2
        · exact hx
        · exact hmin w hw2
      · right
        refine ⟨x :: pre, post, ?_, ?_, ?_, ?_⟩
        · rw [hout]
          simp [← hsplit]
        · rw [hout, hidx]
          simp
          omega
        · rw [hout]
          exact hle
        · rw [hout]
          intro w hw
          rcases List.mem_cons.mp hw with rfl | hw2
          · exact le_trans hle hx
          · exact hmin w hw2

/-- Removing the element at an exhibited index. -/
lemma eraseIdx_split {α : Type} (pre post : List α) (a : α) :
    (pre ++ a :: post).eraseIdx pre.length = pre ++ post := by
  induction pre with
  | nil => simp [List.eraseIdx]
  | cons x xs ih => simp [List.eraseIdx, ih]

/-- Combined statement for the extraction step shared by solveDijkstra and
solveAStar: the scanned element splits the queue, minimizes the score, and
removal at the returned index keeps exactly the rest. -/
lemma scanMin_extract (score : Pos → WithTop Int) (q0 : Pos)
    (qrest : List Pos) :
    ∃ pre post,
      q0 :: qrest = pre ++ (scanMinAux score qrest q0 0 1).1 :: post ∧
      (q0 :: qrest).eraseIdx (scanMinAux score qrest q0 0 1).2 =
        pre ++ post ∧
      (∀ w ∈ q0 :: qrest, score (scanMinAux score qrest q0 0 1).1 ≤ score w) := by
  rcases scanMinAux_spec score qrest q0 0 1 with
    ⟨heq, hmin⟩ | ⟨pre, post, hsplit, hidx, hle, hmin⟩
  · refine ⟨[], qrest, by simp [heq], ?_, ?_⟩
    · rw [heq]
      simp [List.eraseIdx]
    · intro w hw
      rw [heq]
      rcases List.mem_cons.mp hw with rfl | hw2
      · exact le_refl _
      · exact hmin w hw2
  · refine ⟨q0 :: pre, post, by simp [← hsplit], ?_, ?_⟩
    · rw [hidx]
      have : q0 :: qrest = (q0 :: pre) ++
          (scanMinAux score qrest q0 0 1).1 :: post := by simp [← hsplit]
      rw [this]
      have h2 : 1 + pre.length = (q0 :: pre).length := by rw [List.length_cons]; omega
      rw [h2, eraseIdx_split]
    · intro w hw
      rcases List.mem_cons.mp hw with rfl | hw2
      · exact hle
      · exact hmin w hw2

lemma upd_same {α : Type} (f : Pos → α) (p : Pos) (v : α) : upd f p v p = v := by
  simp [upd]

lemma upd_ne {α : Type} (f : Pos → α) (p : Pos) (v : α) (q : Pos) (h : q ≠ p) :
    upd f p v q = f q := by
  simp [upd, h]

lemma stepPos_inj (cur : Pos) {d d2 : Pos} (h : stepPos cur d = stepPos cur d2) :
    d = d2 := by
  cases d
  cases d2
  simp only [stepPos, Pos.mk.injEq] at h ⊢
  omega

lemma wt_add_one (k : Nat) :
    (((k : Int) : WithTop Int)) + 1 = (((k + 1 : Nat) : Int) : WithTop Int) := by
  rw [← WithTop.coe_one, ← WithTop.coe_add]
  norm_cast

/-- Full behavior of the solveDijkstra relaxation loop: U is the list of
relaxed neighbors, newq the ones newly appended to the queue. -/
lemma dijNeighbors_spec (lv : Level) (cur : Pos) (vis : Pos → Bool)
    (hcur : InBounds lv cur) (hviscur : vis cur = true) :
    ∀ (ds : List Pos), (∀ d ∈ ds, d ∈ DIRS) → ds.Nodup →
    ∀ (dist : Pos → WithTop Int) (parent : Pos → Option Pos) (q : List Pos)
      (n : Nat),
    ∃ (U newq : List Pos) (dist2 : Pos → WithTop Int)
      (parent2 : Pos → Option Pos),
      dijNeighbors lv cur vis ds dist parent q n =
        (dist2, parent2, q ++ newq, n + U.length) ∧
      U.Nodup ∧
      (∀ p ∈ U, ∃ d ∈ ds, p = stepPos cur d) ∧
      (∀ p ∈ U, vis p = false ∧ Edge lv cur p ∧ dist cur + 1 < dist p ∧
        dist2 p = dist cur + 1 ∧ parent2 p = some cur) ∧
      (∀ p, p ∉ U → dist2 p = dist p ∧ parent2 p = parent p) ∧
      (∀ p, p ∈ newq ↔ (p ∈ U ∧ p ∉ q)) ∧
      newq.Nodup ∧
      (∀ y, (∃ d ∈ ds, y = stepPos cur d) → Edge lv cur y →
        vis y = false → dist2 y ≤ dist cur + 1) := by
  intro ds
  induction ds with
  | nil =>
    intro _ _ dist parent q n
    refine ⟨[], [], dist, parent, by simp [dijNeighbors], by simp, by simp,
      by simp, fun p _ => ⟨rfl, rfl⟩, by simp, by simp, by simp⟩
  | cons d ds ih =>
    intro hds hnd dist parent q n
    have hdDIR : d ∈ DIRS := hds d (by simp)
    have hds2 : ∀ x ∈ ds, x ∈ DIRS := fun x hx => hds x (by simp [hx])
    have hnd2 : ds.Nodup := (List.nodup_cons.mp hnd).2
    have hdnotin : d ∉ ds := (List.nodup_cons.mp hnd).1
    set nxt : Pos := ⟨cur.r + d.r, cur.c + d.c⟩ with hnxtdef
    have hstep : nxt = stepPos cur d := rfl
    have hUskip : ∀ (U : List Pos), (∀ p ∈ U, ∃ d2 ∈ ds, p = stepPos cur d2) →
        nxt ∉ U := by
      intro U hU hmem
      obtain ⟨d2, hd2, hstep2⟩ := hU nxt hmem
      rw [hstep] at hstep2
      rw [stepPos_inj cur hstep2] at hdnotin
      exact hdnotin hd2
    by_cases hoob : oobCheck lv nxt = true
    · obtain ⟨U, newq, dist2, parent2, heq, h1, h2, h3, h4, h5, h6, h7⟩ :=
        ih hds2 hnd2 dist parent q n
      refine ⟨U, newq, dist2, parent2, ?_, h1,
        fun p hp => (h2 p hp).imp (fun d2 h => ⟨(by simp [h.1]), h.2⟩),
        h3, h4, h5, h6, ?_⟩
      · simpa [dijNeighbors, hoob] using heq
      · intro y hy hedge hvisy
        obtain ⟨d2, hd2, rfl⟩ := hy
        rcases List.mem_cons.mp hd2 with rfl | hd2'
        · exact absurd ((oobCheck_eq_false_iff lv _).mpr hedge.2.1)
            (by simp [← hstep, hoob])
        · exact h7 _ ⟨d2, hd2', rfl⟩ hedge hvisy
    · have hoob2 : oobCheck lv nxt = false := by simpa using hoob
      by_cases hmv : canMoveBetween lv cur nxt = true
      · by_cases hvisn : vis nxt = true
        · -- settled neighbor: skipped
          obtain ⟨U, newq, dist2, parent2, heq, h1, h2, h3, h4, h5, h6, h7⟩ :=
            ih hds2 hnd2 dist parent q n
          refine ⟨U, newq, dist2, parent2, ?_, h1,
            fun p hp => (h2 p hp).imp (fun d2 h => ⟨(by simp [h.1]), h.2⟩),
            h3, h4, h5, h6, ?_⟩
          · simpa [dijNeighbors, hoob2, hmv, hvisn] using heq
          · intro y hy hedge hvisy
            obtain ⟨d2, hd2, rfl⟩ := hy
            rcases List.mem_cons.mp hd2 with rfl | hd2'
            · rw [← hstep] at hvisy
              rw [hvisy] at hvisn
              simp at hvisn
            · exact h7 _ ⟨d2, hd2', rfl⟩ hedge hvisy
        · have hvisn2 : vis nxt = false := by simpa using hvisn
          have hedgen : Edge lv cur nxt :=
            ⟨hcur, (oobCheck_eq_false_iff lv nxt).mp hoob2,
              ⟨d, hdDIR, hstep⟩, hmv⟩
          have hcurnxt : cur ≠ nxt := by
            intro h
            rw [← h] at hvisn2
            rw [hviscur] at hvisn2
            simp at hvisn2
          by_cases hlt : dist cur + 1 < dist nxt
          · -- relaxation happens
            have hdistAcur : upd dist nxt (dist cur + 1) cur = dist cur :=
              upd_ne dist nxt _ cur hcurnxt
            have hdistAnxt : upd dist nxt (dist cur + 1) nxt = dist cur + 1 :=
              upd_same dist nxt _
            by_cases hinq : nxt ∈ q
            · -- already in the queue: no append
              obtain ⟨U, newq, dist2, parent2, heq, h1, h2, h3, h4, h5, h6, h7⟩ :=
                ih hds2 hnd2 (upd dist nxt (dist cur + 1))
                  (upd parent nxt (some cur)) q (n + 1)
              have hnxtU : nxt ∉ U := by
                intro hmem
                have h3x := (h3 nxt hmem).2.2.1
                rw [hdistAcur, hdistAnxt] at h3x
                exact lt_irrefl _ h3x
              refine ⟨nxt :: U, newq, dist2, parent2, ?_, ?_, ?_, ?_, ?_, ?_,
                h6, ?_⟩
              · have hred : dijNeighbors lv cur vis (d :: ds) dist parent q n =
                    dijNeighbors lv cur vis ds (upd dist nxt (dist cur + 1))
                      (upd parent nxt (some cur)) q (n + 1) := by
                  simp [dijNeighbors, hoob2, hmv, hvisn2, hlt, hinq]
                rw [hred, heq]
                simp only [List.length_cons, Prod.mk.injEq]
                refine ⟨trivial, trivial, trivial, by omega⟩
              · exact List.Nodup.cons hnxtU h1
              · intro p hp
                rcases List.mem_cons.mp hp with rfl | hp2
                · exact ⟨d, by simp, hstep⟩
                · obtain ⟨d2, hd2, hs2⟩ := h2 p hp2
                  exact ⟨d2, by simp [hd2], hs2⟩
              · intro p hp
                rcases List.mem_cons.mp hp with rfl | hp2
                · refine ⟨hvisn2, hedgen, hlt, ?_, ?_⟩
                  · rw [(h4 nxt hnxtU).1, hdistAnxt]
                  · rw [(h4 nxt hnxtU).2, upd_same]
                · have hpne : p ≠ nxt := fun h => hnxtU (h ▸ hp2)
                  obtain ⟨hv2, he2, hlt2, hd2, hp2x⟩ := h3 p hp2
                  rw [hdistAcur] at hlt2 hd2
                  rw [upd_ne dist nxt _ p hpne] at hlt2
                  exact ⟨hv2, he2, hlt2, hd2, hp2x⟩
              · intro p hp
                have hp1 : p ∉ U := fun h => hp (by simp [h])
                have hp2 : p ≠ nxt := fun h => hp (by simp [h])
                obtain ⟨hda, hpa⟩ := h4 p hp1
                rw [upd_ne dist nxt _ p hp2] at hda
                rw [upd_ne parent nxt _ p hp2] at hpa
                exact ⟨hda, hpa⟩
              · intro p
                rw [h5 p]
                constructor
                · intro ⟨hpU, hpq⟩
                  exact ⟨by simp [hpU], hpq⟩
                · intro ⟨hpU, hpq⟩
                  rcases List.mem_cons.mp hpU with rfl | hp2
                  · exact absurd hinq hpq
                  · exact ⟨hp2, hpq⟩
              · intro y hy hedge2 hvisy
                obtain ⟨d2, hd2, rfl⟩ := hy
                rcases List.mem_cons.mp hd2 with rfl | hd2'
                · rw [← hstep, (h4 nxt hnxtU).1, hdistAnxt]
                · have := h7 _ ⟨d2, hd2', rfl⟩ hedge2 hvisy
                  rw [hdistAcur] at this
                  exact this
            · -- appended to the queue
              obtain ⟨U, newq, dist2, parent2, heq, h1, h2, h3, h4, h5, h6, h7⟩ :=
                ih hds2 hnd2 (upd dist nxt (dist cur + 1))
                  (upd parent nxt (some cur)) (q ++ [nxt]) (n + 1)
              have hnxtU : nxt ∉ U := by
                intro hmem
                have h3x := (h3 nxt hmem).2.2.1
                rw [hdistAcur, hdistAnxt] at h3x
                exact lt_irrefl _ h3x
              have hnxtnewq : nxt ∉ newq := by
                intro hmem
                exact hnxtU ((h5 nxt).mp hmem).1
              refine ⟨nxt :: U, nxt :: newq, dist2, parent2, ?_, ?_, ?_, ?_,
                ?_, ?_, List.Nodup.cons hnxtnewq h6, ?_⟩
              · have hred : dijNeighbors lv cur vis (d :: ds) dist parent q n =
                    dijNeighbors lv cur vis ds (upd dist nxt (dist cur + 1))
                      (upd parent nxt (some cur)) (q ++ [nxt]) (n + 1) := by
                  simp [dijNeighbors, hoob2, hmv, hvisn2, hlt, hinq]
                rw [hred, heq]
                simp only [List.length_cons, Prod.mk.injEq, List.append_assoc,
                  List.singleton_append]
                refine ⟨trivial, trivial, trivial, by omega⟩
              · exact List.Nodup.cons hnxtU h1
              · intro p hp
                rcases List.mem_cons.mp hp with rfl | hp2
                · exact ⟨d, by simp, hstep⟩
                · obtain ⟨d2, hd2, hs2⟩ := h2 p hp2
                  exact ⟨d2, by simp [hd2], hs2⟩
              · intro p hp
                rcases List.mem_cons.mp hp with rfl | hp2
                · refine ⟨hvisn2, hedgen, hlt, ?_, ?_⟩
                  · rw [(h4 nxt hnxtU).1, hdistAnxt]
                  · rw [(h4 nxt hnxtU).2, upd_same]
                · have hpne : p ≠ nxt := fun h => hnxtU (h ▸ hp2)
                  obtain ⟨hv2, he2, hlt2, hd2, hp2x⟩ := h3 p hp2
                  rw [hdistAcur] at hlt2 hd2
                  rw [upd_ne dist nxt _ p hpne] at hlt2
                  exact ⟨hv2, he2, hlt2, hd2, hp2x⟩
              · intro p hp
                have hp1 : p ∉ U := fun h => hp (by simp [h])
                have hp2 : p ≠ nxt := fun h => hp (by simp [h])
                obtain ⟨hda, hpa⟩ := h4 p hp1
                rw [upd_ne dist nxt _ p hp2] at hda
                rw [upd_ne parent nxt _ p hp2] at hpa
                exact ⟨hda, hpa⟩
              · intro p
                constructor
                · intro hp
                  rcases List.mem_cons.mp hp with rfl | hp2
                  · exact ⟨by simp, hinq⟩
                  · obtain ⟨hpU, hpq⟩ := (h5 p).mp hp2
                    refine ⟨by simp [hpU], ?_⟩
                    intro hq2
                    exact hpq (List.mem_append.mpr (Or.inl hq2))
                · intro ⟨hpU, hpq⟩
                  rcases List.mem_cons.mp hpU with rfl | hp2
                  · simp
                  · have hpne : p ≠ nxt := fun h => hnxtU (h ▸ hp2)
                    refine List.mem_cons.mpr (Or.inr ((h5 p).mpr ⟨hp2, ?_⟩))
                    intro hq2
                    rcases List.mem_append.mp hq2 with h | h
                    · exact hpq h
                    · simp at h
                      exact hpne h
              · intro y hy hedge2 hvisy
                obtain ⟨d2, hd2, rfl⟩ := hy
                rcases List.mem_cons.mp hd2 with rfl | hd2'
                · rw [← hstep, (h4 nxt hnxtU).1, hdistAnxt]
                · have := h7 _ ⟨d2, hd2', rfl⟩ hedge2 hvisy
                  rw [hdistAcur] at this
                  exact this
          · -- no improvement: not relaxed
            obtain ⟨U, newq, dist2, parent2, heq, h1, h2, h3, h4, h5, h6, h7⟩ :=
              ih hds2 hnd2 dist parent q n
            refine ⟨U, newq, dist2, parent2, ?_, h1,
              fun p hp => (h2 p hp).imp (fun d2 h => ⟨(by simp [h.1]), h.2⟩),
              h3, h4, h5, h6, ?_⟩
            · simpa [dijNeighbors, hoob2, hmv, hvisn2, hlt] using heq
            · intro y hy hedge2 hvisy
              obtain ⟨d2, hd2, rfl⟩ := hy
              rcases List.mem_cons.mp hd2 with rfl | hd2'
              · rw [← hstep] at hvisy hedge2 ⊢
                have hnotU : nxt ∉ U := hUskip U h2
                rw [(h4 nxt hnotU).1]
                exact le_of_not_lt hlt
              · exact h7 _ ⟨d2, hd2', rfl⟩ hedge2 hvisy
      · -- movement blocked
        have hmv2 : canMoveBetween lv cur nxt = false := by simpa using hmv
        obtain ⟨U, newq, dist2, parent2, heq, h1, h2, h3, h4, h5, h6, h7⟩ :=
          ih hds2 hnd2 dist parent q n
        refine ⟨U, newq, dist2, parent2, ?_, h1,
          fun p hp => (h2 p hp).imp (fun d2 h => ⟨(by simp [h.1]), h.2⟩),
          h3, h4, h5, h6, ?_⟩
        · simpa [dijNeighbors, hoob2, hmv2] using heq
        · intro y hy hedge2 hvisy
          obtain ⟨d2, hd2, rfl⟩ := hy
          rcases List.mem_cons.mp hd2 with rfl | hd2'
          · exact absurd hedge2.2.2.2 (by simp [← hstep, hmv2])
          · exact h7 _ ⟨d2, hd2', rfl⟩ hedge2 hvisy

/-- Loop invariant of solveDijkstra. -/
structure DijInv (lv : Level) (st : DijState) : Prop where
  distStart : st.dist lv.start = ((0 : Int) : WithTop Int)
  parentStart : st.parent lv.start = none
  startPending : st.visitedM lv.start = false → st.queue = [lv.start]
  inbD : ∀ p, st.dist p ≠ ⊤ → InBounds lv p
  vcSettled : ∀ p, st.visitedM p = true ↔ p ∈ st.visitedCells
  vcNodup : st.visitedCells.Nodup
  queueIff : ∀ p, p ∈ st.queue ↔ (st.visitedM p = false ∧ st.dist p ≠ ⊤)
  queueNodup : st.queue.Nodup
  settledData : ∀ p, st.visitedM p = true →
    ∃ (k : Nat) (l : List Pos), st.dist p = ((k : Int) : WithTop Int) ∧
      MinReach lv lv.start p k ∧ IsChainP lv st.parent p l ∧ l.Nodup ∧
      (∀ x ∈ l, st.visitedM x = true) ∧ l.length = k + 1
  unsettledParent : ∀ p, st.visitedM p = false → st.dist p ≠ ⊤ →
    p ≠ lv.start → ∃ (q : Pos) (kq : Nat), st.parent p = some q ∧
      st.visitedM q = true ∧
      Edge lv q p ∧ st.dist q = ((kq : Int) : WithTop Int) ∧
      st.dist p = (((kq + 1 : Nat) : Int) : WithTop Int)
  frontierRelax : ∀ x, st.visitedM x = true → ∀ y, Edge lv x y →
    st.visitedM y = false → st.dist y ≤ st.dist x + 1
  noExitSettled : ∀ x, st.visitedM x = true → canExitCheck lv x = false
  trace : st.detailedSteps.map (fun s => s.position) = st.visitedCells
  binZero : lv.cells = none → ∀ p, st.dist p ≠ ⊤ → p ≠ lv.start →
    gridAt lv p = 0

/-- Any finite distance entry is a natural number. -/
lemma dij_nat {lv : Level} {st : DijState} (inv : DijInv lv st) :
    ∀ p, st.dist p ≠ ⊤ → ∃ k : Nat, st.dist p = ((k : Int) : WithTop Int) := by
  intro p hp
  by_cases hps : p = lv.start
  · subst hps
    exact ⟨0, inv.distStart⟩
  · rcases hv : st.visitedM p with _ | _
    · obtain ⟨q, kq, _, _, _, _, hdp⟩ := inv.unsettledParent p hv hp hps
      exact ⟨kq + 1, hdp⟩
    · obtain ⟨k, l, hdp, _⟩ := inv.settledData p hv
      exact ⟨k, hdp⟩

/-- Any finite distance entry is realized by an actual path. -/
lemma dij_realize {lv : Level} {st : DijState} (inv : DijInv lv st) :
    ∀ (p : Pos) (k : Nat), st.dist p = ((k : Int) : WithTop Int) →
    ReachN lv lv.start p k := by
  intro p k hp
  by_cases hps : p = lv.start
  · subst hps
    rw [inv.distStart] at hp
    have : (0 : Int) = (k : Int) := by
      have := WithTop.coe_injective hp.symm
      omega
    have hk0 : k = 0 := by omega
    subst hk0
    exact ReachN.refl _
  · rcases hv : st.visitedM p with _ | _
    · obtain ⟨q, kq, _, hvq, hedge, hdq, hdp⟩ :=
        inv.unsettledParent p hv (by rw [hp]; simp) hps
      obtain ⟨kq2, l, hdq2, hminq, _⟩ := inv.settledData q hvq
      have hkq : kq2 = kq := by
        rw [hdq] at hdq2
        have := WithTop.coe_injective hdq2
        omega
      subst hkq
      have hkk : k = kq2 + 1 := by
        rw [hdp] at hp
        have := WithTop.coe_injective hp
        omega
      subst hkk
      exact hminq.1.snoc hedge
    · obtain ⟨k2, l, hdp2, hminp, _⟩ := inv.settledData p hv
      have hkk : k = k2 := by
        rw [hdp2] at hp
        have := WithTop.coe_injective hp
        omega
      subst hkk
      exact hminp.1

/-- The extraction lemma: a queue element with minimal stored distance has
exact minimal distance, and no reachable exit cell is closer. -/
lemma dij_extract {lv : Level} {st : DijState} (inv : DijInv lv st) {cur : Pos}
    (hcurq : cur ∈ st.queue)
    (hmincur : ∀ w ∈ st.queue, st.dist cur ≤ st.dist w) :
    ∃ k : Nat, st.dist cur = ((k : Int) : WithTop Int) ∧
      MinReach lv lv.start cur k ∧
      (∀ e m, ReachN lv lv.start e m → canExitCheck lv e = true → k ≤ m) := by
  obtain ⟨hvcur, hdcur⟩ := (inv.queueIff cur).mp hcurq
  obtain ⟨k, hk⟩ := dij_nat inv cur hdcur
  have hreach : ReachN lv lv.start cur k := dij_realize inv cur k hk
  -- an unsettled cell with an exhibited minimal distance bounds k from above
  have hbound : ∀ t kt, st.visitedM t = false → MinReach lv lv.start t kt →
      k ≤ kt := by
    intro t kt hvt hmint
    by_cases hcs : cur = lv.start
    · have hk0 : k = 0 := by
        rw [hcs, inv.distStart] at hk
        have := WithTop.coe_injective hk
        omega
      omega
    · have hstartset : st.visitedM lv.start = true := by
        rcases hss : st.visitedM lv.start with _ | _
        · have := inv.startPending hss
          rw [this] at hcurq
          simp at hcurq
          exact absurd hcurq hcs
        · rfl
      by_cases hts : t = lv.start
      · subst hts
        rw [hstartset] at hvt
        simp at hvt
      · obtain ⟨x, y, i, j, hSx, hSy, hxy, hminx, hminy, hyt, hsum⟩ :=
          @frontier_min lv (fun z => st.visitedM z = true) t kt hmint
            hstartset (by simp [hvt])
        obtain ⟨ix, lx, hdx, hminx2, _⟩ := inv.settledData x hSx
        have hix : ix = i := minreach_unique hminx2 hminx
        subst hix
        have hvy : st.visitedM y = false := by
          rcases hyy : st.visitedM y with _ | _
          · rfl
          · exact absurd hyy hSy
        have hrel := inv.frontierRelax x hSx y hxy hvy
        rw [hdx, wt_add_one] at hrel
        have hdyne : st.dist y ≠ ⊤ := by
          intro htop
          rw [htop] at hrel
          exact absurd hrel (by simp)
        obtain ⟨ky, hky⟩ := dij_nat inv y hdyne
        have hkyle : ky ≤ ix + 1 := by
          rw [hky] at hrel
          have := (WithTop.coe_le_coe.mp hrel)
          omega
        have hkyge : ix + 1 ≤ ky :=
          hminy.2 ky (dij_realize inv y ky hky)
        have hkey : ky = ix + 1 := by omega
        have hyq : y ∈ st.queue := (inv.queueIff y).mpr ⟨hvy, hdyne⟩
        have hmc := hmincur y hyq
        rw [hk, hky] at hmc
        have : k ≤ ky := by
          have := WithTop.coe_le_coe.mp hmc
          omega
        omega
  have hmin : MinReach lv lv.start cur k := by
    refine ⟨hreach, ?_⟩
    intro m hm
    obtain ⟨kmin, hkmin⟩ := minreach_exists hm
    have h1 : k ≤ kmin := hbound cur kmin hvcur hkmin
    have h2 : kmin ≤ m := hkmin.2 m hm
    omega
  refine ⟨k, hk, hmin, ?_⟩
  intro e m hre hex
  obtain ⟨ke, hke⟩ := minreach_exists hre
  have hkem : ke ≤ m := hke.2 m hre
  rcases hve : st.visitedM e with _ | _
  · have := hbound e ke hve hke
    omega
  · rw [inv.noExitSettled e hve] at hex
    simp at hex

/-- The predecessor chain available below the cell being extracted by
solveDijkstra (or solveAStar with its own invariant): built from the stored
parent of an unsettled cell, or trivial at start. -/
lemma dij_chain {lv : Level} {st : DijState} (inv : DijInv lv st) {cur : Pos}
    {k : Nat} (hvcur : st.visitedM cur = false)
    (hk : st.dist cur = ((k : Int) : WithTop Int)) :
    ∃ l, IsChainP lv st.parent cur l ∧ l.Nodup ∧
      (∀ x ∈ l, x = cur ∨ st.visitedM x = true) ∧ l.length = k + 1 := by
  by_cases hcs : cur = lv.start
  · subst hcs
    have hk0 : k = 0 := by
      rw [inv.distStart] at hk
      have := WithTop.coe_injective hk
      omega
    subst hk0
    exact ⟨[lv.start], IsChainP.base inv.parentStart, by simp, by simp,
      by simp⟩
  · obtain ⟨q, kq, hpar, hvq, hedge, hdq, hdcur⟩ :=
      inv.unsettledParent cur hvcur (by rw [hk]; simp) hcs
    obtain ⟨kq2, lq, hdq2, hminq, hchq, hndq, hsetq, hlenq⟩ :=
      inv.settledData q hvq
    have hkq : kq2 = kq := by
      rw [hdq] at hdq2
      have := WithTop.coe_injective hdq2
      omega
    subst hkq
    have hkk : k = kq2 + 1 := by
      rw [hdcur] at hk
      have := WithTop.coe_injective hk
      omega
    refine ⟨cur :: lq, IsChainP.step hchq hpar hedge, ?_, ?_, ?_⟩
    · refine List.Nodup.cons ?_ hndq
      intro hmem
      rw [hsetq cur hmem] at hvcur
      simp at hvcur
    · intro x hx
      rcases List.mem_cons.mp hx with rfl | hx2
      · exact Or.inl rfl
      · exact Or.inr (hsetq x hx2)
    · simp only [List.length_cons]
      omega

lemma dijLoop_spec (lv : Level) (hs : InBounds lv lv.start) :
    ∀ (fuel : Nat) (st : DijState), DijInv lv st →
    rowsN lv * colsN lv + 1 ≤ st.visitedCells.length + fuel →
    (∃ r, dijLoop lv fuel st = some r) ∧
    (∀ sol, dijLoop lv fuel st = some (some sol) → SearchOut lv sol) ∧
    (dijLoop lv fuel st = some none →
      ∀ e n, ReachN lv lv.start e n → canExitCheck lv e = false) := by
  intro fuel
  induction fuel with
  | zero =>
    intro st inv hmeas
    exfalso
    have h1 : st.visitedCells.length ≤ rowsN lv * colsN lv := by
      apply nodup_inbounds_length lv _ inv.vcNodup
      intro p hp
      obtain ⟨k, l, hk, _⟩ := inv.settledData p ((inv.vcSettled p).mpr hp)
      exact inv.inbD p (by rw [hk]; simp)
    omega
  | succ fuel ih =>
    intro st inv hmeas
    rcases hq : st.queue with _ | ⟨q0, qrest⟩
    · -- queue exhausted: NotFound
      have hres : dijLoop lv (fuel + 1) st = some none := by
        simp [dijLoop, hq]
      refine ⟨⟨none, hres⟩, ?_, ?_⟩
      · intro sol hsol
        rw [hres] at hsol
        simp at hsol
      · intro _ e n hre
        have hset : ∀ z, st.dist z ≠ ⊤ → st.visitedM z = true := by
          intro z hz
          rcases hv : st.visitedM z with _ | _
          · have := (inv.queueIff z).mpr ⟨hv, hz⟩
            rw [hq] at this
            simp at this
          · rfl
        have hSe : st.dist e ≠ ⊤ := by
          refine @reach_closed lv (fun z => st.dist z ≠ ⊤) lv.start e n
            (by show st.dist lv.start ≠ ⊤; rw [inv.distStart]; simp) ?_ hre
          intro x hx y hxy
          have hvx := hset x hx
          rcases hvy : st.visitedM y with _ | _
          · have := inv.frontierRelax x hvx y hxy hvy
            obtain ⟨kx, hkx⟩ := dij_nat inv x hx
            rw [hkx, wt_add_one] at this
            intro htop
            rw [htop] at this
            exact absurd this (by simp)
          · obtain ⟨k, l, hk, _⟩ := inv.settledData y hvy
            rw [hk]
            simp
        exact inv.noExitSettled e (hset e hSe)
    · -- extract the minimum-distance element
      obtain ⟨pre, post, hqsplit, herase, hminc⟩ :=
        scanMin_extract st.dist q0 qrest
      set cur := (scanMinAux st.dist qrest q0 0 1).1 with hcurdef
      have hcurq : cur ∈ st.queue := by
        rw [hq, hqsplit]
        simp
      have hmincur : ∀ w ∈ st.queue, st.dist cur ≤ st.dist w := by
        rw [hq]
        exact hminc
      obtain ⟨hvcur, hdcur⟩ := (inv.queueIff cur).mp hcurq
      have hcurB : InBounds lv cur := inv.inbD cur hdcur
      obtain ⟨k, hk, hkmin, hexitminK⟩ := dij_extract inv hcurq hmincur
      obtain ⟨lc, hlc, hlcnd, hlcset, hlclen⟩ := dij_chain inv hvcur hk
      have hlcb : ∀ x ∈ lc, InBounds lv x := by
        intro x hx
        rcases hlcset x hx with rfl | hx2
        · exact hcurB
        · obtain ⟨kx, l2, hkx, _⟩ := inv.settledData x hx2
          exact inv.inbD x (by rw [hkx]; simp)
      have hlcbound : lc.length ≤ rowsN lv * colsN lv :=
        nodup_inbounds_length lv lc hlcnd hlcb
      have hwalk : parentChainP st.parent (chainFuel lv) cur = some lc :=
        hlc.walkP (chainFuel lv) (by simp only [chainFuel]; omega)
      have hqunod : (q0 :: qrest).Nodup := by rw [← hq]; exact inv.queueNodup
      have hpnodup : (cur :: (pre ++ post)).Nodup := by
        have hperm : List.Perm (pre ++ cur :: post) (cur :: (pre ++ post)) :=
          List.perm_middle
        exact (hperm.nodup_iff).mp (by rw [← hqsplit]; exact hqunod)
      have hq1sub : ∀ p ∈ pre ++ post, p ∈ st.queue ∧ p ≠ cur := by
        intro p hp
        constructor
        · rw [hq, hqsplit]
          rcases List.mem_append.mp hp with h | h
          · exact List.mem_append.mpr (Or.inl h)
          · exact List.mem_append.mpr (Or.inr (by simp [h]))
        · intro hcontra
          subst hcontra
          exact (List.nodup_cons.mp hpnodup).1 hp
      have hq1mem : ∀ p, p ∈ st.queue → p ≠ cur → p ∈ pre ++ post := by
        intro p hp hpne
        rw [hq, hqsplit] at hp
        rcases List.mem_append.mp hp with h | h
        · exact List.mem_append.mpr (Or.inl h)
        · rcases List.mem_cons.mp h with h2 | h2
          · exact absurd h2 hpne
          · exact List.mem_append.mpr (Or.inr h2)
      have hcurvc : cur ∉ st.visitedCells := by
        intro hmem
        rw [← inv.vcSettled cur] at hmem
        rw [hmem] at hvcur
        simp at hvcur
      by_cases hexit : canExitCheck lv cur = true
      · -- exit found
        have hres : dijLoop lv (fuel + 1) st = some (some
            { distance := (lc.length : Int) - 1
              path := lc.reverse
              visitedCells := st.visitedCells ++ [cur]
              algorithm := "Dijkstra"
              detailedSteps := st.detailedSteps }) := by
          simp only [dijLoop, hq]
          rw [← hcurdef, hwalk]
          simp only [hexit, if_true]
        refine ⟨⟨_, hres⟩, ?_, ?_⟩
        · intro sol hsol
          rw [hres] at hsol
          have hsol2 := Option.some_injective _ (Option.some_injective _ hsol)
          subst hsol2
          constructor
          · exact hlc.chain_edgesP
          · rw [List.head?_reverse]
            exact hlc.getLastP
          · exact ⟨cur, by rw [List.getLast?_reverse]; exact hlc.headP, hexit⟩
          · simp
          · simp only [ne_eq, List.reverse_eq_nil_iff]
            exact hlc.ne_nilP
          · constructor
            · refine ⟨cur, ?_, hexit⟩
              have : lc.reverse.length - 1 = k := by
                simp only [List.length_reverse]
                omega
              rw [this]
              exact hkmin.1
            · intro e m hre hex
              have := hexitminK e m hre hex
              simp only [List.length_reverse]
              omega
          · refine List.Nodup.append inv.vcNodup (by simp) ?_
            intro a ha hac
            simp at hac
            subst hac
            exact hcurvc ha
          · intro p hp
            rcases List.mem_append.mp hp with hvc | hc
            · obtain ⟨kp, lp, _, hminp, _⟩ :=
                inv.settledData p ((inv.vcSettled p).mpr hvc)
              exact ⟨kp, hminp.1⟩
            · simp at hc
              subst hc
              exact ⟨k, hkmin.1⟩
          · simp only [List.dropLast_concat]
            exact inv.trace
          · intro hcells p hp hpne
            rcases List.mem_append.mp hp with hvc | hc
            · obtain ⟨kp, lp, hkp, _⟩ :=
                inv.settledData p ((inv.vcSettled p).mpr hvc)
              exact inv.binZero hcells p (by rw [hkp]; simp) hpne
            · simp at hc
              subst hc
              exact inv.binZero hcells cur hdcur hpne
          · rw [List.getLast?_concat, List.getLast?_reverse]
            exact hlc.headP.symm
        · intro hnone
          rw [hres] at hnone
          simp at hnone
      · -- continue: relax neighbors and recurse
        have hexit2 : canExitCheck lv cur = false := by simpa using hexit
        obtain ⟨U, newq, dist2, parent2, hfold, hUnd, hUdirs, hUmem, hUold,
          hnewq, hnewqnd, hcov⟩ :=
          dijNeighbors_spec lv cur (upd st.visitedM cur true) hcurB
            (upd_same _ _ _) DIRS (fun d hd => hd) (by decide)
            st.dist st.parent (pre ++ post) 0
        have hcurU : cur ∉ U := by
          intro hmem
          have := (hUmem cur hmem).1
          rw [upd_same] at this
          simp at this
        have hUfresh : ∀ p ∈ U, p ≠ cur ∧ st.visitedM p = false := by
          intro p hp
          have h1 := (hUmem p hp).1
          have hpne : p ≠ cur := by
            intro hcontra
            subst hcontra
            rw [upd_same] at h1
            simp at h1
          refine ⟨hpne, ?_⟩
          rw [upd_ne st.visitedM cur true p hpne] at h1
          exact h1
        have hkp1 : st.dist cur + 1 = (((k + 1 : Nat) : Int) : WithTop Int) := by
          rw [hk, wt_add_one]
        have hstartU : lv.start ∉ U := by
          intro hmem
          have := (hUmem lv.start hmem).2.2.1
          rw [hkp1, inv.distStart] at this
          have := WithTop.coe_lt_coe.mp this
          omega
        have hsettledU : ∀ x, st.visitedM x = true → x ∉ U := by
          intro x hx hmem
          rw [(hUfresh x hmem).2] at hx
          simp at hx
        set st2 : DijState :=
          { visitedM := upd st.visitedM cur true
            visitedCells := st.visitedCells ++ [cur]
            detailedSteps := st.detailedSteps ++
              [⟨cur, st.stepNumber,
                { currentDistance := some (dist2 cur)
                  relaxationCount := some (0 + U.length)
                  priorityQueueSize := some ((pre ++ post) ++ newq).length }⟩]
            dist := dist2
            parent := parent2
            queue := (pre ++ post) ++ newq
            stepNumber := st.stepNumber + 1 } with hst2
        have hred : dijLoop lv (fuel + 1) st = dijLoop lv fuel st2 := by
          simp only [dijLoop, hq]
          rw [← hcurdef]
          simp only [hexit2, Bool.false_eq_true, if_false]
          rw [herase, hfold]
        have inv2 : DijInv lv st2 := by
          constructor
          · -- distStart
            show dist2 lv.start = ((0 : Int) : WithTop Int)
            rw [(hUold lv.start hstartU).1]
            exact inv.distStart
          · -- parentStart
            show parent2 lv.start = none
            rw [(hUold lv.start hstartU).2]
            exact inv.parentStart
          · -- startPending
            intro hpend
            exfalso
            show False
            by_cases hsc : lv.start = cur
            · rw [hsc] at hpend
              have : upd st.visitedM cur true cur = true := upd_same _ _ _
              rw [hst2] at hpend
              simp only at hpend
              rw [this] at hpend
              simp at hpend
            · have hpend2 : st.visitedM lv.start = false := by
                have : upd st.visitedM cur true lv.start =
                    st.visitedM lv.start := upd_ne _ _ _ _ hsc
                rw [hst2] at hpend
                simp only at hpend
                rw [this] at hpend
                exact hpend
              have := inv.startPending hpend2
              rw [this] at hcurq
              simp at hcurq
              exact hsc hcurq.symm
          · -- inbD
            show ∀ p, dist2 p ≠ ⊤ → InBounds lv p
            intro p hp
            by_cases hn : p ∈ U
            · exact (hUmem p hn).2.1.2.1
            · rw [(hUold p hn).1] at hp
              exact inv.inbD p hp
          · -- vcSettled
            intro p
            show upd st.visitedM cur true p = true ↔
              p ∈ st.visitedCells ++ [cur]
            by_cases hn : p = cur
            · subst hn
              rw [upd_same]
              simp
            · rw [upd_ne _ _ _ _ hn]
              rw [inv.vcSettled p]
              constructor
              · intro h
                exact List.mem_append.mpr (Or.inl h)
              · intro h
                rcases List.mem_append.mp h with h2 | h2
                · exact h2
                · simp at h2
                  exact absurd h2 hn
          · -- vcNodup
            show (st.visitedCells ++ [cur]).Nodup
            refine List.Nodup.append inv.vcNodup (by simp) ?_
            intro a ha hac
            simp at hac
            subst hac
            exact hcurvc ha
          · -- queueIff
            intro p
            show p ∈ (pre ++ post) ++ newq ↔
              (upd st.visitedM cur true p = false ∧ dist2 p ≠ ⊤)
            constructor
            · intro hp
              rcases List.mem_append.mp hp with h | h
              · obtain ⟨hpq, hpne⟩ := hq1sub p h
                obtain ⟨hv1, hd1⟩ := (inv.queueIff p).mp hpq
                refine ⟨by rw [upd_ne _ _ _ _ hpne]; exact hv1, ?_⟩
                by_cases hn : p ∈ U
                · rw [(hUmem p hn).2.2.2.1, hkp1]
                  simp
                · rw [(hUold p hn).1]
                  exact hd1
              · obtain ⟨hpU, _⟩ := (hnewq p).mp h
                refine ⟨(hUmem p hpU).1, ?_⟩
                rw [(hUmem p hpU).2.2.2.1, hkp1]
                simp
            · intro ⟨hv1, hd1⟩
              have hpne : p ≠ cur := by
                intro hcontra
                subst hcontra
                rw [upd_same] at hv1
                simp at hv1
              rw [upd_ne _ _ _ _ hpne] at hv1
              by_cases hn : p ∈ U
              · by_cases hq1 : p ∈ pre ++ post
                · exact List.mem_append.mpr (Or.inl hq1)
                · exact List.mem_append.mpr
                    (Or.inr ((hnewq p).mpr ⟨hn, hq1⟩))
              · rw [(hUold p hn).1] at hd1
                exact List.mem_append.mpr
                  (Or.inl (hq1mem p ((inv.queueIff p).mpr ⟨hv1, hd1⟩) hpne))
          · -- queueNodup
            show ((pre ++ post) ++ newq).Nodup
            refine List.Nodup.append ((List.nodup_cons.mp hpnodup).2)
              hnewqnd ?_
            intro a ha han
            exact ((hnewq a).mp han).2 ha
          · -- settledData
            show ∀ p, upd st.visitedM cur true p = true →
              ∃ (kp : Nat) (l : List Pos),
                dist2 p = ((kp : Int) : WithTop Int) ∧
                MinReach lv lv.start p kp ∧ IsChainP lv parent2 p l ∧
                l.Nodup ∧ (∀ x ∈ l, upd st.visitedM cur true x = true) ∧
                l.length = kp + 1
            intro p hp
            by_cases hn : p = cur
            · subst hn
              refine ⟨k, lc, ?_, hkmin, ?_, hlcnd, ?_, by omega⟩
              · rw [(hUold cur hcurU).1]
                exact hk
              · refine hlc.congr ?_
                intro x hx
                rcases hlcset x hx with rfl | hx2
                · exact (hUold cur hcurU).2
                · exact (hUold x (hsettledU x hx2)).2
              · intro x hx
                rcases hlcset x hx with rfl | hx2
                · exact upd_same _ _ _
                · by_cases hxc : x = cur
                  · subst hxc
                    exact upd_same _ _ _
                  · rw [upd_ne _ _ _ _ hxc]
                    exact hx2
            · rw [upd_ne _ _ _ _ hn] at hp
              obtain ⟨kp, lp, hdp, hminp, hchp, hndp, hsetp, hlenp⟩ :=
                inv.settledData p hp
              refine ⟨kp, lp, ?_, hminp, ?_, hndp, ?_, hlenp⟩
              · rw [(hUold p (hsettledU p hp)).1]
                exact hdp
              · refine hchp.congr ?_
                intro x hx
                exact (hUold x (hsettledU x (hsetp x hx))).2
              · intro x hx
                by_cases hxc : x = cur
                · subst hxc
                  exact upd_same _ _ _
                · rw [upd_ne _ _ _ _ hxc]
                  exact hsetp x hx
          · -- unsettledParent
            show ∀ p, upd st.visitedM cur true p = false → dist2 p ≠ ⊤ →
              p ≠ lv.start → ∃ (q : Pos) (kq : Nat), parent2 p = some q ∧
                upd st.visitedM cur true q = true ∧ Edge lv q p ∧
                dist2 q = ((kq : Int) : WithTop Int) ∧
                dist2 p = (((kq + 1 : Nat) : Int) : WithTop Int)
            intro p hv1 hd1 hps
            have hpne : p ≠ cur := by
              intro hcontra
              subst hcontra
              rw [upd_same] at hv1
              simp at hv1
            rw [upd_ne _ _ _ _ hpne] at hv1
            by_cases hn : p ∈ U
            · refine ⟨cur, k, (hUmem p hn).2.2.2.2, upd_same _ _ _,
                (hUmem p hn).2.1, ?_, ?_⟩
              · rw [(hUold cur hcurU).1]
                exact hk
              · rw [(hUmem p hn).2.2.2.1, hkp1]
            · rw [(hUold p hn).1] at hd1
              obtain ⟨q2, kq, hpar, hvq, hedge, hdq, hdp⟩ :=
                inv.unsettledParent p hv1 hd1 hps
              refine ⟨q2, kq, ?_, ?_, hedge, ?_, ?_⟩
              · rw [(hUold p hn).2]
                exact hpar
              · by_cases hqc : q2 = cur
                · subst hqc
                  exact upd_same _ _ _
                · rw [upd_ne _ _ _ _ hqc]
                  exact hvq
              · rw [(hUold q2 (hsettledU q2 hvq)).1]
                exact hdq
              · rw [(hUold p hn).1]
                exact hdp
          · -- frontierRelax
            show ∀ x, upd st.visitedM cur true x = true → ∀ y, Edge lv x y →
              upd st.visitedM cur true y = false → dist2 y ≤ dist2 x + 1
            intro x hx y hxy hy
            have hyne : y ≠ cur := by
              intro hcontra
              subst hcontra
              rw [upd_same] at hy
              simp at hy
            rw [upd_ne _ _ _ _ hyne] at hy
            by_cases hxc : x = cur
            · subst hxc
              obtain ⟨d, hd, hdy⟩ := hxy.2.2.1
              have := hcov y ⟨d, hd, hdy⟩ hxy
                (by rw [upd_ne _ _ _ _ hyne]; exact hy)
              rw [(hUold cur hcurU).1]
              exact this
            · rw [upd_ne _ _ _ _ hxc] at hx
              have hold := inv.frontierRelax x hx y hxy hy
              have hx2 : dist2 x = st.dist x := (hUold x (hsettledU x hx)).1
              have hy2 : dist2 y ≤ st.dist y := by
                by_cases hn : y ∈ U
                · rw [(hUmem y hn).2.2.2.1]
                  exact le_of_lt (hUmem y hn).2.2.1
                · rw [(hUold y hn).1]
              exact le_trans hy2 (by rw [hx2]; exact hold)
          · -- noExitSettled
            show ∀ x, upd st.visitedM cur true x = true →
              canExitCheck lv x = false
            intro x hx
            by_cases hxc : x = cur
            · subst hxc
              exact hexit2
            · rw [upd_ne _ _ _ _ hxc] at hx
              exact inv.noExitSettled x hx
          · -- trace
            show (st.detailedSteps ++ _).map (fun s => s.position) =
              st.visitedCells ++ [cur]
            simp [inv.trace]
          · -- binZero
            show lv.cells = none → ∀ p, dist2 p ≠ ⊤ → p ≠ lv.start →
              gridAt lv p = 0
            intro hcells p hp hps
            by_cases hn : p ∈ U
            · have hmv := (hUmem p hn).2.1.2.2.2
              rw [canMoveBetween, hcells] at hmv
              simpa using hmv
            · rw [(hUold p hn).1] at hp
              exact inv.binZero hcells p hp hps
        have hmeas2 : rowsN lv * colsN lv + 1 ≤
            st2.visitedCells.length + fuel := by
          show rowsN lv * colsN lv + 1 ≤
            (st.visitedCells ++ [cur]).length + fuel
          simp only [List.length_append, List.length_singleton]
          omega
        obtain ⟨hex2, hout2, hnone2⟩ := ih st2 inv2 hmeas2
        rw [hred]
        exact ⟨hex2, hout2, hnone2⟩

/-- The initial Dijkstra state satisfies the invariant. -/
lemma dij_init_inv (lv : Level) (hs : InBounds lv lv.start) :
    DijInv lv
      { visitedM := fun _ => false
        visitedCells := []
        detailedSteps := []
        dist := upd (fun _ => (⊤ : WithTop Int)) lv.start 0
        parent := fun _ => none
        queue := [lv.start]
        stepNumber := 0 } := by
  have hdist : ∀ p, upd (fun _ => (⊤ : WithTop Int)) lv.start 0 p ≠ ⊤ →
      p = lv.start := by
    intro p hp
    by_cases hpe : p = lv.start
    · exact hpe
    · rw [upd_ne _ _ _ _ hpe] at hp
      simp at hp
  constructor
  · show upd (fun _ => (⊤ : WithTop Int)) lv.start 0 lv.start = _
    rw [upd_same]
    simp
  · rfl
  · intro _
    rfl
  · intro p hp
    rw [hdist p hp]
    exact hs
  · intro p
    simp
  · simp
  · intro p
    simp only [List.mem_singleton]
    constructor
    · intro hp
      subst hp
      refine ⟨by trivial, ?_⟩
      rw [upd_same]
      simp
    · intro ⟨_, hp⟩
      exact hdist p hp
  · simp
  · intro p hp
    simp at hp
  · intro p hv hp hps
    exact absurd (hdist p hp) hps
  · intro x hx
    simp at hx
  · intro x hx
    simp at hx
  · simp
  · intro _ p hp hps
    exact absurd (hdist p hp) hps

/-- Master correctness of solveDijkstra at its canonical fuel. -/
theorem solveDijkstra_spec (lv : Level) (hs : InBounds lv lv.start) :
    (∃ r, solveDijkstra lv (pqFuel lv) = some r) ∧
    (∀ sol, solveDijkstra lv (pqFuel lv) = some (some sol) →
      SearchOut lv sol) ∧
    (solveDijkstra lv (pqFuel lv) = some none →
      ∀ e n, ReachN lv lv.start e n → canExitCheck lv e = false) := by
  have h := dijLoop_spec lv hs (pqFuel lv) _ (dij_init_inv lv hs)
    (by simp [pqFuel])
  exact h

lemma solveDijkstra_solvable (lv : Level) (hs : InBounds lv lv.start)
    (hsolv : Solvable lv) :
    ∃ sol, solveDijkstra lv (pqFuel lv) = some (some sol) ∧
      SearchOut lv sol := by
  obtain ⟨⟨r, hr⟩, hout, hnone⟩ := solveDijkstra_spec lv hs
  match r, hr with
  | none, hr =>
    obtain ⟨e, n, hre, hex⟩ := hsolv
    rw [hnone hr e n hre] at hex
    simp at hex
  | some sol, hr => exact ⟨sol, hr, hout sol hr⟩

lemma solveDijkstra_notfound (lv : Level) (hs : InBounds lv lv.start)
    (hne : ∀ e n, ReachN lv lv.start e n → canExitCheck lv e = false) :
    solveDijkstra lv (pqFuel lv) = some none := by
  obtain ⟨⟨r, hr⟩, hout, _⟩ := solveDijkstra_spec lv hs
  match r, hr with
  | none, hr => exact hr
  | some sol, hr =>
    have out := hout sol hr
    obtain ⟨e, hlast, hex⟩ := out.pathLast
    have hevc : e ∈ sol.visitedCells := by
      have h1 : sol.visitedCells.getLast? = some e := by
        rw [out.lastVC, hlast]
      exact List.mem_of_mem_getLast? h1
    obtain ⟨n, hre⟩ := out.vcReach e hevc
    rw [hne e n hre] at hex
    simp at hex

/-! ## solveAStar: the heuristic and its consistency -/

/-- A cell passing the exit test lies on the grid border. -/
lemma canExit_border {lv : Level} {e : Pos} (hex : canExitCheck lv e = true) :
    e.r = 0 ∨ e.c = 0 ∨ e.r = rowsZ lv - 1 ∨ e.c = colsZ lv - 1 := by
  unfold canExitCheck at hex
  rcases hcells : lv.cells with _ | cs
  · rw [hcells] at hex
    simpa using hex
  · rw [hcells] at hex
    dsimp only at hex
    split_ifs at hex with h1 h2 h3 h4
    · exact Or.inl h1.1
    · exact Or.inr (Or.inr (Or.inl h2.1))
    · exact Or.inr (Or.inl h3.1)
    · exact Or.inr (Or.inr (Or.inr h4.1))

lemma heuristic_nonneg (lv : Level) (p : Pos) (hp : InBounds lv p) :
    0 ≤ heuristic p (rowsZ lv) (colsZ lv) := by
  obtain ⟨h1, h2, h3, h4⟩ := hp
  simp only [heuristic, le_min_iff]
  omega

/-- The heuristic vanishes on exit cells (they lie on the border). -/
lemma heuristic_exit_zero (lv : Level) (e : Pos) (he : InBounds lv e)
    (hex : canExitCheck lv e = true) :
    heuristic e (rowsZ lv) (colsZ lv) = 0 := by
  obtain ⟨h1, h2, h3, h4⟩ := he
  have hb := canExit_border hex
  apply le_antisymm
  · simp only [heuristic, min_le_iff]
    omega
  · simp only [heuristic, le_min_iff]
    omega

lemma min4_step {a b c d a2 b2 c2 d2 : Int} (h1 : a ≤ a2 + 1)
    (h2 : b ≤ b2 + 1) (h3 : c ≤ c2 + 1) (h4 : d ≤ d2 + 1) :
    min (min a b) (min c d) ≤ min (min a2 b2) (min c2 d2) + 1 := by
  have e1 : min (min a2 b2) (min c2 d2) + 1 =
      min (min (a2 + 1) (b2 + 1)) (min (c2 + 1) (d2 + 1)) := by
    rw [min_add_add_right, min_add_add_right, min_add_add_right]
  rw [e1]
  exact min_le_min (min_le_min h1 h2) (min_le_min h3 h4)

/-- One-step consistency of the heuristic along movement edges. -/
lemma heuristic_step (lv : Level) {u v : Pos} (he : Edge lv u v) :
    heuristic u (rowsZ lv) (colsZ lv) ≤
      heuristic v (rowsZ lv) (colsZ lv) + 1 := by
  obtain ⟨d, hd, rfl⟩ := he.2.2.1
  simp only [DIRS, List.mem_cons, List.not_mem_nil, or_false] at hd
  rcases hd with rfl | rfl | rfl | rfl <;>
    (simp only [heuristic, stepPos] <;> exact min4_step (by omega) (by omega)
      (by omega) (by omega))

/-- Consistency along a whole path. -/
lemma heuristic_path (lv : Level) {y e : Pos} {j : Nat}
    (h : ReachN lv y e j) :
    heuristic y (rowsZ lv) (colsZ lv) ≤
      (j : Int) + heuristic e (rowsZ lv) (colsZ lv) := by
  induction h with
  | refl p => simp
  | @cons p q r n hedge hr ih =>
    have h1 := heuristic_step lv hedge
    push_cast
    omega

/-- Full behavior of the solveAStar relaxation loop. -/
lemma astNeighbors_spec (lv : Level) (cur : Pos) (vis : Pos → Bool)
    (hcur : InBounds lv cur) (hviscur : vis cur = true) :
    ∀ (ds : List Pos), (∀ d ∈ ds, d ∈ DIRS) → ds.Nodup →
    ∀ (g f : Pos → WithTop Int) (parent : Pos → Option Pos) (q : List Pos),
    ∃ (U newq : List Pos) (g2 f2 : Pos → WithTop Int)
      (parent2 : Pos → Option Pos),
      astNeighbors lv cur vis ds g f parent q =
        (g2, f2, parent2, q ++ newq) ∧
      U.Nodup ∧
      (∀ p ∈ U, ∃ d ∈ ds, p = stepPos cur d) ∧
      (∀ p ∈ U, vis p = false ∧ Edge lv cur p ∧ g cur + 1 < g p ∧
        g2 p = g cur + 1 ∧
        f2 p = (g cur + 1) +
          ((heuristic p (rowsZ lv) (colsZ lv) : Int) : WithTop Int) ∧
        parent2 p = some cur) ∧
      (∀ p, p ∉ U → g2 p = g p ∧ f2 p = f p ∧ parent2 p = parent p) ∧
      (∀ p, p ∈ newq ↔ (p ∈ U ∧ p ∉ q)) ∧
      newq.Nodup ∧
      (∀ y, (∃ d ∈ ds, y = stepPos cur d) → Edge lv cur y →
        vis y = false → g2 y ≤ g cur + 1) := by
  intro ds
  induction ds with
  | nil =>
    intro _ _ g f parent q
    refine ⟨[], [], g, f, parent, by simp [astNeighbors], by simp, by simp,
      by simp, fun p _ => ⟨rfl, rfl, rfl⟩, by simp, by simp, by simp⟩
  | cons d ds ih =>
    intro hds hnd g f parent q
    have hdDIR : d ∈ DIRS := hds d (by simp)
    have hds2 : ∀ x ∈ ds, x ∈ DIRS := fun x hx => hds x (by simp [hx])
    have hnd2 : ds.Nodup := (List.nodup_cons.mp hnd).2
    have hdnotin : d ∉ ds := (List.nodup_cons.mp hnd).1
    set nxt : Pos := ⟨cur.r + d.r, cur.c + d.c⟩ with hnxtdef
    have hstep : nxt = stepPos cur d := rfl
    have hUskip : ∀ (U : List Pos), (∀ p ∈ U, ∃ d2 ∈ ds, p = stepPos cur d2) →
        nxt ∉ U := by
      intro U hU hmem
      obtain ⟨d2, hd2, hstep2⟩ := hU nxt hmem
      rw [hstep] at hstep2
      rw [stepPos_inj cur hstep2] at hdnotin
      exact hdnotin hd2
    by_cases hoob : oobCheck lv nxt = true
    · obtain ⟨U, newq, g2, f2, parent2, heq, h1, h2, h3, h4, h5, h6, h7⟩ :=
        ih hds2 hnd2 g f parent q
      refine ⟨U, newq, g2, f2, parent2, ?_, h1,
        fun p hp => (h2 p hp).imp (fun d2 h => ⟨(by simp [h.1]), h.2⟩),
        h3, h4, h5, h6, ?_⟩
      · simpa [astNeighbors, hoob] using heq
      · intro y hy hedge hvisy
        obtain ⟨d2, hd2, rfl⟩ := hy
        rcases List.mem_cons.mp hd2 with rfl | hd2'
        · exact absurd ((oobCheck_eq_false_iff lv _).mpr hedge.2.1)
            (by simp [← hstep, hoob])
        · exact h7 _ ⟨d2, hd2', rfl⟩ hedge hvisy
    · have hoob2 : oobCheck lv nxt = false := by simpa using hoob
      by_cases hmv : canMoveBetween lv cur nxt = true
      · by_cases hvisn : vis nxt = true
        · obtain ⟨U, newq, g2, f2, parent2, heq, h1, h2, h3, h4, h5, h6, h7⟩ :=
            ih hds2 hnd2 g f parent q
          refine ⟨U, newq, g2, f2, parent2, ?_, h1,
            fun p hp => (h2 p hp).imp (fun d2 h => ⟨(by simp [h.1]), h.2⟩),
            h3, h4, h5, h6, ?_⟩
          · simpa [astNeighbors, hoob2, hmv, hvisn] using heq
          · intro y hy hedge hvisy
            obtain ⟨d2, hd2, rfl⟩ := hy
            rcases List.mem_cons.mp hd2 with rfl | hd2'
            · rw [← hstep] at hvisy
              rw [hvisy] at hvisn
              simp at hvisn
            · exact h7 _ ⟨d2, hd2', rfl⟩ hedge hvisy
        · have hvisn2 : vis nxt = false := by simpa using hvisn
          have hedgen : Edge lv cur nxt :=
            ⟨hcur, (oobCheck_eq_false_iff lv nxt).mp hoob2,
              ⟨d, hdDIR, hstep⟩, hmv⟩
          have hcurnxt : cur ≠ nxt := by
            intro h
            rw [← h] at hvisn2
            rw [hviscur] at hvisn2
            simp at hvisn2
          by_cases hlt : g cur + 1 < g nxt
          · -- relaxation happens
            have hgAcur : upd g nxt (g cur + 1) cur = g cur :=
              upd_ne g nxt _ cur hcurnxt
            have hgAnxt : upd g nxt (g cur + 1) nxt = g cur + 1 :=
              upd_same g nxt _
            have hfval : upd g nxt (g cur + 1) nxt +
                ((heuristic nxt (rowsZ lv) (colsZ lv) : Int) : WithTop Int) =
                (g cur + 1) +
                ((heuristic nxt (rowsZ lv) (colsZ lv) : Int) : WithTop Int) := by
              rw [hgAnxt]
            by_cases hinq : nxt ∈ q
            · obtain ⟨U, newq, g2, f2, parent2, heq, h1, h2, h3, h4, h5, h6, h7⟩ :=
                ih hds2 hnd2 (upd g nxt (g cur + 1))
                  (upd f nxt (upd g nxt (g cur + 1) nxt +
                    ((heuristic nxt (rowsZ lv) (colsZ lv) : Int) : WithTop Int)))
                  (upd parent nxt (some cur)) q
              have hnxtU : nxt ∉ U := by
                intro hmem
                have h3x := (h3 nxt hmem).2.2.1
                rw [hgAcur, hgAnxt] at h3x
                exact lt_irrefl _ h3x
              refine ⟨nxt :: U, newq, g2, f2, parent2, ?_, ?_, ?_, ?_, ?_, ?_,
                h6, ?_⟩
              · have hred : astNeighbors lv cur vis (d :: ds) g f parent q =
                    astNeighbors lv cur vis ds (upd g nxt (g cur + 1))
                      (upd f nxt (upd g nxt (g cur + 1) nxt +
                        ((heuristic nxt (rowsZ lv) (colsZ lv) : Int) :
                          WithTop Int)))
                      (upd parent nxt (some cur)) q := by
                  simp [astNeighbors, hoob2, hmv, hvisn2, hlt, hinq]
                rw [hred, heq]
              · exact List.Nodup.cons hnxtU h1
              · intro p hp
                rcases List.mem_cons.mp hp with rfl | hp2
                · exact ⟨d, by simp, hstep⟩
                · obtain ⟨d2, hd2, hs2⟩ := h2 p hp2
                  exact ⟨d2, by simp [hd2], hs2⟩
              · intro p hp
                rcases List.mem_cons.mp hp with rfl | hp2
                · refine ⟨hvisn2, hedgen, hlt, ?_, ?_, ?_⟩
                  · rw [(h4 nxt hnxtU).1, hgAnxt]
                  · rw [(h4 nxt hnxtU).2.1, upd_same, hgAnxt]
                  · rw [(h4 nxt hnxtU).2.2, upd_same]
                · have hpne : p ≠ nxt := fun h => hnxtU (h ▸ hp2)
                  obtain ⟨hv2, he2, hlt2, hg2, hf2, hp2x⟩ := h3 p hp2
                  rw [hgAcur] at hlt2 hg2 hf2
                  rw [upd_ne g nxt _ p hpne] at hlt2
                  exact ⟨hv2, he2, hlt2, hg2, hf2, hp2x⟩
              · intro p hp
                have hp1 : p ∉ U := fun h => hp (by simp [h])
                have hp2 : p ≠ nxt := fun h => hp (by simp [h])
                obtain ⟨hga, hfa, hpa⟩ := h4 p hp1
                rw [upd_ne g nxt _ p hp2] at hga
                rw [upd_ne f nxt _ p hp2] at hfa
                rw [upd_ne parent nxt _ p hp2] at hpa
                exact ⟨hga, hfa, hpa⟩
              · intro p
                rw [h5 p]
                constructor
                · intro ⟨hpU, hpq⟩
                  exact ⟨by simp [hpU], hpq⟩
                · intro ⟨hpU, hpq⟩
                  rcases List.mem_cons.mp hpU with rfl | hp2
                  · exact absurd hinq hpq
                  · exact ⟨hp2, hpq⟩
              · intro y hy hedge2 hvisy
                obtain ⟨d2, hd2, rfl⟩ := hy
                rcases List.mem_cons.mp hd2 with rfl | hd2'
                · rw [← hstep, (h4 nxt hnxtU).1, hgAnxt]
                · have := h7 _ ⟨d2, hd2', rfl⟩ hedge2 hvisy
                  rw [hgAcur] at this
                  exact this
            · obtain ⟨U, newq, g2, f2, parent2, heq, h1, h2, h3, h4, h5, h6, h7⟩ :=
                ih hds2 hnd2 (upd g nxt (g cur + 1))
                  (upd f nxt (upd g nxt (g cur + 1) nxt +
                    ((heuristic nxt (rowsZ lv) (colsZ lv) : Int) : WithTop Int)))
                  (upd parent nxt (some cur)) (q ++ [nxt])
              have hnxtU : nxt ∉ U := by
                intro hmem
                have h3x := (h3 nxt hmem).2.2.1
                rw [hgAcur, hgAnxt] at h3x
                exact lt_irrefl _ h3x
              have hnxtnewq : nxt ∉ newq := by
                intro hmem
                exact hnxtU ((h5 nxt).mp hmem).1
              refine ⟨nxt :: U, nxt :: newq, g2, f2, parent2, ?_, ?_, ?_, ?_,
                ?_, ?_, List.Nodup.cons hnxtnewq h6, ?_⟩
              · have hred : astNeighbors lv cur vis (d :: ds) g f parent q =
                    astNeighbors lv cur vis ds (upd g nxt (g cur + 1))
                      (upd f nxt (upd g nxt (g cur + 1) nxt +
                        ((heuristic nxt (rowsZ lv) (colsZ lv) : Int) :
                          WithTop Int)))
                      (upd parent nxt (some cur)) (q ++ [nxt]) := by
                  simp [astNeighbors, hoob2, hmv, hvisn2, hlt, hinq]
                rw [hred, heq]
                simp
              · exact List.Nodup.cons hnxtU h1
              · intro p hp
                rcases List.mem_cons.mp hp with rfl | hp2
                · exact ⟨d, by simp, hstep⟩
                · obtain ⟨d2, hd2, hs2⟩ := h2 p hp2
                  exact ⟨d2, by simp [hd2], hs2⟩
              · intro p hp
                rcases List.mem_cons.mp hp with rfl | hp2
                · refine ⟨hvisn2, hedgen, hlt, ?_, ?_, ?_⟩
                  · rw [(h4 nxt hnxtU).1, hgAnxt]
                  · rw [(h4 nxt hnxtU).2.1, upd_same, hgAnxt]
                  · rw [(h4 nxt hnxtU).2.2, upd_same]
                · have hpne : p ≠ nxt := fun h => hnxtU (h ▸ hp2)
                  obtain ⟨hv2, he2, hlt2, hg2, hf2, hp2x⟩ := h3 p hp2
                  rw [hgAcur] at hlt2 hg2 hf2
                  rw [upd_ne g nxt _ p hpne] at hlt2
                  exact ⟨hv2, he2, hlt2, hg2, hf2, hp2x⟩
              · intro p hp
                have hp1 : p ∉ U := fun h => hp (by simp [h])
                have hp2 : p ≠ nxt := fun h => hp (by simp [h])
                obtain ⟨hga, hfa, hpa⟩ := h4 p hp1
                rw [upd_ne g nxt _ p hp2] at hga
                rw [upd_ne f nxt _ p hp2] at hfa
                rw [upd_ne parent nxt _ p hp2] at hpa
                exact ⟨hga, hfa, hpa⟩
              · intro p
                constructor
                · intro hp
                  rcases List.mem_cons.mp hp with rfl | hp2
                  · exact ⟨by simp, hinq⟩
                  · obtain ⟨hpU, hpq⟩ := (h5 p).mp hp2
                    refine ⟨by simp [hpU], ?_⟩
                    intro hq2
                    exact hpq (List.mem_append.mpr (Or.inl hq2))
                · intro ⟨hpU, hpq⟩
                  rcases List.mem_cons.mp hpU with rfl | hp2
                  · simp
                  · have hpne : p ≠ nxt := fun h => hnxtU (h ▸ hp2)
                    refine List.mem_cons.mpr (Or.inr ((h5 p).mpr ⟨hp2, ?_⟩))
                    intro hq2
                    rcases List.mem_append.mp hq2 with h | h
                    · exact hpq h
                    · simp at h
                      exact hpne h
              · intro y hy hedge2 hvisy
                obtain ⟨d2, hd2, rfl⟩ := hy
                rcases List.mem_cons.mp hd2 with rfl | hd2'
                · rw [← hstep, (h4 nxt hnxtU).1, hgAnxt]
                · have := h7 _ ⟨d2, hd2', rfl⟩ hedge2 hvisy
                  rw [hgAcur] at this
                  exact this
          · -- no improvement
            obtain ⟨U, newq, g2, f2, parent2, heq, h1, h2, h3, h4, h5, h6, h7⟩ :=
              ih hds2 hnd2 g f parent q
            refine ⟨U, newq, g2, f2, parent2, ?_, h1,
              fun p hp => (h2 p hp).imp (fun d2 h => ⟨(by simp [h.1]), h.2⟩),
              h3, h4, h5, h6, ?_⟩
            · simpa [astNeighbors, hoob2, hmv, hvisn2, hlt] using heq
            · intro y hy hedge2 hvisy
              obtain ⟨d2, hd2, rfl⟩ := hy
              rcases List.mem_cons.mp hd2 with rfl | hd2'
              · rw [← hstep] at hvisy hedge2 ⊢
                have hnotU : nxt ∉ U := hUskip U h2
                rw [(h4 nxt hnotU).1]
                exact le_of_not_lt hlt
              · exact h7 _ ⟨d2, hd2', rfl⟩ hedge2 hvisy
      · have hmv2 : canMoveBetween lv cur nxt = false := by simpa using hmv
        obtain ⟨U, newq, g2, f2, parent2, heq, h1, h2, h3, h4, h5, h6, h7⟩ :=
          ih hds2 hnd2 g f parent q
        refine ⟨U, newq, g2, f2, parent2, ?_, h1,
          fun p hp => (h2 p hp).imp (fun d2 h => ⟨(by simp [h.1]), h.2⟩),
          h3, h4, h5, h6, ?_⟩
        · simpa [astNeighbors, hoob2, hmv2] using heq
        · intro y hy hedge2 hvisy
          obtain ⟨d2, hd2, rfl⟩ := hy
          rcases List.mem_cons.mp hd2 with rfl | hd2'
          · exact absurd hedge2.2.2.2 (by simp [← hstep, hmv2])
          · exact h7 _ ⟨d2, hd2', rfl⟩ hedge2 hvisy

/-- Loop invariant of solveAStar. -/
structure AstInv (lv : Level) (st : AstState) : Prop where
  gStart : st.g lv.start = ((0 : Int) : WithTop Int)
  parentStart : st.parent lv.start = none
  startPending : st.visitedM lv.start = false → st.openSet = [lv.start]
  inbD : ∀ p, st.g p ≠ ⊤ → InBounds lv p
  fEq : ∀ p, st.f p = st.g p +
    ((heuristic p (rowsZ lv) (colsZ lv) : Int) : WithTop Int)
  vcSettled : ∀ p, st.visitedM p = true ↔ p ∈ st.visitedCells
  vcNodup : st.visitedCells.Nodup
  queueIff : ∀ p, p ∈ st.openSet ↔ (st.visitedM p = false ∧ st.g p ≠ ⊤)
  queueNodup : st.openSet.Nodup
  settledData : ∀ p, st.visitedM p = true →
    ∃ (k : Nat) (l : List Pos), st.g p = ((k : Int) : WithTop Int) ∧
      MinReach lv lv.start p k ∧ IsChainP lv st.parent p l ∧ l.Nodup ∧
      (∀ x ∈ l, st.visitedM x = true) ∧ l.length = k + 1
  unsettledParent : ∀ p, st.visitedM p = false → st.g p ≠ ⊤ →
    p ≠ lv.start → ∃ (q : Pos) (kq : Nat), st.parent p = some q ∧
      st.visitedM q = true ∧ Edge lv q p ∧
      st.g q = ((kq : Int) : WithTop Int) ∧
      st.g p = (((kq + 1 : Nat) : Int) : WithTop Int)
  frontierRelax : ∀ x, st.visitedM x = true → ∀ y, Edge lv x y →
    st.visitedM y = false → st.g y ≤ st.g x + 1
  noExitSettled : ∀ x, st.visitedM x = true → canExitCheck lv x = false
  trace : st.detailedSteps.map (fun s => s.position) = st.visitedCells
  binZero : lv.cells = none → ∀ p, st.g p ≠ ⊤ → p ≠ lv.start →
    gridAt lv p = 0

lemma ast_nat {lv : Level} {st : AstState} (inv : AstInv lv st) :
    ∀ p, st.g p ≠ ⊤ → ∃ k : Nat, st.g p = ((k : Int) : WithTop Int) := by
  intro p hp
  by_cases hps : p = lv.start
  · subst hps
    exact ⟨0, inv.gStart⟩
  · rcases hv : st.visitedM p with _ | _
    · obtain ⟨q, kq, _, _, _, _, hdp⟩ := inv.unsettledParent p hv hp hps
      exact ⟨kq + 1, hdp⟩
    · obtain ⟨k, l, hdp, _⟩ := inv.settledData p hv
      exact ⟨k, hdp⟩

lemma ast_realize {lv : Level} {st : AstState} (inv : AstInv lv st) :
    ∀ (p : Pos) (k : Nat), st.g p = ((k : Int) : WithTop Int) →
    ReachN lv lv.start p k := by
  intro p k hp
  by_cases hps : p = lv.start
  · subst hps
    rw [inv.gStart] at hp
    have : (0 : Int) = (k : Int) := by
      have := WithTop.coe_injective hp.symm
      omega
    have hk0 : k = 0 := by omega
    subst hk0
    exact ReachN.refl _
  · rcases hv : st.visitedM p with _ | _
    · obtain ⟨q, kq, _, hvq, hedge, hdq, hdp⟩ :=
        inv.unsettledParent p hv (by rw [hp]; simp) hps
      obtain ⟨kq2, l, hdq2, hminq, _⟩ := inv.settledData q hvq
      have hkq : kq2 = kq := by
        rw [hdq] at hdq2
        have := WithTop.coe_injective hdq2
        omega
      subst hkq
      have hkk : k = kq2 + 1 := by
        rw [hdp] at hp
        have := WithTop.coe_injective hp
        omega
      subst hkk
      exact hminq.1.snoc hedge
    · obtain ⟨k2, l, hdp2, hminp, _⟩ := inv.settledData p hv
      have hkk : k = k2 := by
        rw [hdp2] at hp
        have := WithTop.coe_injective hp
        omega
      subst hkk
      exact hminp.1

lemma ast_chain {lv : Level} {st : AstState} (inv : AstInv lv st) {cur : Pos}
    {k : Nat} (hvcur : st.visitedM cur = false)
    (hk : st.g cur = ((k : Int) : WithTop Int)) :
    ∃ l, IsChainP lv st.parent cur l ∧ l.Nodup ∧
      (∀ x ∈ l, x = cur ∨ st.visitedM x = true) ∧ l.length = k + 1 := by
  by_cases hcs : cur = lv.start
  · subst hcs
    have hk0 : k = 0 := by
      rw [inv.gStart] at hk
      have := WithTop.coe_injective hk
      omega
    subst hk0
    exact ⟨[lv.start], IsChainP.base inv.parentStart, by simp, by simp,
      by simp⟩
  · obtain ⟨q, kq, hpar, hvq, hedge, hdq, hdcur⟩ :=
      inv.unsettledParent cur hvcur (by rw [hk]; simp) hcs
    obtain ⟨kq2, lq, hdq2, hminq, hchq, hndq, hsetq, hlenq⟩ :=
      inv.settledData q hvq
    have hkq : kq2 = kq := by
      rw [hdq] at hdq2
      have := WithTop.coe_injective hdq2
      omega
    subst hkq
    have hkk : k = kq2 + 1 := by
      rw [hdcur] at hk
      have := WithTop.coe_injective hk
      omega
    refine ⟨cur :: lq, IsChainP.step hchq hpar hedge, ?_, ?_, ?_⟩
    · refine List.Nodup.cons ?_ hndq
      intro hmem
      rw [hsetq cur hmem] at hvcur
      simp at hvcur
    · intro x hx
      rcases List.mem_cons.mp hx with rfl | hx2
      · exact Or.inl rfl
      · exact Or.inr (hsetq x hx2)
    · simp only [List.length_cons]
      omega

lemma reach_inbounds {lv : Level} {a b : Pos} {n : Nat}
    (h : ReachN lv a b n) (ha : InBounds lv a) : InBounds lv b := by
  induction h with
  | refl _ => exact ha
  | cons e _ ih => exact ih e.2.1

/-- The A* extraction lemma: an open-set element with minimal f-score has
exact minimal g-score, and no reachable exit cell is closer. -/
lemma ast_extract {lv : Level} {st : AstState} (hs : InBounds lv lv.start)
    (inv : AstInv lv st) {cur : Pos} (hcurq : cur ∈ st.openSet)
    (hmincur : ∀ w ∈ st.openSet, st.f cur ≤ st.f w) :
    ∃ k : Nat, st.g cur = ((k : Int) : WithTop Int) ∧
      MinReach lv lv.start cur k ∧
      (∀ e m, ReachN lv lv.start e m → canExitCheck lv e = true → k ≤ m) := by
  obtain ⟨hvcur, hgcur⟩ := (inv.queueIff cur).mp hcurq
  obtain ⟨k, hk⟩ := ast_nat inv cur hgcur
  have hreach : ReachN lv lv.start cur k := ast_realize inv cur k hk
  have hcurB : InBounds lv cur := inv.inbD cur hgcur
  by_cases hcs : cur = lv.start
  · have hk0 : k = 0 := by
      rw [hcs, inv.gStart] at hk
      have := WithTop.coe_injective hk
      omega
    subst hk0
    refine ⟨0, hk, ⟨hreach, fun m _ => Nat.zero_le m⟩,
      fun e m _ _ => Nat.zero_le m⟩
  · have hstartset : st.visitedM lv.start = true := by
      rcases hss : st.visitedM lv.start with _ | _
      · have := inv.startPending hss
        rw [this] at hcurq
        simp at hcurq
        exact absurd hcurq hcs
      · rfl
    -- the f-based frontier bound
    have hkey : ∀ t kt, st.visitedM t = false → MinReach lv lv.start t kt →
        (k : Int) + heuristic cur (rowsZ lv) (colsZ lv) ≤
          (kt : Int) + heuristic t (rowsZ lv) (colsZ lv) := by
      intro t kt hvt hmint
      obtain ⟨x, y, i, j, hSx, hSy, hxy, hminx, hminy, hyt, hsum⟩ :=
        @frontier_min lv (fun z => st.visitedM z = true) t kt hmint
          hstartset (by simp [hvt])
      obtain ⟨ix, lx, hgx, hminx2, _⟩ := inv.settledData x hSx
      have hix : ix = i := minreach_unique hminx2 hminx
      subst hix
      have hvy : st.visitedM y = false := by
        rcases hyy : st.visitedM y with _ | _
        · rfl
        · exact absurd hyy hSy
      have hrel := inv.frontierRelax x hSx y hxy hvy
      rw [hgx, wt_add_one] at hrel
      have hgyne : st.g y ≠ ⊤ := by
        intro htop
        rw [htop] at hrel
        exact absurd hrel (by simp)
      obtain ⟨ky, hky⟩ := ast_nat inv y hgyne
      have hkyle : ky ≤ ix + 1 := by
        rw [hky] at hrel
        have := WithTop.coe_le_coe.mp hrel
        omega
      have hkyge : ix + 1 ≤ ky := hminy.2 ky (ast_realize inv y ky hky)
      have hkey2 : ky = ix + 1 := by omega
      have hyq : y ∈ st.openSet := (inv.queueIff y).mpr ⟨hvy, hgyne⟩
      have hfc := hmincur y hyq
      rw [inv.fEq cur, inv.fEq y, hk, hky, ← WithTop.coe_add,
        ← WithTop.coe_add] at hfc
      have hfc2 := WithTop.coe_le_coe.mp hfc
      have hcons := heuristic_path lv hyt
      have hcast : ((ky : Int)) = ((ix : Int)) + 1 := by
        omega
      omega
    have hmin : MinReach lv lv.start cur k := by
      refine ⟨hreach, ?_⟩
      intro m hm
      obtain ⟨kmin, hkmin⟩ := minreach_exists hm
      have h1 := hkey cur kmin hvcur hkmin
      have h2 : kmin ≤ m := hkmin.2 m hm
      omega
    refine ⟨k, hk, hmin, ?_⟩
    intro e m hre hex
    obtain ⟨ke, hke⟩ := minreach_exists hre
    have hkem : ke ≤ m := hke.2 m hre
    rcases hve : st.visitedM e with _ | _
    · have h1 := hkey e ke hve hke
      have heb : InBounds lv e := reach_inbounds hre hs
      rw [heuristic_exit_zero lv e heb hex] at h1
      have h2 := heuristic_nonneg lv cur hcurB
      omega
    · rw [inv.noExitSettled e hve] at hex
      simp at hex

/-- Everything established about a Solution returned by solveAStar. -/
structure AstOut (lv : Level) (sol : Solution) : Prop where
  pathEdges : List.Chain' (fun a b => Edge lv a b) sol.path
  pathHead : sol.path.head? = some lv.start
  pathLast : ∃ e, sol.path.getLast? = some e ∧ canExitCheck lv e = true
  distEq : sol.distance = (sol.path.length : Int) - 1
  pathNe : sol.path ≠ []
  opt : OptimalExitD lv (sol.path.length - 1)
  vcNodup : sol.visitedCells.Nodup
  vcReach : ∀ p ∈ sol.visitedCells, ∃ n, ReachN lv lv.start p n
  traceEq : sol.detailedSteps.map (fun s => s.position) = sol.visitedCells
  binZero : lv.cells = none → ∀ p ∈ sol.visitedCells, p ≠ lv.start →
    gridAt lv p = 0
  lastVC : sol.visitedCells.getLast? = sol.path.getLast?

lemma astLoop_spec (lv : Level) (hs : InBounds lv lv.start) :
    ∀ (fuel : Nat) (st : AstState), AstInv lv st →
    rowsN lv * colsN lv + 1 ≤ st.visitedCells.length + fuel →
    (∃ r, astLoop lv fuel st = some r) ∧
    (∀ sol, astLoop lv fuel st = some (some sol) → AstOut lv sol) ∧
    (astLoop lv fuel st = some none →
      ∀ e n, ReachN lv lv.start e n → canExitCheck lv e = false) := by
  intro fuel
  induction fuel with
  | zero =>
    intro st inv hmeas
    exfalso
    have h1 : st.visitedCells.length ≤ rowsN lv * colsN lv := by
      apply nodup_inbounds_length lv _ inv.vcNodup
      intro p hp
      obtain ⟨k, l, hk, _⟩ := inv.settledData p ((inv.vcSettled p).mpr hp)
      exact inv.inbD p (by rw [hk]; simp)
    omega
  | succ fuel ih =>
    intro st inv hmeas
    rcases hq : st.openSet with _ | ⟨q0, qrest⟩
    · have hres : astLoop lv (fuel + 1) st = some none := by
        simp [astLoop, hq]
      refine ⟨⟨none, hres⟩, ?_, ?_⟩
      · intro sol hsol
        rw [hres] at hsol
        simp at hsol
      · intro _ e n hre
        have hset : ∀ z, st.g z ≠ ⊤ → st.visitedM z = true := by
          intro z hz
          rcases hv : st.visitedM z with _ | _
          · have := (inv.queueIff z).mpr ⟨hv, hz⟩
            rw [hq] at this
            simp at this
          · rfl
        have hSe : st.g e ≠ ⊤ := by
          refine @reach_closed lv (fun z => st.g z ≠ ⊤) lv.start e n
            (by show st.g lv.start ≠ ⊤; rw [inv.gStart]; simp) ?_ hre
          intro x hx y hxy
          have hvx := hset x hx
          rcases hvy : st.visitedM y with _ | _
          · have := inv.frontierRelax x hvx y hxy hvy
            obtain ⟨kx, hkx⟩ := ast_nat inv x hx
            rw [hkx, wt_add_one] at this
            intro htop
            rw [htop] at this
            exact absurd this (by simp)
          · obtain ⟨k, l, hk, _⟩ := inv.settledData y hvy
            rw [hk]
            simp
        exact inv.noExitSettled e (hset e hSe)
    · obtain ⟨pre, post, hqsplit, herase, hminc⟩ :=
        scanMin_extract st.f q0 qrest
      set cur := (scanMinAux st.f qrest q0 0 1).1 with hcurdef
      have hcurq : cur ∈ st.openSet := by
        rw [hq, hqsplit]
        simp
      have hmincur : ∀ w ∈ st.openSet, st.f cur ≤ st.f w := by
        rw [hq]
        exact hminc
      obtain ⟨hvcur, hgcur⟩ := (inv.queueIff cur).mp hcurq
      have hcurB : InBounds lv cur := inv.inbD cur hgcur
      obtain ⟨k, hk, hkmin, hexitminK⟩ := ast_extract hs inv hcurq hmincur
      obtain ⟨lc, hlc, hlcnd, hlcset, hlclen⟩ := ast_chain inv hvcur hk
      have hlcb : ∀ x ∈ lc, InBounds lv x := by
        intro x hx
        rcases hlcset x hx with rfl | hx2
        · exact hcurB
        · obtain ⟨kx, l2, hkx, _⟩ := inv.settledData x hx2
          exact inv.inbD x (by rw [hkx]; simp)
      have hlcbound : lc.length ≤ rowsN lv * colsN lv :=
        nodup_inbounds_length lv lc hlcnd hlcb
      have hwalk : parentChainP st.parent (chainFuel lv) cur = some lc :=
        hlc.walkP (chainFuel lv) (by simp only [chainFuel]; omega)
      have hqunod : (q0 :: qrest).Nodup := by rw [← hq]; exact inv.queueNodup
      have hpnodup : (cur :: (pre ++ post)).Nodup := by
        have hperm : List.Perm (pre ++ cur :: post) (cur :: (pre ++ post)) :=
          List.perm_middle
        exact (hperm.nodup_iff).mp (by rw [← hqsplit]; exact hqunod)
      have hq1sub : ∀ p ∈ pre ++ post, p ∈ st.openSet ∧ p ≠ cur := by
        intro p hp
        constructor
        · rw [hq, hqsplit]
          rcases List.mem_append.mp hp with h | h
          · exact List.mem_append.mpr (Or.inl h)
          · exact List.mem_append.mpr (Or.inr (by simp [h]))
        · intro hcontra
          subst hcontra
          exact (List.nodup_cons.mp hpnodup).1 hp
      have hq1mem : ∀ p, p ∈ st.openSet → p ≠ cur → p ∈ pre ++ post := by
        intro p hp hpne
        rw [hq, hqsplit] at hp
        rcases List.mem_append.mp hp with h | h
        · exact List.mem_append.mpr (Or.inl h)
        · rcases List.mem_cons.mp h with h2 | h2
          · exact absurd h2 hpne
          · exact List.mem_append.mpr (Or.inr h2)
      have hcurvc : cur ∉ st.visitedCells := by
        intro hmem
        rw [← inv.vcSettled cur] at hmem
        rw [hmem] at hvcur
        simp at hvcur
      by_cases hexit : canExitCheck lv cur = true
      · -- exit found
        have hres : astLoop lv (fuel + 1) st = some (some
            { distance := (lc.length : Int) - 1
              path := lc.reverse
              visitedCells := st.visitedCells ++ [cur]
              algorithm := "A*"
              detailedSteps := st.detailedSteps ++
                [⟨cur, st.stepNumber,
                  { gScore := some (st.g cur)
                    hScore := some (heuristic cur (rowsZ lv) (colsZ lv))
                    fScore := some (st.f cur)
                    openSetSize := some (pre ++ post).length }⟩]
              aStarScores := some
                { gScores := scoreMatrix lv (fun r c => st.g ⟨r, c⟩)
                  hScores := scoreMatrix lv
                    (fun r c => heuristic ⟨r, c⟩ (rowsZ lv) (colsZ lv))
                  fScores := scoreMatrix lv (fun r c => st.f ⟨r, c⟩) } }) := by
          simp only [astLoop, hq]
          rw [← hcurdef, herase, hwalk]
          simp only [hexit, if_true]
        refine ⟨⟨_, hres⟩, ?_, ?_⟩
        · intro sol hsol
          rw [hres] at hsol
          have hsol2 := Option.some_injective _ (Option.some_injective _ hsol)
          subst hsol2
          constructor
          · exact hlc.chain_edgesP
          · rw [List.head?_reverse]
            exact hlc.getLastP
          · exact ⟨cur, by rw [List.getLast?_reverse]; exact hlc.headP, hexit⟩
          · simp
          · simp only [ne_eq, List.reverse_eq_nil_iff]
            exact hlc.ne_nilP
          · constructor
            · refine ⟨cur, ?_, hexit⟩
              have : lc.reverse.length - 1 = k := by
                simp only [List.length_reverse]
                omega
              rw [this]
              exact hkmin.1
            · intro e m hre hex
              have := hexitminK e m hre hex
              simp only [List.length_reverse]
              omega
          · refine List.Nodup.append inv.vcNodup (by simp) ?_
            intro a ha hac
            simp at hac
            subst hac
            exact hcurvc ha
          · intro p hp
            rcases List.mem_append.mp hp with hvc | hc
            · obtain ⟨kp, lp, _, hminp, _⟩ :=
                inv.settledData p ((inv.vcSettled p).mpr hvc)
              exact ⟨kp, hminp.1⟩
            · simp at hc
              subst hc
              exact ⟨k, hkmin.1⟩
          · simp [inv.trace]
          · intro hcells p hp hpne
            rcases List.mem_append.mp hp with hvc | hc
            · obtain ⟨kp, lp, hkp, _⟩ :=
                inv.settledData p ((inv.vcSettled p).mpr hvc)
              exact inv.binZero hcells p (by rw [hkp]; simp) hpne
            · simp at hc
              subst hc
              exact inv.binZero hcells cur hgcur hpne
          · rw [List.getLast?_concat, List.getLast?_reverse]
            exact hlc.headP.symm
        · intro hnone
          rw [hres] at hnone
          simp at hnone
      · -- continue: relax neighbors and recurse
        have hexit2 : canExitCheck lv cur = false := by simpa using hexit
        obtain ⟨U, newq, g2, f2, parent2, hfold, hUnd, hUdirs, hUmem, hUold,
          hnewq, hnewqnd, hcov⟩ :=
          astNeighbors_spec lv cur (upd st.visitedM cur true) hcurB
            (upd_same _ _ _) DIRS (fun d hd => hd) (by decide)
            st.g st.f st.parent (pre ++ post)
        have hcurU : cur ∉ U := by
          intro hmem
          have := (hUmem cur hmem).1
          rw [upd_same] at this
          simp at this
        have hUfresh : ∀ p ∈ U, p ≠ cur ∧ st.visitedM p = false := by
          intro p hp
          have h1 := (hUmem p hp).1
          have hpne : p ≠ cur := by
            intro hcontra
            subst hcontra
            rw [upd_same] at h1
            simp at h1
          refine ⟨hpne, ?_⟩
          rw [upd_ne st.visitedM cur true p hpne] at h1
          exact h1
        have hkp1 : st.g cur + 1 = (((k + 1 : Nat) : Int) : WithTop Int) := by
          rw [hk, wt_add_one]
        have hstartU : lv.start ∉ U := by
          intro hmem
          have := (hUmem lv.start hmem).2.2.1
          rw [hkp1, inv.gStart] at this
          have := WithTop.coe_lt_coe.mp this
          omega
        have hsettledU : ∀ x, st.visitedM x = true → x ∉ U := by
          intro x hx hmem
          rw [(hUfresh x hmem).2] at hx
          simp at hx
        set st2 : AstState :=
          { visitedM := upd st.visitedM cur true
            visitedCells := st.visitedCells ++ [cur]
            detailedSteps := st.detailedSteps ++
              [⟨cur, st.stepNumber,
                { gScore := some (st.g cur)
                  hScore := some (heuristic cur (rowsZ lv) (colsZ lv))
                  fScore := some (st.f cur)
                  openSetSize := some (pre ++ post).length }⟩]
            g := g2
            f := f2
            parent := parent2
            openSet := (pre ++ post) ++ newq
            stepNumber := st.stepNumber + 1 } with hst2
        have hred : astLoop lv (fuel + 1) st = astLoop lv fuel st2 := by
          simp only [astLoop, hq]
          rw [← hcurdef]
          simp only [hexit2, Bool.false_eq_true, if_false]
          rw [herase, hfold]
        have inv2 : AstInv lv st2 := by
          constructor
          · show g2 lv.start = ((0 : Int) : WithTop Int)
            rw [(hUold lv.start hstartU).1]
            exact inv.gStart
          · show parent2 lv.start = none
            rw [(hUold lv.start hstartU).2.2]
            exact inv.parentStart
          · intro hpend
            exfalso
            by_cases hsc : lv.start = cur
            · have h2 : upd st.visitedM cur true cur = true := upd_same _ _ _
              rw [hsc] at hpend
              rw [hst2] at hpend
              simp only at hpend
              rw [h2] at hpend
              simp at hpend
            · have hpend2 : st.visitedM lv.start = false := by
                have h3 : upd st.visitedM cur true lv.start =
                    st.visitedM lv.start := upd_ne _ _ _ _ hsc
                rw [hst2] at hpend
                simp only at hpend
                rw [h3] at hpend
                exact hpend
              have := inv.startPending hpend2
              rw [this] at hcurq
              simp at hcurq
              exact hsc hcurq.symm
          · show ∀ p, g2 p ≠ ⊤ → InBounds lv p
            intro p hp
            by_cases hn : p ∈ U
            · exact (hUmem p hn).2.1.2.1
            · rw [(hUold p hn).1] at hp
              exact inv.inbD p hp
          · show ∀ p, f2 p = g2 p +
              ((heuristic p (rowsZ lv) (colsZ lv) : Int) : WithTop Int)
            intro p
            by_cases hn : p ∈ U
            · rw [(hUmem p hn).2.2.2.2.1, (hUmem p hn).2.2.2.1]
            · rw [(hUold p hn).1, (hUold p hn).2.1]
              exact inv.fEq p
          · intro p
            show upd st.visitedM cur true p = true ↔
              p ∈ st.visitedCells ++ [cur]
            by_cases hn : p = cur
            · subst hn
              rw [upd_same]
              simp
            · rw [upd_ne _ _ _ _ hn]
              rw [inv.vcSettled p]
              constructor
              · intro h
                exact List.mem_append.mpr (Or.inl h)
              · intro h
                rcases List.mem_append.mp h with h2 | h2
                · exact h2
                · simp at h2
                  exact absurd h2 hn
          · show (st.visitedCells ++ [cur]).Nodup
            refine List.Nodup.append inv.vcNodup (by simp) ?_
            intro a ha hac
            simp at hac
            subst hac
            exact hcurvc ha
          · intro p
            show p ∈ (pre ++ post) ++ newq ↔
              (upd st.visitedM cur true p = false ∧ g2 p ≠ ⊤)
            constructor
            · intro hp
              rcases List.mem_append.mp hp with h | h
              · obtain ⟨hpq, hpne⟩ := hq1sub p h
                obtain ⟨hv1, hd1⟩ := (inv.queueIff p).mp hpq
                refine ⟨by rw [upd_ne _ _ _ _ hpne]; exact hv1, ?_⟩
                by_cases hn : p ∈ U
                · rw [(hUmem p hn).2.2.2.1, hkp1]
                  simp
                · rw [(hUold p hn).1]
                  exact hd1
              · obtain ⟨hpU, _⟩ := (hnewq p).mp h
                refine ⟨(hUmem p hpU).1, ?_⟩
                rw [(hUmem p hpU).2.2.2.1, hkp1]
                simp
            · intro ⟨hv1, hd1⟩
              have hpne : p ≠ cur := by
                intro hcontra
                subst hcontra
                rw [upd_same] at hv1
                simp at hv1
              rw [upd_ne _ _ _ _ hpne] at hv1
              by_cases hn : p ∈ U
              · by_cases hq1 : p ∈ pre ++ post
                · exact List.mem_append.mpr (Or.inl hq1)
                · exact List.mem_append.mpr
                    (Or.inr ((hnewq p).mpr ⟨hn, hq1⟩))
              · rw [(hUold p hn).1] at hd1
                exact List.mem_append.mpr
                  (Or.inl (hq1mem p ((inv.queueIff p).mpr ⟨hv1, hd1⟩) hpne))
          · show ((pre ++ post) ++ newq).Nodup
            refine List.Nodup.append ((List.nodup_cons.mp hpnodup).2)
              hnewqnd ?_
            intro a ha han
            exact ((hnewq a).mp han).2 ha
          · show ∀ p, upd st.visitedM cur true p = true →
              ∃ (kp : Nat) (l : List Pos),
                g2 p = ((kp : Int) : WithTop Int) ∧
                MinReach lv lv.start p kp ∧ IsChainP lv parent2 p l ∧
                l.Nodup ∧ (∀ x ∈ l, upd st.visitedM cur true x = true) ∧
                l.length = kp + 1
            intro p hp
            by_cases hn : p = cur
            · subst hn
              refine ⟨k, lc, ?_, hkmin, ?_, hlcnd, ?_, by omega⟩
              · rw [(hUold cur hcurU).1]
                exact hk
              · refine hlc.congr ?_
                intro x hx
                rcases hlcset x hx with rfl | hx2
                · exact (hUold cur hcurU).2.2
                · exact (hUold x (hsettledU x hx2)).2.2
              · intro x hx
                rcases hlcset x hx with rfl | hx2
                · exact upd_same _ _ _
                · by_cases hxc : x = cur
                  · subst hxc
                    exact upd_same _ _ _
                  · rw [upd_ne _ _ _ _ hxc]
                    exact hx2
            · rw [upd_ne _ _ _ _ hn] at hp
              obtain ⟨kp, lp, hdp, hminp, hchp, hndp, hsetp, hlenp⟩ :=
                inv.settledData p hp
              refine ⟨kp, lp, ?_, hminp, ?_, hndp, ?_, hlenp⟩
              · rw [(hUold p (hsettledU p hp)).1]
                exact hdp
              · refine hchp.congr ?_
                intro x hx
                exact (hUold x (hsettledU x (hsetp x hx))).2.2
              · intro x hx
                by_cases hxc : x = cur
                · subst hxc
                  exact upd_same _ _ _
                · rw [upd_ne _ _ _ _ hxc]
                  exact hsetp x hx
          · show ∀ p, upd st.visitedM cur true p = false → g2 p ≠ ⊤ →
              p ≠ lv.start → ∃ (q : Pos) (kq : Nat), parent2 p = some q ∧
                upd st.visitedM cur true q = true ∧ Edge lv q p ∧
                g2 q = ((kq : Int) : WithTop Int) ∧
                g2 p = (((kq + 1 : Nat) : Int) : WithTop Int)
            intro p hv1 hd1 hps
            have hpne : p ≠ cur := by
              intro hcontra
              subst hcontra
              rw [upd_same] at hv1
              simp at hv1
            rw [upd_ne _ _ _ _ hpne] at hv1
            by_cases hn : p ∈ U
            · refine ⟨cur, k, (hUmem p hn).2.2.2.2.2, upd_same _ _ _,
                (hUmem p hn).2.1, ?_, ?_⟩
              · rw [(hUold cur hcurU).1]
                exact hk
              · rw [(hUmem p hn).2.2.2.1, hkp1]
            · rw [(hUold p hn).1] at hd1
              obtain ⟨q2, kq, hpar, hvq, hedge, hdq, hdp⟩ :=
                inv.unsettledParent p hv1 hd1 hps
              refine ⟨q2, kq, ?_, ?_, hedge, ?_, ?_⟩
              · rw [(hUold p hn).2.2]
                exact hpar
              · by_cases hqc : q2 = cur
                · subst hqc
                  exact upd_same _ _ _
                · rw [upd_ne _ _ _ _ hqc]
                  exact hvq
              · rw [(hUold q2 (hsettledU q2 hvq)).1]
                exact hdq
              · rw [(hUold p hn).1]
                exact hdp
          · show ∀ x, upd st.visitedM cur true x = true → ∀ y, Edge lv x y →
              upd st.visitedM cur true y = false → g2 y ≤ g2 x + 1
            intro x hx y hxy hy
            have hyne : y ≠ cur := by
              intro hcontra
              subst hcontra
              rw [upd_same] at hy
              simp at hy
            rw [upd_ne _ _ _ _ hyne] at hy
            by_cases hxc : x = cur
            · subst hxc
              obtain ⟨d, hd, hdy⟩ := hxy.2.2.1
              have := hcov y ⟨d, hd, hdy⟩ hxy
                (by rw [upd_ne _ _ _ _ hyne]; exact hy)
              rw [(hUold cur hcurU).1]
              exact this
            · rw [upd_ne _ _ _ _ hxc] at hx
              have hold := inv.frontierRelax x hx y hxy hy
              have hx2 : g2 x = st.g x := (hUold x (hsettledU x hx)).1
              have hy2 : g2 y ≤ st.g y := by
                by_cases hn : y ∈ U
                · rw [(hUmem y hn).2.2.2.1]
                  exact le_of_lt (hUmem y hn).2.2.1
                · rw [(hUold y hn).1]
              exact le_trans hy2 (by rw [hx2]; exact hold)
          · show ∀ x, upd st.visitedM cur true x = true →
              canExitCheck lv x = false
            intro x hx
            by_cases hxc : x = cur
            · subst hxc
              exact hexit2
            · rw [upd_ne _ _ _ _ hxc] at hx
              exact inv.noExitSettled x hx
          · show (st.detailedSteps ++ _).map (fun s => s.position) =
              st.visitedCells ++ [cur]
            simp [inv.trace]
          · show lv.cells = none → ∀ p, g2 p ≠ ⊤ → p ≠ lv.start →
              gridAt lv p = 0
            intro hcells p hp hps
            by_cases hn : p ∈ U
            · have hmv := (hUmem p hn).2.1.2.2.2
              rw [canMoveBetween, hcells] at hmv
              simpa using hmv
            · rw [(hUold p hn).1] at hp
              exact inv.binZero hcells p hp hps
        have hmeas2 : rowsN lv * colsN lv + 1 ≤
            st2.visitedCells.length + fuel := by
          show rowsN lv * colsN lv + 1 ≤
            (st.visitedCells ++ [cur]).length + fuel
          simp only [List.length_append, List.length_singleton]
          omega
        obtain ⟨hex2, hout2, hnone2⟩ := ih st2 inv2 hmeas2
        rw [hred]
        exact ⟨hex2, hout2, hnone2⟩

/-- The initial A* state satisfies the invariant. -/
lemma ast_init_inv (lv : Level) (hs : InBounds lv lv.start) :
    AstInv lv
      { visitedM := fun _ => false
        visitedCells := []
        detailedSteps := []
        g := upd (fun _ => (⊤ : WithTop Int)) lv.start 0
        f := upd (fun _ => (⊤ : WithTop Int)) lv.start
          ((heuristic lv.start (rowsZ lv) (colsZ lv) : Int) : WithTop Int)
        parent := fun _ => none
        openSet := [lv.start]
        stepNumber := 0 } := by
  have hdist : ∀ p, upd (fun _ => (⊤ : WithTop Int)) lv.start 0 p ≠ ⊤ →
      p = lv.start := by
    intro p hp
    by_cases hpe : p = lv.start
    · exact hpe
    · rw [upd_ne _ _ _ _ hpe] at hp
      simp at hp
  constructor
  · show upd (fun _ => (⊤ : WithTop Int)) lv.start 0 lv.start = _
    rw [upd_same]
    simp
  · rfl
  · intro _
    rfl
  · intro p hp
    rw [hdist p hp]
    exact hs
  · intro p
    show upd (fun _ => (⊤ : WithTop Int)) lv.start
        ((heuristic lv.start (rowsZ lv) (colsZ lv) : Int) : WithTop Int) p =
      upd (fun _ => (⊤ : WithTop Int)) lv.start 0 p +
        ((heuristic p (rowsZ lv) (colsZ lv) : Int) : WithTop Int)
    by_cases hpe : p = lv.start
    · subst hpe
      rw [upd_same, upd_same]
      simp
    · rw [upd_ne _ _ _ _ hpe, upd_ne _ _ _ _ hpe]
      simp
  · intro p
    simp
  · simp
  · intro p
    simp only [List.mem_singleton]
    constructor
    · intro hp
      subst hp
      refine ⟨by trivial, ?_⟩
      rw [upd_same]
      simp
    · intro ⟨_, hp⟩
      exact hdist p hp
  · simp
  · intro p hp
    simp at hp
  · intro p hv hp hps
    exact absurd (hdist p hp) hps
  · intro x hx
    simp at hx
  · intro x hx
    simp at hx
  · simp
  · intro _ p hp hps
    exact absurd (hdist p hp) hps

/-- Master correctness of solveAStar at its canonical fuel. -/
theorem solveAStar_spec (lv : Level) (hs : InBounds lv lv.start) :
    (∃ r, solveAStar lv (pqFuel lv) = some r) ∧
    (∀ sol, solveAStar lv (pqFuel lv) = some (some sol) →
      AstOut lv sol) ∧
    (solveAStar lv (pqFuel lv) = some none →
      ∀ e n, ReachN lv lv.start e n → canExitCheck lv e = false) := by
  have h := astLoop_spec lv hs (pqFuel lv) _ (ast_init_inv lv hs)
    (by simp [pqFuel])
  exact h

lemma solveAStar_solvable (lv : Level) (hs : InBounds lv lv.start)
    (hsolv : Solvable lv) :
    ∃ sol, solveAStar lv (pqFuel lv) = some (some sol) ∧
      AstOut lv sol := by
  obtain ⟨⟨r, hr⟩, hout, hnone⟩ := solveAStar_spec lv hs
  match r, hr with
  | none, hr =>
    obtain ⟨e, n, hre, hex⟩ := hsolv
    rw [hnone hr e n hre] at hex
    simp at hex
  | some sol, hr => exact ⟨sol, hr, hout sol hr⟩

lemma solveAStar_notfound (lv : Level) (hs : InBounds lv lv.start)
    (hne : ∀ e n, ReachN lv lv.start e n → canExitCheck lv e = false) :
    solveAStar lv (pqFuel lv) = some none := by
  obtain ⟨⟨r, hr⟩, hout, _⟩ := solveAStar_spec lv hs
  match r, hr with
  | none, hr => exact hr
  | some sol, hr =>
    have out := hout sol hr
    obtain ⟨e, hlast, hex⟩ := out.pathLast
    have hevc : e ∈ sol.visitedCells := by
      have h1 : sol.visitedCells.getLast? = some e := by
        rw [out.lastVC, hlast]
      exact List.mem_of_mem_getLast? h1
    obtain ⟨n, hre⟩ := out.vcReach e hevc
    rw [hne e n hre] at hex
    simp at hex

/-! ## solveDFS: the recursion invariant -/

/-- Invariant of the DFS recursion state. -/
structure DfsInv (lv : Level) (st : DfsState) : Prop where
  vcSettled : ∀ p, st.visitedM p = true ↔ p ∈ st.visitedCells
  vcNodup : st.visitedCells.Nodup
  inb : ∀ p ∈ st.visitedCells, InBounds lv p
  chains : ∀ p, st.visitedM p = true →
    ∃ l, IsChainP lv st.parent p l ∧ l.Nodup ∧ ∀ x ∈ l, st.visitedM x = true

/-- Precondition on the position a dfs call receives: unvisited, in bounds,
with its parent pointer either unset at the start or already pointing at a
visited neighbor with a valid movement edge. -/
def DfsPre (lv : Level) (st : DfsState) (pos : Pos) : Prop :=
  st.visitedM pos = false ∧ InBounds lv pos ∧
    ((pos = lv.start ∧ st.parent pos = none) ∨
      (∃ q, st.parent pos = some q ∧ st.visitedM q = true ∧ Edge lv q pos))

/-- What one dfs call guarantees about its result state. -/
structure DfsPost (lv : Level) (st st2 : DfsState) (res : Option Pos) :
    Prop where
  inv2 : DfsInv lv st2
  mono : ∀ p, st.visitedM p = true → st2.visitedM p = true
  ext : ∃ dl, st2.visitedCells = st.visitedCells ++ dl
  pmono : ∀ p, st.visitedM p = true → st2.parent p = st.parent p
  exit : ∀ e, res = some e → st2.visitedM e = true ∧ canExitCheck lv e = true

lemma dfsGo_spec (lv : Level) :
    ∀ (fuel : Nat) (st : DfsState) (pos : Pos), DfsInv lv st →
    DfsPre lv st pos →
    rowsN lv * colsN lv ≤ st.visitedCells.length + fuel →
    ∃ res st2, dfsGo lv fuel pos st = some (res, st2) ∧
      DfsPost lv st st2 res := by
  intro fuel
  induction fuel with
  | zero =>
    intro st pos inv pre hmeas
    exfalso
    have hposvc : pos ∉ st.visitedCells := by
      intro h
      rw [← inv.vcSettled pos] at h
      rw [pre.1] at h
      simp at h
    have hlen : (st.visitedCells ++ [pos]).length ≤ rowsN lv * colsN lv := by
      refine nodup_inbounds_length lv _ ?_ ?_
      · refine List.Nodup.append inv.vcNodup (by simp) ?_
        intro a ha hac
        simp at hac
        subst hac
        exact hposvc ha
      · intro p hp
        rcases List.mem_append.mp hp with h | h
        · exact inv.inb p h
        · simp at h
          subst h
          exact pre.2.1
    simp only [List.length_append, List.length_singleton] at hlen
    omega
  | succ fuel ih =>
    intro st pos inv pre hmeas
    obtain ⟨hvpos, hbpos, hpar⟩ := pre
    have hposvc : pos ∉ st.visitedCells := by
      intro h
      rw [← inv.vcSettled pos] at h
      rw [hvpos] at h
      simp at h
    obtain ⟨l, hch, hnd, hset⟩ :
        ∃ l, IsChainP lv st.parent pos l ∧ l.Nodup ∧
          ∀ x ∈ l, upd st.visitedM pos true x = true := by
      rcases hpar with ⟨hps, hpn⟩ | ⟨q, hpq, hvq, hedge⟩
      · subst hps
        exact ⟨[lv.start], IsChainP.base hpn, by simp,
          by intro x hx; simp at hx; subst hx; exact upd_same _ _ _⟩
      · obtain ⟨lq, hchq, hndq, hsetq⟩ := inv.chains q hvq
        have hposlq : pos ∉ lq := by
          intro hmem
          rw [hsetq pos hmem] at hvpos
          simp at hvpos
        refine ⟨pos :: lq, IsChainP.step hchq hpq hedge,
          List.Nodup.cons hposlq hndq, ?_⟩
        intro x hx
        rcases List.mem_cons.mp hx with rfl | hx2
        · exact upd_same _ _ _
        · by_cases hxp : x = pos
          · subst hxp
            exact upd_same _ _ _
          · rw [upd_ne _ _ _ _ hxp]
            exact hsetq x hx2
    set st1 : DfsState :=
      { st with
        visitedM := upd st.visitedM pos true
        visitedCells := st.visitedCells ++ [pos] } with hst1
    have inv1 : DfsInv lv st1 := by
      constructor
      · intro p
        show upd st.visitedM pos true p = true ↔
          p ∈ st.visitedCells ++ [pos]
        by_cases hn : p = pos
        · subst hn
          rw [upd_same]
          simp
        · rw [upd_ne _ _ _ _ hn, inv.vcSettled p]
          simp [hn]
      · show (st.visitedCells ++ [pos]).Nodup
        refine List.Nodup.append inv.vcNodup (by simp) ?_
        intro a ha hac
        simp at hac
        subst hac
        exact hposvc ha
      · intro p hp
        rcases List.mem_append.mp hp with h | h
        · exact inv.inb p h
        · simp at h
          subst h
          exact hbpos
      · intro p hp
        show ∃ lp, IsChainP lv st.parent p lp ∧ lp.Nodup ∧
          ∀ x ∈ lp, upd st.visitedM pos true x = true
        by_cases hn : p = pos
        · subst hn
          exact ⟨l, hch, hnd, hset⟩
        · rw [show st1.visitedM p = upd st.visitedM pos true p from rfl,
            upd_ne _ _ _ _ hn] at hp
          obtain ⟨lp, hchp, hndp, hsetp⟩ := inv.chains p hp
          refine ⟨lp, hchp, hndp, ?_⟩
          intro x hx
          by_cases hxp : x = pos
          · subst hxp
            exact upd_same _ _ _
          · rw [upd_ne _ _ _ _ hxp]
            exact hsetp x hx
    have hlbound : l.length ≤ rowsN lv * colsN lv := by
      refine nodup_inbounds_length lv l hnd ?_
      intro x hx
      have := hset x hx
      have hx2 : x ∈ st.visitedCells ++ [pos] := by
        rw [← (inv1.vcSettled x)]
        exact this
      exact inv1.inb x hx2
    have hwalk : parentChainP st.parent (chainFuel lv) pos = some l :=
      hch.walkP (chainFuel lv) (by simp only [chainFuel]; omega)
    by_cases hexit : canExitCheck lv pos = true
    · refine ⟨some pos, st1, ?_, ?_⟩
      · show dfsGo lv (fuel + 1) pos st = some (some pos, st1)
        simp only [dfsGo]
        rw [hwalk]
        simp only [hexit, if_true]
      · constructor
        · exact inv1
        · intro p hp
          show upd st.visitedM pos true p = true
          by_cases hn : p = pos
          · subst hn
            exact upd_same _ _ _
          · rw [upd_ne _ _ _ _ hn]
            exact hp
        · exact ⟨[pos], rfl⟩
        · intro p _
          rfl
        · intro e he
          have he2 : pos = e := by
            simpa using he
          subst he2
          exact ⟨upd_same _ _ _, hexit⟩
    · have hexit2 : canExitCheck lv pos = false := by simpa using hexit
      have hposv1 : st1.visitedM pos = true := upd_same _ _ _
      have hnbrs : ∀ (ds : List Pos), (∀ d ∈ ds, d ∈ DIRS) →
          ∀ (stc : DfsState) (n : Nat), DfsInv lv stc →
          stc.visitedM pos = true →
          rowsN lv * colsN lv ≤ stc.visitedCells.length + fuel →
          ∃ res st2 n2, dfsNbrs lv (dfsGo lv fuel) pos ds stc n = some (res, st2, n2) ∧
            DfsPost lv stc st2 res := by
        intro ds
        induction ds with
        | nil =>
          intro _ stc n invc hvp hmeasc
          refine ⟨none, stc, n, by simp [dfsNbrs], ?_⟩
          exact ⟨invc, fun p hp => hp, ⟨[], by simp⟩, fun p _ => rfl,
            fun e he => by simp at he⟩
        | cons d ds ihds =>
          intro hds stc n invc hvp hmeasc
          have hd : d ∈ DIRS := hds d (by simp)
          have hds2 : ∀ x ∈ ds, x ∈ DIRS := fun x hx => hds x (by simp [hx])
          by_cases hoob : oobCheck lv ⟨pos.r + d.r, pos.c + d.c⟩ = true
          · obtain ⟨res, st2, n2, heq, hpost⟩ :=
              ihds hds2 stc n invc hvp hmeasc
            refine ⟨res, st2, n2, ?_, hpost⟩
            show dfsNbrs lv (dfsGo lv fuel) pos (d :: ds) stc n = _
            simp only [dfsNbrs]
            rw [hoob]
            simp only [if_true]
            exact heq
          · have hoob2 : oobCheck lv ⟨pos.r + d.r, pos.c + d.c⟩ = false := by
              simpa using hoob
            by_cases hmv : canMoveBetween lv pos ⟨pos.r + d.r, pos.c + d.c⟩ =
                true
            · by_cases hvn : stc.visitedM ⟨pos.r + d.r, pos.c + d.c⟩ = true
              · obtain ⟨res, st2, n2, heq, hpost⟩ :=
                  ihds hds2 stc n invc hvp hmeasc
                refine ⟨res, st2, n2, ?_, hpost⟩
                show dfsNbrs lv (dfsGo lv fuel) pos (d :: ds) stc n = _
                simp only [dfsNbrs]
                rw [hoob2, hmv, hvn]
                simp only [Bool.not_true, Bool.false_eq_true, if_false,
                  if_true]
                exact heq
              · have hvn2 : stc.visitedM ⟨pos.r + d.r, pos.c + d.c⟩ =
                    false := by simpa using hvn
                set nxt : Pos := ⟨pos.r + d.r, pos.c + d.c⟩ with hnxt
                have hbn : InBounds lv nxt :=
                  (oobCheck_eq_false_iff lv nxt).mp hoob2
                have hbp : InBounds lv pos :=
                  invc.inb pos ((invc.vcSettled pos).mp hvp)
                have hedge : Edge lv pos nxt :=
                  ⟨hbp, hbn, ⟨d, hd, rfl⟩, hmv⟩
                set stp : DfsState :=
                  { stc with parent := upd stc.parent nxt (some pos) }
                  with hstp
                have invp : DfsInv lv stp := by
                  constructor
                  · exact invc.vcSettled
                  · exact invc.vcNodup
                  · exact invc.inb
                  · intro p hp
                    obtain ⟨lp, hchp, hndp, hsetp⟩ := invc.chains p hp
                    refine ⟨lp, hchp.congr ?_, hndp, hsetp⟩
                    intro x hx
                    show upd stc.parent nxt (some pos) x = stc.parent x
                    have hxn : x ≠ nxt := by
                      intro hcontra
                      subst hcontra
                      rw [hsetp nxt hx] at hvn2
                      simp at hvn2
                    exact upd_ne _ _ _ _ hxn
                have prep : DfsPre lv stp nxt := by
                  refine ⟨hvn2, hbn, Or.inr ⟨pos, ?_, hvp, hedge⟩⟩
                  exact upd_same _ _ _
                obtain ⟨res2, st2, hgo, hpost2⟩ :=
                  ih stp nxt invp prep hmeasc
                have hnxtstable : ∀ p, stc.visitedM p = true →
                    stp.parent p = stc.parent p := by
                  intro p hp
                  show upd stc.parent nxt (some pos) p = stc.parent p
                  have hpn : p ≠ nxt := by
                    intro hcontra
                    subst hcontra
                    rw [hp] at hvn2
                    simp at hvn2
                  exact upd_ne _ _ _ _ hpn
                match res2, hgo, hpost2 with
                | some e, hgo, hpost2 =>
                  refine ⟨some e, st2, n + 1, ?_, ?_⟩
                  · show dfsNbrs lv (dfsGo lv fuel) pos (d :: ds) stc n = _
                    simp only [dfsNbrs]
                    rw [hoob2, hmv, hvn2]
                    simp only [Bool.not_true, Bool.false_eq_true, if_false]
                    rw [hgo]
                  · constructor
                    · exact hpost2.inv2
                    · exact hpost2.mono
                    · exact hpost2.ext
                    · intro p hp
                      rw [hpost2.pmono p hp]
                      exact hnxtstable p hp
                    · exact hpost2.exit
                | none, hgo, hpost2 =>
                  have hvp2 : st2.visitedM pos = true := hpost2.mono pos hvp
                  have hmeas2 : rowsN lv * colsN lv ≤
                      st2.visitedCells.length + fuel := by
                    obtain ⟨dl, hdl⟩ := hpost2.ext
                    rw [hdl]
                    simp only [List.length_append]
                    omega
                  obtain ⟨res3, st3, n3, heq3, hpost3⟩ :=
                    ihds hds2 st2 (n + 1) hpost2.inv2 hvp2 hmeas2
                  refine ⟨res3, st3, n3, ?_, ?_⟩
                  · show dfsNbrs lv (dfsGo lv fuel) pos (d :: ds) stc n = _
                    simp only [dfsNbrs]
                    rw [hoob2, hmv, hvn2]
                    simp only [Bool.not_true, Bool.false_eq_true, if_false]
                    rw [hgo]
                    exact heq3
                  · constructor
                    · exact hpost3.inv2
                    · intro p hp
                      exact hpost3.mono p (hpost2.mono p hp)
                    · obtain ⟨dl2, hdl2⟩ := hpost2.ext
                      obtain ⟨dl3, hdl3⟩ := hpost3.ext
                      refine ⟨dl2 ++ dl3, ?_⟩
                      rw [hdl3, hdl2]
                      simp
                    · intro p hp
                      rw [hpost3.pmono p (hpost2.mono p hp),
                        hpost2.pmono p hp]
                      exact hnxtstable p hp
                    · exact hpost3.exit
            · have hmv2 : (!(canMoveBetween lv pos
                  ⟨pos.r + d.r, pos.c + d.c⟩)) = true := by
                simp only [Bool.not_eq_true']
                simpa using hmv
              obtain ⟨res, st2, n2, heq, hpost⟩ :=
                ihds hds2 stc n invc hvp hmeasc
              refine ⟨res, st2, n2, ?_, hpost⟩
              show dfsNbrs lv (dfsGo lv fuel) pos (d :: ds) stc n = _
              simp only [dfsNbrs]
              rw [hoob2, hmv2]
              simp only [Bool.false_eq_true, if_false, if_true]
              exact heq
      have hmeas1 : rowsN lv * colsN lv ≤ st1.visitedCells.length + fuel := by
        show rowsN lv * colsN lv ≤ (st.visitedCells ++ [pos]).length + fuel
        simp only [List.length_append, List.length_singleton]
        omega
      obtain ⟨res, st2, n2, heq, hpost⟩ :=
        hnbrs DIRS (fun d hd => hd) st1 0 inv1 hposv1 hmeas1
      have hmono1 : ∀ p, st.visitedM p = true → st1.visitedM p = true := by
        intro p hp
        show upd st.visitedM pos true p = true
        by_cases hn : p = pos
        · subst hn
          exact upd_same _ _ _
        · rw [upd_ne _ _ _ _ hn]
          exact hp
      match res, heq, hpost with
      | some e, heq, hpost =>
        refine ⟨some e, st2, ?_, ?_⟩
        · show dfsGo lv (fuel + 1) pos st = some (some e, st2)
          simp only [dfsGo]
          rw [hwalk]
          simp only [hexit2, Bool.false_eq_true, if_false]
          rw [heq]
        · constructor
          · exact hpost.inv2
          · intro p hp
            exact hpost.mono p (hmono1 p hp)
          · obtain ⟨dl, hdl⟩ := hpost.ext
            refine ⟨pos :: dl, ?_⟩
            rw [hdl]
            show st1.visitedCells ++ dl = _
            simp
          · intro p hp
            exact hpost.pmono p (hmono1 p hp)
          · exact hpost.exit
      | none, heq, hpost =>
        set st3 : DfsState :=
          { st2 with
            detailedSteps := st2.detailedSteps ++
              [⟨pos, st2.stepNumber,
                { stackDepth := some (l.length - 1)
                  isBacktracking := some false
                  deadEnd := some (n2 = 0) }⟩]
            stepNumber := st2.stepNumber + 1 } with hst3
        refine ⟨none, st3, ?_, ?_⟩
        · show dfsGo lv (fuel + 1) pos st = some (none, st3)
          simp only [dfsGo]
          rw [hwalk]
          simp only [hexit2, Bool.false_eq_true, if_false]
          rw [heq]
        · constructor
          · exact ⟨hpost.inv2.vcSettled, hpost.inv2.vcNodup,
              hpost.inv2.inb, hpost.inv2.chains⟩
          · intro p hp
            exact hpost.mono p (hmono1 p hp)
          · obtain ⟨dl, hdl⟩ := hpost.ext
            refine ⟨pos :: dl, ?_⟩
            show st2.visitedCells = _
            rw [hdl]
            show st1.visitedCells ++ dl = _
            simp
          · intro p hp
            exact hpost.pmono p (hmono1 p hp)
          · intro e he
            simp at he

/-- Fuel sufficient for the DFS recursion (depth is bounded by the number of
distinct visited cells). -/
def dfsFuel (lv : Level) : Nat := rowsN lv * colsN lv + 1

/-- Everything established about a Solution returned by solveDFS. -/
structure DfsOut (lv : Level) (sol : Solution) : Prop where
  pathEdges : List.Chain' (fun a b => Edge lv a b) sol.path
  pathHead : sol.path.head? = some lv.start
  pathLast : ∃ e, sol.path.getLast? = some e ∧ canExitCheck lv e = true
  distEq : sol.distance = (sol.path.length : Int) - 1
  pathNe : sol.path ≠ []
  reachDist : ∃ e, ReachN lv lv.start e (sol.path.length - 1) ∧
    canExitCheck lv e = true
  vcNodup : sol.visitedCells.Nodup
  vcReach : ∀ p ∈ sol.visitedCells, ∃ n, ReachN lv lv.start p n

/-- Master correctness of solveDFS at its canonical fuel. -/
theorem solveDFS_spec (lv : Level) (hs : InBounds lv lv.start) :
    (∃ r, solveDFS lv (dfsFuel lv) = some r) ∧
    (∀ sol, solveDFS lv (dfsFuel lv) = some (some sol) → DfsOut lv sol) := by
  set st0 : DfsState :=
    { visitedM := fun _ => false
      visitedCells := []
      detailedSteps := []
      parent := fun _ => none
      stepNumber := 0 } with hst0
  have inv0 : DfsInv lv st0 := by
    constructor
    · intro p
      simp
    · simp
    · intro p hp
      simp at hp
    · intro p hp
      simp at hp
  have pre0 : DfsPre lv st0 lv.start := ⟨rfl, hs, Or.inl ⟨rfl, rfl⟩⟩
  have hmeas0 : rowsN lv * colsN lv ≤ st0.visitedCells.length + dfsFuel lv :=
    by simp [dfsFuel]
  obtain ⟨res, st2, hgo, hpost⟩ :=
    dfsGo_spec lv (dfsFuel lv) st0 lv.start inv0 pre0 hmeas0
  match res, hgo, hpost with
  | none, hgo, hpost =>
    have hres : solveDFS lv (dfsFuel lv) = some none := by
      simp only [solveDFS]
      rw [hgo]
    refine ⟨⟨none, hres⟩, ?_⟩
    intro sol hsol
    rw [hres] at hsol
    simp at hsol
  | some e, hgo, hpost =>
    obtain ⟨hve, hexe⟩ := hpost.exit e rfl
    obtain ⟨l, hch, hnd, hset⟩ := hpost.inv2.chains e hve
    have hinbl : ∀ x ∈ l, InBounds lv x := by
      intro x hx
      exact hpost.inv2.inb x ((hpost.inv2.vcSettled x).mp (hset x hx))
    have hlbound : l.length ≤ rowsN lv * colsN lv :=
      nodup_inbounds_length lv l hnd hinbl
    have hwalk : parentChainP st2.parent (chainFuel lv) e = some l :=
      hch.walkP (chainFuel lv) (by simp only [chainFuel]; omega)
    have hres : solveDFS lv (dfsFuel lv) = some (some
        { distance := (l.length : Int) - 1
          path := l.reverse
          visitedCells := st2.visitedCells
          algorithm := "DFS"
          detailedSteps := st2.detailedSteps }) := by
      simp only [solveDFS]
      rw [hgo]
      dsimp only
      rw [hwalk]
    refine ⟨⟨_, hres⟩, ?_⟩
    intro sol hsol
    rw [hres] at hsol
    have hsol2 := Option.some_injective _ (Option.some_injective _ hsol)
    subst hsol2
    constructor
    · exact hch.chain_edgesP
    · rw [List.head?_reverse]
      exact hch.getLastP
    · exact ⟨e, by rw [List.getLast?_reverse]; exact hch.headP, hexe⟩
    · simp
    · simp only [ne_eq, List.reverse_eq_nil_iff]
      exact hch.ne_nilP
    · refine ⟨e, ?_, hexe⟩
      have := hch.reachP
      simpa using this
    · exact hpost.inv2.vcNodup
    · intro p hp
      obtain ⟨lp, hchp, _, _⟩ :=
        hpost.inv2.chains p ((hpost.inv2.vcSettled p).mpr hp)
      exact ⟨lp.length - 1, hchp.reachP⟩

/-! ## generateMaze: recursive-backtracking maze generation

Randomness is modelled by an oracle stream rng : Nat → Nat together with a
cursor: Math.floor(Math.random() * len) becomes rng k % len, and a
Math.random() < p coin becomes rng k % 10 < 10p (the claims quantify over
every stream, covering every JS outcome). -/

/-- The difficulty parameter of generateMaze. -/
inductive Difficulty
  | easy
  | normal
  | hard
deriving DecidableEq, Repr

/-- The unvisited-neighbor scan of the generator main loop, in direction
order up, down, left, right. -/
def genUnvisitedNeighbors (w h : Nat) (cells : Pos → MazeCell) (cur : Pos) :
    List Pos :=
  DIRS.filterMap (fun d =>
    let next : Pos := ⟨cur.r + d.r, cur.c + d.c⟩
    if 0 ≤ next.r ∧ next.r < (h : Int) ∧ 0 ≤ next.c ∧ next.c < (w : Int) ∧
        (cells next).visited = false
    then some next else none)

/-- getRandomNeighbor: difficulty-biased choice among the unvisited
neighbors.  The comparisons against fractional bounds (h / 3 etc.) are
cleared of divisions.  Returns the choice and the advanced rng cursor. -/
def getRandomNeighbor (diff : Difficulty) (w h : Nat) (rng : Nat → Nat)
    (k : Nat) (neighbors : List Pos) : Pos × Nat :=
  match diff with
  | .easy =>
    let edgeNeighbors := neighbors.filter (fun n =>
      decide (3 * n.r < (h : Int) ∨ 3 * n.r > 2 * (h : Int) ∨
        3 * n.c < (w : Int) ∨ 3 * n.c > 2 * (w : Int)))
    if edgeNeighbors.length > 0 then
      if rng k % 10 < 7 then
        (edgeNeighbors.getD (rng (k + 1) % edgeNeighbors.length) ⟨0, 0⟩,
          k + 2)
      else (neighbors.getD (rng (k + 1) % neighbors.length) ⟨0, 0⟩, k + 2)
    else (neighbors.getD (rng k % neighbors.length) ⟨0, 0⟩, k + 1)
  | .hard =>
    if rng k % 10 < 3 then
      let centerNeighbors := neighbors.filter (fun n =>
        decide (4 * n.r > (h : Int) ∧ 4 * n.r < 3 * (h : Int) ∧
          4 * n.c > (w : Int) ∧ 4 * n.c < 3 * (w : Int)))
      if centerNeighbors.length > 0 then
        (centerNeighbors.getD (rng (k + 1) % centerNeighbors.length) ⟨0, 0⟩,
          k + 2)
      else (neighbors.getD (rng (k + 1) % neighbors.length) ⟨0, 0⟩, k + 2)
    else (neighbors.getD (rng (k + 1) % neighbors.length) ⟨0, 0⟩, k + 2)
  | .normal => (neighbors.getD (rng k % neighbors.length) ⟨0, 0⟩, k + 1)

/-- The wall-pair removal between current and next cell: the if/else chain
on the sign of the coordinate difference, clearing the facing flag on both
sides. -/
def removeWalls (cells : Pos → MazeCell) (cur nxt : Pos) : Pos → MazeCell :=
  if nxt.r < cur.r then
    upd (upd cells cur
        { cells cur with walls := { (cells cur).walls with top := false } })
      nxt { cells nxt with walls := { (cells nxt).walls with bottom := false } }
  else if nxt.r > cur.r then
    upd (upd cells cur
        { cells cur with walls := { (cells cur).walls with bottom := false } })
      nxt { cells nxt with walls := { (cells nxt).walls with top := false } }
  else if nxt.c < cur.c then
    upd (upd cells cur
        { cells cur with walls := { (cells cur).walls with left := false } })
      nxt { cells nxt with walls := { (cells nxt).walls with right := false } }
  else if nxt.c > cur.c then
    upd (upd cells cur
        { cells cur with walls := { (cells cur).walls with right := false } })
      nxt { cells nxt with walls := { (cells nxt).walls with left := false } }
  else cells

/-- The while (stack.length > 0) loop of generateMaze.  The stack head is
its top.  Returns the cell matrix and the final rng cursor; none when the
fuel ran out. -/
def genLoop (w h : Nat) (diff : Difficulty) (rng : Nat → Nat) :
    Nat → (Pos → MazeCell) → List Pos → Nat →
    Option ((Pos → MazeCell) × Nat)
  | 0, _, _, _ => none
  | fuel + 1, cells, stack, k =>
    match stack with
    | [] => some (cells, k)
    | cur :: rest =>
      let neighbors := genUnvisitedNeighbors w h cells cur
      if neighbors.length > 0 then
        let pick := getRandomNeighbor diff w h rng k neighbors
        let cells2 := removeWalls cells cur pick.1
        let cells3 := upd cells2 pick.1
          { cells2 pick.1 with visited := true }
        genLoop w h diff rng fuel cells3 (pick.1 :: cur :: rest) pick.2
      else genLoop w h diff rng fuel cells rest k

/-- The valid-cell enumeration of getRandomStartPosition: all visited cells
in row-major order. -/
def validCells (w h : Nat) (cells : Pos → MazeCell) : List Pos :=
  (List.range h).flatMap (fun (r : Nat) =>
    (List.range w).filterMap (fun (c : Nat) =>
      if (cells ⟨(r : Int), (c : Int)⟩).visited
      then some ⟨(r : Int), (c : Int)⟩ else none))

/-- getRandomStartPosition: difficulty-biased pick among the visited
cells. -/
def getRandomStartPosition (diff : Difficulty) (w h : Nat) (rng : Nat → Nat)
    (k : Nat) (cells : Pos → MazeCell) : Pos :=
  let vc := validCells w h cells
  match diff with
  | .easy =>
    let topHalfCells := vc.filter (fun p => decide (2 * p.r < (h : Int)))
    if topHalfCells.length > 0 then
      topHalfCells.getD (rng k % topHalfCells.length) ⟨0, 0⟩
    else vc.getD (rng (k + 1) % vc.length) ⟨0, 0⟩
  | .hard =>
    let bottomHalfCells := vc.filter (fun p => decide (2 * p.r ≥ (h : Int)))
    if bottomHalfCells.length > 0 then
      bottomHalfCells.getD (rng k % bottomHalfCells.length) ⟨0, 0⟩
    else vc.getD (rng (k + 1) % vc.length) ⟨0, 0⟩
  | .normal => vc.getD (rng k % vc.length) ⟨0, 0⟩

/-- Fuel for the generator loop: each iteration pushes a freshly visited
cell or pops, so 2wh + 2 steps suffice. -/
def genFuel (w h : Nat) : Nat := 2 * w * h + 2

/-- The difficulty seed of the backtracker: corner for easy, center
otherwise. -/
def genSeed (w h : Nat) (diff : Difficulty) : Pos :=
  match diff with
  | .easy => ⟨1, 1⟩
  | _ => ⟨((h / 2 : Nat) : Int), ((w / 2 : Nat) : Int)⟩

/-- The exit carve: clear the top wall of cell (0, 1). -/
def exitCarve (cells : Pos → MazeCell) : Pos → MazeCell :=
  upd cells ⟨0, 1⟩
    { cells ⟨0, 1⟩ with
      walls := { (cells ⟨0, 1⟩).walls with top := false } }

/-- Materialization of a cell-matrix function as a w × h nested list. -/
def matCells (w h : Nat) (cells : Pos → MazeCell) : List (List MazeCell) :=
  (List.range h).map (fun (r : Nat) =>
    (List.range w).map (fun (c : Nat) => cells ⟨(r : Int), (c : Int)⟩))

/-- The Level built from the carved cell matrix: binary grid from the
visited flags, difficulty-biased start, wall data attached. -/
def mkGenLevel (w h : Nat) (diff : Difficulty) (rng : Nat → Nat)
    (cellsF : Pos → MazeCell) (kF : Nat) : Level :=
  let cellsE := exitCarve cellsF
  { grid := (List.range h).map (fun (r : Nat) =>
      (List.range w).map (fun (c : Nat) =>
        if (cellsE ⟨(r : Int), (c : Int)⟩).visited then 0 else 1))
    start := getRandomStartPosition diff w h rng kF cellsE
    cells := some (matCells w h cellsE) }

/-- generateMaze: carve a maze by recursive backtracking from the
difficulty seed, open the exit at the top wall of cell (0, 1), convert to
the binary grid, and pick a start.  none when the loop fuel ran out. -/
def generateMaze (w h : Nat) (diff : Difficulty) (rng : Nat → Nat) :
    Option Level :=
  let init : Pos → MazeCell := fun _ => ⟨⟨true, true, true, true⟩, false⟩
  let seed := genSeed w h diff
  let cells0 := upd init seed { init seed with visited := true }
  match genLoop w h diff rng (genFuel w h) cells0 [seed] 0 with
  | none => none
  | some (cellsF, kF) => some (mkGenLevel w h diff rng cellsF kF)

/-! ## generateMaze: wall symmetry and start validity -/

lemma getD_mem_pos {l : List Pos} {i : Nat} {d : Pos} (h : i < l.length) :
    l.getD i d ∈ l := by
  rw [List.getD_eq_getElem l d h]
  exact List.getElem_mem h

/-- In-bounds for the generator's w × h rectangle. -/
def GenInB (w h : Nat) (p : Pos) : Prop :=
  0 ≤ p.r ∧ p.r < (h : Int) ∧ 0 ≤ p.c ∧ p.c < (w : Int)

instance (w h : Nat) (p : Pos) : Decidable (GenInB w h p) := by
  unfold GenInB
  infer_instance

/-- Wall symmetry of a generator cell matrix: both flags of every interior
wall pair agree, vertically and horizontally. -/
def GenWallSym (w h : Nat) (cells : Pos → MazeCell) : Prop :=
  (∀ p : Pos, GenInB w h p → GenInB w h ⟨p.r - 1, p.c⟩ →
    (cells p).walls.top = (cells ⟨p.r - 1, p.c⟩).walls.bottom) ∧
  (∀ p : Pos, GenInB w h p → GenInB w h ⟨p.r, p.c - 1⟩ →
    (cells p).walls.left = (cells ⟨p.r, p.c - 1⟩).walls.right)

lemma genUnvisitedNeighbors_mem {w h : Nat} {cells : Pos → MazeCell}
    {cur n : Pos} (hmem : n ∈ genUnvisitedNeighbors w h cells cur) :
    (∃ d ∈ DIRS, n = stepPos cur d) ∧ GenInB w h n ∧
      (cells n).visited = false := by
  simp only [genUnvisitedNeighbors, List.mem_filterMap] at hmem
  obtain ⟨d, hd, heq⟩ := hmem
  by_cases hc : 0 ≤ cur.r + d.r ∧ cur.r + d.r < (h : Int) ∧
      0 ≤ cur.c + d.c ∧ cur.c + d.c < (w : Int) ∧
      (cells ⟨cur.r + d.r, cur.c + d.c⟩).visited = false
  · rw [if_pos hc] at heq
    have hn : n = stepPos cur d := by
      have := Option.some_injective _ heq
      rw [← this]
      rfl
    subst hn
    exact ⟨⟨d, hd, rfl⟩, ⟨hc.1, hc.2.1, hc.2.2.1, hc.2.2.2.1⟩, hc.2.2.2.2⟩
  · rw [if_neg hc] at heq
    simp at heq

lemma getRandomNeighbor_mem (diff : Difficulty) (w h : Nat) (rng : Nat → Nat)
    (k : Nat) (neighbors : List Pos) (hne : neighbors ≠ []) :
    (getRandomNeighbor diff w h rng k neighbors).1 ∈ neighbors := by
  have hlen : 0 < neighbors.length := List.length_pos.mpr hne
  cases diff with
  | easy =>
    simp only [getRandomNeighbor]
    by_cases he : (neighbors.filter (fun n =>
        decide (3 * n.r < (h : Int) ∨ 3 * n.r > 2 * (h : Int) ∨
          3 * n.c < (w : Int) ∨ 3 * n.c > 2 * (w : Int)))).length > 0
    · rw [if_pos he]
      by_cases hcoin : rng k % 10 < 7
      · rw [if_pos hcoin]
        exact List.mem_of_mem_filter (getD_mem_pos (Nat.mod_lt _ he))
      · rw [if_neg hcoin]
        exact getD_mem_pos (Nat.mod_lt _ hlen)
    · rw [if_neg he]
      exact getD_mem_pos (Nat.mod_lt _ hlen)
  | hard =>
    simp only [getRandomNeighbor]
    by_cases hcoin : rng k % 10 < 3
    · rw [if_pos hcoin]
      by_cases hc : (neighbors.filter (fun n =>
          decide (4 * n.r > (h : Int) ∧ 4 * n.r < 3 * (h : Int) ∧
            4 * n.c > (w : Int) ∧ 4 * n.c < 3 * (w : Int)))).length > 0
      · rw [if_pos hc]
        exact List.mem_of_mem_filter (getD_mem_pos (Nat.mod_lt _ hc))
      · rw [if_neg hc]
        exact getD_mem_pos (Nat.mod_lt _ hlen)
    · rw [if_neg hcoin]
      exact getD_mem_pos (Nat.mod_lt _ hlen)
  | normal =>
    simp only [getRandomNeighbor]
    exact getD_mem_pos (Nat.mod_lt _ hlen)

/-- removeWalls never touches the visited flags. -/
lemma removeWalls_visited (cells : Pos → MazeCell) (cur nxt : Pos) :
    ∀ p, (removeWalls cells cur nxt p).visited = (cells p).visited := by
  intro p
  have key : ∀ (c1 c2 : MazeCell), c1.visited = (cells cur).visited →
      c2.visited = (cells nxt).visited →
      (upd (upd cells cur c1) nxt c2 p).visited = (cells p).visited := by
    intro c1 c2 h1 h2
    unfold upd
    by_cases ha : p = nxt
    · subst ha
      rw [if_pos rfl]
      exact h2
    · rw [if_neg ha]
      by_cases hb : p = cur
      · subst hb
        rw [if_pos rfl]
        exact h1
      · rw [if_neg hb]
  unfold removeWalls
  split_ifs <;> first | rfl | (apply key <;> rfl)

lemma posExt {p q : Pos} (hr : p.r = q.r) (hc : p.c = q.c) : p = q := by
  cases p
  cases q
  simp_all


/-- Carving a wall pair between a cell and one of its four neighbors keeps
the matrix wall-symmetric: the two facing flags are cleared together and no
other flag changes. -/
lemma removeWalls_sym {w h : Nat} {cells : Pos → MazeCell} {cur nxt : Pos}
    (sym : GenWallSym w h cells)
    (hadj : ∃ d ∈ DIRS, nxt = stepPos cur d) :
    GenWallSym w h (removeWalls cells cur nxt) := by
  obtain ⟨d, hd, hn⟩ := hadj
  have hcases : (nxt.r = cur.r - 1 ∧ nxt.c = cur.c) ∨
      (nxt.r = cur.r + 1 ∧ nxt.c = cur.c) ∨
      (nxt.r = cur.r ∧ nxt.c = cur.c - 1) ∨
      (nxt.r = cur.r ∧ nxt.c = cur.c + 1) := by
    simp only [DIRS, List.mem_cons, List.mem_singleton] at hd
    rcases hd with rfl | rfl | rfl | rfl | hfalse
    · subst hn
      left
      refine ⟨?_, ?_⟩
      · show cur.r + (-1 : Int) = cur.r - 1
        omega
      · show cur.c + (0 : Int) = cur.c
        omega
    · subst hn
      right
      left
      refine ⟨?_, ?_⟩
      · show cur.r + (1 : Int) = cur.r + 1
        omega
      · show cur.c + (0 : Int) = cur.c
        omega
    · subst hn
      right
      right
      left
      refine ⟨?_, ?_⟩
      · show cur.r + (0 : Int) = cur.r
        omega
      · show cur.c + (-1 : Int) = cur.c - 1
        omega
    · subst hn
      right
      right
      right
      refine ⟨?_, ?_⟩
      · show cur.r + (0 : Int) = cur.r
        omega
      · show cur.c + (1 : Int) = cur.c + 1
        omega
    · simp at hfalse
  rcases hcases with ⟨hr, hc⟩ | ⟨hr, hc⟩ | ⟨hr, hc⟩ | ⟨hr, hc⟩
  · -- next is above current: top of cur and bottom of nxt cleared
    have hred : removeWalls cells cur nxt =
        upd (upd cells cur
          { cells cur with
            walls := { (cells cur).walls with top := false } }) nxt
          { cells nxt with
            walls := { (cells nxt).walls with bottom := false } } := by
      unfold removeWalls
      rw [if_pos (by omega)]
    have hcn : cur ≠ nxt := by
      intro hh
      rw [hh] at hr
      omega
    constructor
    · intro p hp hq
      rw [hred]
      by_cases hpc : p = cur
      · subst hpc
        have hqn : (⟨p.r - 1, p.c⟩ : Pos) = nxt :=
          posExt (show p.r - 1 = nxt.r by omega) (show p.c = nxt.c by omega)
        rw [hqn, upd_same, upd_ne _ _ _ _ hcn, upd_same]
      · by_cases hpn : p = nxt
        · subst hpn
          have hqn2 : (⟨p.r - 1, p.c⟩ : Pos) ≠ p := by
            intro hh
            have h1 : p.r - 1 = p.r := congrArg Pos.r hh
            omega
          have hqc2 : (⟨p.r - 1, p.c⟩ : Pos) ≠ cur := by
            intro hh
            have h1 : p.r - 1 = cur.r := congrArg Pos.r hh
            omega
          rw [upd_same, upd_ne _ _ _ _ hqn2, upd_ne _ _ _ _ hqc2]
          exact sym.1 p hp hq
        · have hqn3 : (⟨p.r - 1, p.c⟩ : Pos) ≠ nxt := by
            intro hh
            apply hpc
            have h1 : p.r - 1 = nxt.r := congrArg Pos.r hh
            have h2 := congrArg Pos.c hh
            replace h2 : p.c = nxt.c := h2
            exact posExt (by omega) (by omega)
          rw [upd_ne _ _ _ _ hpn, upd_ne _ _ _ _ hpc, upd_ne _ _ _ _ hqn3]
          by_cases hqc : (⟨p.r - 1, p.c⟩ : Pos) = cur
          · rw [hqc, upd_same]
            have hold := sym.1 p hp hq
            rw [hqc] at hold
            exact hold
          · rw [upd_ne _ _ _ _ hqc]
            exact sym.1 p hp hq
    · intro p hp hq
      rw [hred]
      have hflag : ∀ z, ((upd (upd cells cur
          { cells cur with
            walls := { (cells cur).walls with top := false } }) nxt
          { cells nxt with
            walls := { (cells nxt).walls with bottom := false } })
            z).walls.left = (cells z).walls.left ∧
          ((upd (upd cells cur
          { cells cur with
            walls := { (cells cur).walls with top := false } }) nxt
          { cells nxt with
            walls := { (cells nxt).walls with bottom := false } })
            z).walls.right = (cells z).walls.right := by
        intro z
        unfold upd
        by_cases hz1 : z = nxt
        · subst hz1
          rw [if_pos rfl]
          exact ⟨rfl, rfl⟩
        · rw [if_neg hz1]
          by_cases hz2 : z = cur
          · subst hz2
            rw [if_pos rfl]
            exact ⟨rfl, rfl⟩
          · rw [if_neg hz2]
            exact ⟨rfl, rfl⟩
      rw [(hflag p).1, (hflag ⟨p.r, p.c - 1⟩).2]
      exact sym.2 p hp hq
  · -- next is below current: bottom of cur and top of nxt cleared
    have hred : removeWalls cells cur nxt =
        upd (upd cells cur
          { cells cur with
            walls := { (cells cur).walls with bottom := false } }) nxt
          { cells nxt with
            walls := { (cells nxt).walls with top := false } } := by
      unfold removeWalls
      rw [if_neg (by omega), if_pos (by omega)]
    have hcn : cur ≠ nxt := by
      intro hh
      rw [hh] at hr
      omega
    constructor
    · intro p hp hq
      rw [hred]
      by_cases hpn : p = nxt
      · subst hpn
        have hqc : (⟨p.r - 1, p.c⟩ : Pos) = cur :=
          posExt (show p.r - 1 = cur.r by omega) (show p.c = cur.c by omega)
        rw [hqc, upd_same, upd_ne _ _ _ _ hcn, upd_same]
      · by_cases hpc : p = cur
        · subst hpc
          have hqn2 : (⟨p.r - 1, p.c⟩ : Pos) ≠ p := by
            intro hh
            have h1 : p.r - 1 = p.r := congrArg Pos.r hh
            omega
          have hqn3 : (⟨p.r - 1, p.c⟩ : Pos) ≠ nxt := by
            intro hh
            have h1 : p.r - 1 = nxt.r := congrArg Pos.r hh
            omega
          rw [upd_ne _ _ _ _ hcn, upd_same, upd_ne _ _ _ _ hqn3,
            upd_ne _ _ _ _ hqn2]
          exact sym.1 p hp hq
        · have hqc2 : (⟨p.r - 1, p.c⟩ : Pos) ≠ cur := by
            intro hh
            apply hpn
            have h1 : p.r - 1 = cur.r := congrArg Pos.r hh
            have h2 := congrArg Pos.c hh
            replace h2 : p.c = cur.c := h2
            exact posExt (by omega) (by omega)
          rw [upd_ne _ _ _ _ hpn, upd_ne _ _ _ _ hpc]
          by_cases hqn4 : (⟨p.r - 1, p.c⟩ : Pos) = nxt
          · rw [hqn4, upd_same]
            have hold := sym.1 p hp hq
            rw [hqn4] at hold
            exact hold
          · rw [upd_ne _ _ _ _ hqn4, upd_ne _ _ _ _ hqc2]
            exact sym.1 p hp hq
    · intro p hp hq
      rw [hred]
      have hflag : ∀ z, ((upd (upd cells cur
          { cells cur with
            walls := { (cells cur).walls with bottom := false } }) nxt
          { cells nxt with
            walls := { (cells nxt).walls with top := false } })
            z).walls.left = (cells z).walls.left ∧
          ((upd (upd cells cur
          { cells cur with
            walls := { (cells cur).walls with bottom := false } }) nxt
          { cells nxt with
            walls := { (cells nxt).walls with top := false } })
            z).walls.right = (cells z).walls.right := by
        intro z
        unfold upd
        by_cases hz1 : z = nxt
        · subst hz1
          rw [if_pos rfl]
          exact ⟨rfl, rfl⟩
        · rw [if_neg hz1]
          by_cases hz2 : z = cur
          · subst hz2
            rw [if_pos rfl]
            exact ⟨rfl, rfl⟩
          · rw [if_neg hz2]
            exact ⟨rfl, rfl⟩
      rw [(hflag p).1, (hflag ⟨p.r, p.c - 1⟩).2]
      exact sym.2 p hp hq
  · -- next is left of current: left of cur and right of nxt cleared
    have hred : removeWalls cells cur nxt =
        upd (upd cells cur
          { cells cur with
            walls := { (cells cur).walls with left := false } }) nxt
          { cells nxt with
            walls := { (cells nxt).walls with right := false } } := by
      unfold removeWalls
      rw [if_neg (by omega), if_neg (by omega), if_pos (by omega)]
    have hcn : cur ≠ nxt := by
      intro hh
      rw [hh] at hc
      omega
    constructor
    · intro p hp hq
      rw [hred]
      have hflag : ∀ z, ((upd (upd cells cur
          { cells cur with
            walls := { (cells cur).walls with left := false } }) nxt
          { cells nxt with
            walls := { (cells nxt).walls with right := false } })
            z).walls.top = (cells z).walls.top ∧
          ((upd (upd cells cur
          { cells cur with
            walls := { (cells cur).walls with left := false } }) nxt
          { cells nxt with
            walls := { (cells nxt).walls with right := false } })
            z).walls.bottom = (cells z).walls.bottom := by
        intro z
        unfold upd
        by_cases hz1 : z = nxt
        · subst hz1
          rw [if_pos rfl]
          exact ⟨rfl, rfl⟩
        · rw [if_neg hz1]
          by_cases hz2 : z = cur
          · subst hz2
            rw [if_pos rfl]
            exact ⟨rfl, rfl⟩
          · rw [if_neg hz2]
            exact ⟨rfl, rfl⟩
      rw [(hflag p).1, (hflag ⟨p.r - 1, p.c⟩).2]
      exact sym.1 p hp hq
    · intro p hp hq
      rw [hred]
      by_cases hpc : p = cur
      · subst hpc
        have hqn : (⟨p.r, p.c - 1⟩ : Pos) = nxt :=
          posExt (show p.r = nxt.r by omega) (show p.c - 1 = nxt.c by omega)
        rw [hqn, upd_same, upd_ne _ _ _ _ hcn, upd_same]
      · by_cases hpn : p = nxt
        · subst hpn
          have hqn2 : (⟨p.r, p.c - 1⟩ : Pos) ≠ p := by
            intro hh
            have h1 : p.c - 1 = p.c := congrArg Pos.c hh
            omega
          have hqc2 : (⟨p.r, p.c - 1⟩ : Pos) ≠ cur := by
            intro hh
            have h1 : p.c - 1 = cur.c := congrArg Pos.c hh
            omega
          rw [upd_same, upd_ne _ _ _ _ hqn2, upd_ne _ _ _ _ hqc2]
          exact sym.2 p hp hq
        · have hqn3 : (⟨p.r, p.c - 1⟩ : Pos) ≠ nxt := by
            intro hh
            apply hpc
            have h1 := congrArg Pos.r hh
            replace h1 : p.r = nxt.r := h1
            have h2 : p.c - 1 = nxt.c := congrArg Pos.c hh
            exact posExt (by omega) (by omega)
          rw [upd_ne _ _ _ _ hpn, upd_ne _ _ _ _ hpc, upd_ne _ _ _ _ hqn3]
          by_cases hqc : (⟨p.r, p.c - 1⟩ : Pos) = cur
          · rw [hqc, upd_same]
            have hold := sym.2 p hp hq
            rw [hqc] at hold
            exact hold
          · rw [upd_ne _ _ _ _ hqc]
            exact sym.2 p hp hq
  · -- next is right of current: right of cur and left of nxt cleared
    have hred : removeWalls cells cur nxt =
        upd (upd cells cur
          { cells cur with
            walls := { (cells cur).walls with right := false } }) nxt
          { cells nxt with
            walls := { (cells nxt).walls with left := false } } := by
      unfold removeWalls
      rw [if_neg (by omega), if_neg (by omega), if_neg (by omega),
        if_pos (by omega)]
    have hcn : cur ≠ nxt := by
      intro hh
      rw [hh] at hc
      omega
    constructor
    · intro p hp hq
      rw [hred]
      have hflag : ∀ z, ((upd (upd cells cur
          { cells cur with
            walls := { (cells cur).walls with right := false } }) nxt
          { cells nxt with
            walls := { (cells nxt).walls with left := false } })
            z).walls.top = (cells z).walls.top ∧
          ((upd (upd cells cur
          { cells cur with
            walls := { (cells cur).walls with right := false } }) nxt
          { cells nxt with
            walls := { (cells nxt).walls with left := false } })
            z).walls.bottom = (cells z).walls.bottom := by
        intro z
        unfold upd
        by_cases hz1 : z = nxt
        · subst hz1
          rw [if_pos rfl]
          exact ⟨rfl, rfl⟩
        · rw [if_neg hz1]
          by_cases hz2 : z = cur
          · subst hz2
            rw [if_pos rfl]
            exact ⟨rfl, rfl⟩
          · rw [if_neg hz2]
            exact ⟨rfl, rfl⟩
      rw [(hflag p).1, (hflag ⟨p.r - 1, p.c⟩).2]
      exact sym.1 p hp hq
    · intro p hp hq
      rw [hred]
      by_cases hpn : p = nxt
      · subst hpn
        have hqc : (⟨p.r, p.c - 1⟩ : Pos) = cur :=
          posExt (show p.r = cur.r by omega) (show p.c - 1 = cur.c by omega)
        rw [hqc, upd_same, upd_ne _ _ _ _ hcn, upd_same]
      · by_cases hpc : p = cur
        · subst hpc
          have hqn2 : (⟨p.r, p.c - 1⟩ : Pos) ≠ p := by
            intro hh
            have h1 : p.c - 1 = p.c := congrArg Pos.c hh
            omega
          have hqn3 : (⟨p.r, p.c - 1⟩ : Pos) ≠ nxt := by
            intro hh
            have h1 : p.c - 1 = nxt.c := congrArg Pos.c hh
            omega
          rw [upd_ne _ _ _ _ hcn, upd_same, upd_ne _ _ _ _ hqn3,
            upd_ne _ _ _ _ hqn2]
          exact sym.2 p hp hq
        · have hqc2 : (⟨p.r, p.c - 1⟩ : Pos) ≠ cur := by
            intro hh
            apply hpn
            have h1 := congrArg Pos.r hh
            replace h1 : p.r = cur.r := h1
            have h2 : p.c - 1 = cur.c := congrArg Pos.c hh
            exact posExt (by omega) (by omega)
          rw [upd_ne _ _ _ _ hpn, upd_ne _ _ _ _ hpc]
          by_cases hqn4 : (⟨p.r, p.c - 1⟩ : Pos) = nxt
          · rw [hqn4, upd_same]
            have hold := sym.2 p hp hq
            rw [hqn4] at hold
            exact hold
          · rw [upd_ne _ _ _ _ hqn4, upd_ne _ _ _ _ hqc2]
            exact sym.2 p hp hq

/-- Marking a cell visited keeps every wall flag, hence symmetry. -/
lemma updVisited_sym {w h : Nat} {cells : Pos → MazeCell}
    (sym : GenWallSym w h cells) (q : Pos) :
    GenWallSym w h (upd cells q { cells q with visited := true }) := by
  have hw : ∀ z, (upd cells q { cells q with visited := true } z).walls =
      (cells z).walls := by
    intro z
    unfold upd
    by_cases hz : z = q
    · subst hz
      rw [if_pos rfl]
    · rw [if_neg hz]
  exact ⟨fun p hp hq => by rw [hw, hw]; exact sym.1 p hp hq,
    fun p hp hq => by rw [hw, hw]; exact sym.2 p hp hq⟩

/-- The generator loop keeps the matrix wall-symmetric for every fuel, rng
stream, and stack whose members lie in bounds (the neighbors it carves to
are produced by the in-bounds scan). -/
lemma genLoop_sym (w h : Nat) (diff : Difficulty) (rng : Nat → Nat) :
    ∀ (fuel : Nat) (cells : Pos → MazeCell) (stack : List Pos) (k : Nat)
      (cf : Pos → MazeCell) (kf : Nat),
    GenWallSym w h cells →
    genLoop w h diff rng fuel cells stack k = some (cf, kf) →
    GenWallSym w h cf := by
  intro fuel
  induction fuel with
  | zero =>
    intro cells stack k cf kf _ heq
    simp [genLoop] at heq
  | succ fuel ih =>
    intro cells stack k cf kf sym heq
    rcases stack with _ | ⟨cur, rest⟩
    · simp only [genLoop] at heq
      obtain ⟨h1, _⟩ := Prod.mk.injEq .. ▸ (Option.some_injective _ heq)
      rw [← h1]
      exact sym
    · simp only [genLoop] at heq
      by_cases hn : (genUnvisitedNeighbors w h cells cur).length > 0
      · rw [if_pos hn] at heq
        have hne : genUnvisitedNeighbors w h cells cur ≠ [] := by
          intro hh
          rw [hh] at hn
          simp at hn
        have hmem := getRandomNeighbor_mem diff w h rng k
          (genUnvisitedNeighbors w h cells cur) hne
        obtain ⟨hadj, _, _⟩ := genUnvisitedNeighbors_mem hmem
        exact ih _ _ _ _ _
          (updVisited_sym (removeWalls_sym sym hadj) _) heq
      · rw [if_neg hn] at heq
        exact ih _ _ _ _ _ sym heq

/-- The generator loop never clears a visited flag. -/
lemma genLoop_visited_mono (w h : Nat) (diff : Difficulty)
    (rng : Nat → Nat) :
    ∀ (fuel : Nat) (cells : Pos → MazeCell) (stack : List Pos) (k : Nat)
      (cf : Pos → MazeCell) (kf : Nat),
    genLoop w h diff rng fuel cells stack k = some (cf, kf) →
    ∀ p, (cells p).visited = true → (cf p).visited = true := by
  intro fuel
  induction fuel with
  | zero =>
    intro cells stack k cf kf heq
    simp [genLoop] at heq
  | succ fuel ih =>
    intro cells stack k cf kf heq p hp
    rcases stack with _ | ⟨cur, rest⟩
    · simp only [genLoop] at heq
      obtain ⟨h1, _⟩ := Prod.mk.injEq .. ▸ (Option.some_injective _ heq)
      rw [← h1]
      exact hp
    · simp only [genLoop] at heq
      by_cases hn : (genUnvisitedNeighbors w h cells cur).length > 0
      · rw [if_pos hn] at heq
        refine ih _ _ _ _ _ heq p ?_
        set pick := getRandomNeighbor diff w h rng k
          (genUnvisitedNeighbors w h cells cur)
        show (upd (removeWalls cells cur pick.1) pick.1
          { removeWalls cells cur pick.1 pick.1 with visited := true }
            p).visited = true
        unfold upd
        by_cases hpp : p = pick.1
        · rw [if_pos hpp]
        · rw [if_neg hpp]
          rw [removeWalls_visited]
          exact hp
      · rw [if_neg hn] at heq
        exact ih _ _ _ _ _ heq p hp

/-- Membership in the valid-cell enumeration. -/
lemma validCells_mem_iff (w h : Nat) (cells : Pos → MazeCell) (p : Pos) :
    p ∈ validCells w h cells ↔ GenInB w h p ∧ (cells p).visited = true := by
  unfold validCells
  simp only [List.mem_flatMap, List.mem_filterMap, List.mem_range]
  constructor
  · intro ⟨r, hr, c, hc, hif⟩
    by_cases hv : (cells ⟨(r : Int), (c : Int)⟩).visited
    · rw [if_pos hv] at hif
      have hp := Option.some_injective _ hif
      rw [← hp]
      refine ⟨⟨?_, ?_, ?_, ?_⟩, hv⟩
      · exact Int.natCast_nonneg r
      · show ((r : Nat) : Int) < ((h : Nat) : Int)
        exact_mod_cast hr
      · exact Int.natCast_nonneg c
      · show ((c : Nat) : Int) < ((w : Nat) : Int)
        exact_mod_cast hc
    · rw [if_neg hv] at hif
      simp at hif
  · intro ⟨⟨h0, h1, h2, h3⟩, hv⟩
    refine ⟨p.r.toNat, by omega, p.c.toNat, by omega, ?_⟩
    have hpe : (⟨(p.r.toNat : Int), (p.c.toNat : Int)⟩ : Pos) = p :=
      posExt (show ((p.r.toNat : Nat) : Int) = p.r by omega)
        (show ((p.c.toNat : Nat) : Int) = p.c by omega)
    rw [hpe, if_pos hv]

/-- getRandomStartPosition picks a member of the valid cells. -/
lemma getRandomStartPosition_mem (diff : Difficulty) (w h : Nat)
    (rng : Nat → Nat) (k : Nat) (cells : Pos → MazeCell)
    (hne : validCells w h cells ≠ []) :
    getRandomStartPosition diff w h rng k cells ∈ validCells w h cells := by
  have hlen : 0 < (validCells w h cells).length := List.length_pos.mpr hne
  cases diff with
  | easy =>
    simp only [getRandomStartPosition]
    by_cases ht : ((validCells w h cells).filter
        (fun p => decide (2 * p.r < (h : Int)))).length > 0
    · rw [if_pos ht]
      exact List.mem_of_mem_filter (getD_mem_pos (Nat.mod_lt _ ht))
    · rw [if_neg ht]
      exact getD_mem_pos (Nat.mod_lt _ hlen)
  | hard =>
    simp only [getRandomStartPosition]
    by_cases ht : ((validCells w h cells).filter
        (fun p => decide (2 * p.r ≥ (h : Int)))).length > 0
    · rw [if_pos ht]
      exact List.mem_of_mem_filter (getD_mem_pos (Nat.mod_lt _ ht))
    · rw [if_neg ht]
      exact getD_mem_pos (Nat.mod_lt _ hlen)
  | normal =>
    simp only [getRandomStartPosition]
    exact getD_mem_pos (Nat.mod_lt _ hlen)

/-- Reading the materialized cell matrix agrees with the generating
function in bounds. -/
lemma matCells_at (w h : Nat) (f : Pos → MazeCell) (p : Pos)
    (hp : GenInB w h p) :
    cellAt ((List.range h).map (fun (r : Nat) => (List.range w).map
      (fun (c : Nat) => f ⟨(r : Int), (c : Int)⟩))) p = f p := by
  obtain ⟨h0, h1, h2, h3⟩ := hp
  have hr : p.r.toNat < h := by omega
  have hc : p.c.toNat < w := by omega
  unfold cellAt
  rw [List.getD_eq_getElem _ [] (by simpa using hr)]
  rw [List.getElem_map, List.getElem_range]
  rw [List.getD_eq_getElem _ allWallsCell (by simpa using hc)]
  rw [List.getElem_map, List.getElem_range]
  congr 1
  exact posExt (show ((p.r.toNat : Nat) : Int) = p.r by omega)
    (show ((p.c.toNat : Nat) : Int) = p.c by omega)

/-- The exit carve only clears a wall whose facing cell lies outside the
grid, so symmetry of interior pairs survives. -/
lemma exitCarve_sym {w h : Nat} {cells : Pos → MazeCell}
    (sym : GenWallSym w h cells) : GenWallSym w h (exitCarve cells) := by
  unfold exitCarve
  constructor
  · intro p hp hq
    by_cases hp1 : p = (⟨0, 1⟩ : Pos)
    · exfalso
      subst hp1
      have hneg : (0 : Int) ≤ 0 - 1 := hq.1
      omega
    · rw [upd_ne _ _ _ _ hp1]
      by_cases hq1 : (⟨p.r - 1, p.c⟩ : Pos) = ⟨0, 1⟩
      · rw [hq1, upd_same]
        have hold := sym.1 p hp hq
        rw [hq1] at hold
        exact hold
      · rw [upd_ne _ _ _ _ hq1]
        exact sym.1 p hp hq
  · intro p hp hq
    have hflag : ∀ z, ((upd cells ⟨0, 1⟩
        { cells ⟨0, 1⟩ with
          walls := { (cells ⟨0, 1⟩).walls with top := false } })
          z).walls.left = (cells z).walls.left ∧
        ((upd cells ⟨0, 1⟩
        { cells ⟨0, 1⟩ with
          walls := { (cells ⟨0, 1⟩).walls with top := false } })
          z).walls.right = (cells z).walls.right := by
      intro z
      unfold upd
      by_cases hz : z = (⟨0, 1⟩ : Pos)
      · subst hz
        rw [if_pos rfl]
        exact ⟨rfl, rfl⟩
      · rw [if_neg hz]
        exact ⟨rfl, rfl⟩
    rw [(hflag p).1, (hflag ⟨p.r, p.c - 1⟩).2]
    exact sym.2 p hp hq

/-- The exit carve keeps every visited flag. -/
lemma exitCarve_visited (cells : Pos → MazeCell) :
    ∀ p, (exitCarve cells p).visited = (cells p).visited := by
  intro p
  unfold exitCarve upd
  by_cases hp : p = (⟨0, 1⟩ : Pos)
  · subst hp
    rw [if_pos rfl]
  · rw [if_neg hp]

/-- Shape and start validity of every generated level. -/
lemma generateMaze_props (w h : Nat) (diff : Difficulty) (rng : Nat → Nat)
    (lv : Level) (hw : 2 ≤ w) (hh : 2 ≤ h)
    (hgen : generateMaze w h diff rng = some lv) :
    rowsN lv = h ∧ colsN lv = w ∧ InBounds lv lv.start ∧
    ∃ cellsE : Pos → MazeCell, lv.cells = some (matCells w h cellsE) ∧
      GenWallSym w h cellsE := by
  simp only [generateMaze] at hgen
  rcases hloop : genLoop w h diff rng (genFuel w h)
      (upd (fun _ => ⟨⟨true, true, true, true⟩, false⟩) (genSeed w h diff)
        { (fun (_ : Pos) => (⟨⟨true, true, true, true⟩, false⟩ : MazeCell))
            (genSeed w h diff) with visited := true })
      [genSeed w h diff] 0 with _ | ⟨cellsF, kF⟩
  · rw [hloop] at hgen
    simp at hgen
  · rw [hloop] at hgen
    dsimp only at hgen
    have hlv := Option.some_injective _ hgen
    have hseed : GenInB w h (genSeed w h diff) := by
      cases diff <;> refine ⟨?_, ?_, ?_, ?_⟩ <;> simp [genSeed] <;> omega
    have hsymInit : GenWallSym w h
        (fun (_ : Pos) => (⟨⟨true, true, true, true⟩, false⟩ : MazeCell)) :=
      ⟨fun _ _ _ => rfl, fun _ _ _ => rfl⟩
    have hsym0 := updVisited_sym hsymInit (genSeed w h diff)
    have hsymF : GenWallSym w h cellsF :=
      genLoop_sym w h diff rng _ _ _ _ _ _ hsym0 hloop
    have hsymE : GenWallSym w h (exitCarve cellsF) := exitCarve_sym hsymF
    have hv0 : ((upd (fun _ => (⟨⟨true, true, true, true⟩, false⟩ : MazeCell))
        (genSeed w h diff)
        { (fun (_ : Pos) => (⟨⟨true, true, true, true⟩, false⟩ : MazeCell))
            (genSeed w h diff) with visited := true })
        (genSeed w h diff)).visited = true := by
      rw [upd_same]
    have hvF : (cellsF (genSeed w h diff)).visited = true :=
      genLoop_visited_mono w h diff rng _ _ _ _ _ _ hloop _ hv0
    have hvE : (exitCarve cellsF (genSeed w h diff)).visited = true := by
      rw [exitCarve_visited]
      exact hvF
    have hseedmem : genSeed w h diff ∈ validCells w h (exitCarve cellsF) :=
      (validCells_mem_iff w h _ _).mpr ⟨hseed, hvE⟩
    have hvcne : validCells w h (exitCarve cellsF) ≠ [] :=
      List.ne_nil_of_mem hseedmem
    have hstartmem := getRandomStartPosition_mem diff w h rng kF
      (exitCarve cellsF) hvcne
    have hstartb : GenInB w h (getRandomStartPosition diff w h rng kF
        (exitCarve cellsF)) :=
      ((validCells_mem_iff w h _ _).mp hstartmem).1
    have hrows : rowsN lv = h := by
      rw [← hlv]
      simp [mkGenLevel, rowsN]
    have hcols : colsN lv = w := by
      rw [← hlv]
      obtain ⟨m, hm⟩ : ∃ m, h = m + 1 := ⟨h - 1, by omega⟩
      simp only [mkGenLevel, colsN]
      rw [hm, List.range_succ_eq_map]
      simp
    refine ⟨hrows, hcols, ?_, exitCarve cellsF, ?_, hsymE⟩
    · have hst : lv.start = getRandomStartPosition diff w h rng kF
          (exitCarve cellsF) := by
        rw [← hlv]
        rfl
      obtain ⟨g0, g1, g2, g3⟩ := hstartb
      refine ⟨?_, ?_, ?_, ?_⟩
      · rw [hst]
        exact g0
      · show lv.start.r < rowsZ lv
        rw [hst]
        unfold rowsZ
        rw [hrows]
        exact g1
      · rw [hst]
        exact g2
      · show lv.start.c < colsZ lv
        rw [hst]
        unfold colsZ
        rw [hcols]
        exact g3
    · rw [← hlv]
      rfl

/-! ## Concrete levels and solutions used as witnesses and counterexamples -/

/-- 1 × 1 binary level, a single empty cell. -/
def lv1 : Level := ⟨[[0]], ⟨0, 0⟩, none⟩

/-- 1 × 1 binary level whose only cell is a wall. -/
def lv2 : Level := ⟨[[1]], ⟨0, 0⟩, none⟩

/-- A cell with all four walls. -/
def allT : MazeCell := ⟨⟨true, true, true, true⟩, false⟩

/-- 3 × 3 wall level: the center opens to all four neighbors, three of them
dead ends, and only the east neighbor opens to the border. -/
def lv3 : Level :=
  ⟨[[0, 0, 0], [0, 0, 0], [0, 0, 0]], ⟨1, 1⟩,
    some [[allT, ⟨⟨true, true, false, true⟩, false⟩, allT],
          [⟨⟨true, false, true, true⟩, false⟩,
            ⟨⟨false, false, false, false⟩, false⟩,
            ⟨⟨true, false, true, false⟩, false⟩],
          [allT, ⟨⟨false, true, true, true⟩, false⟩, allT]]⟩

/-- 1 × 1 wall level fully enclosed: no border opening at all. -/
def lv4 : Level := ⟨[[0]], ⟨0, 0⟩, some [[allT]]⟩

/-- The 2 × 2 level generateMaze 2 2 normal produces on the all-zero rng
stream. -/
def lvGen : Level :=
  ⟨[[0, 0], [0, 0]], ⟨0, 0⟩,
    some [[⟨⟨true, false, false, true⟩, true⟩,
            ⟨⟨false, true, false, false⟩, true⟩],
          [⟨⟨false, true, true, true⟩, true⟩,
            ⟨⟨false, true, true, true⟩, true⟩]]⟩

/-- What solveBFS returns on lv1. -/
def solBFS1 : Solution := ⟨0, [⟨0, 0⟩], [⟨0, 0⟩], "BFS", [], none⟩

/-- What solveDFS returns on lv1. -/
def solDFS1 : Solution := ⟨0, [⟨0, 0⟩], [⟨0, 0⟩], "DFS", [], none⟩

/-- What solveBFS returns on lv2. -/
def solBFS2 : Solution := ⟨0, [⟨0, 0⟩], [⟨0, 0⟩], "BFS", [], none⟩

/-- The minimum exit distance of a level is unique. -/
lemma optimalExitD_unique {lv : Level} {k1 k2 : Nat}
    (h1 : OptimalExitD lv k1) (h2 : OptimalExitD lv k2) : k1 = k2 := by
  obtain ⟨⟨e1, hr1, hx1⟩, hm1⟩ := h1
  obtain ⟨⟨e2, hr2, hx2⟩, hm2⟩ := h2
  exact le_antisymm (hm1 e2 k2 hr2 hx2) (hm2 e1 k1 hr1 hx1)

/-- The movement graph of the fully enclosed 1 × 1 level has no edge. -/
lemma lv4_no_edge : ∀ p q : Pos, ¬ Edge lv4 p q := by
  intro p q ⟨hbp, hbq, ⟨d, hd, hq⟩, _⟩
  have hr1 : rowsZ lv4 = 1 := by decide
  have hc1 : colsZ lv4 = 1 := by decide
  obtain ⟨a1, a2, a3, a4⟩ := hbp
  rw [hr1] at a2
  rw [hc1] at a4
  obtain ⟨b1, b2, b3, b4⟩ := hbq
  rw [hr1] at b2
  rw [hc1] at b4
  subst hq
  simp only [DIRS, List.mem_cons, List.mem_singleton] at hd
  rcases hd with rfl | rfl | rfl | rfl | h5
  · have hb1 : (0 : Int) ≤ p.r + -1 := b1
    omega
  · have hb2 : p.r + 1 < 1 := b2
    omega
  · have hb3 : (0 : Int) ≤ p.c + -1 := b3
    omega
  · have hb4 : p.c + 1 < 1 := b4
    omega
  · simp at h5

/-- No reachable cell of the enclosed 1 × 1 level passes the exit test. -/
lemma lv4_unreach :
    ∀ e n, ReachN lv4 lv4.start e n → canExitCheck lv4 e = false := by
  intro e n hre
  cases hre with
  | refl => decide
  | cons hedge _ => exact absurd hedge (lv4_no_edge _ _)

/-- Reading the materialized generator matrix in bounds. -/
lemma matCells_at2 (w h : Nat) (f : Pos → MazeCell) (p : Pos)
    (hp : GenInB w h p) : cellAt (matCells w h f) p = f p := by
  unfold matCells
  exact matCells_at w h f p hp

/-- The wall flag of a cell that faces direction d. -/
def facingWall (c : MazeCell) (d : Pos) : Bool :=
  if d.r = -1 then c.walls.top
  else if d.r = 1 then c.walls.bottom
  else if d.c = -1 then c.walls.left
  else c.walls.right

/-! ## The claims -/

/-- C1: on every solvable generator-produced level, solveBFS, solveDijkstra
and solveAStar all return Solutions whose distance equals the minimum edge
count from start to a cell passing the exit test. -/
theorem c1_generated_optimal_distance_equal
    (w h : Nat) (diff : Difficulty) (rng : Nat → Nat) (lv : Level)
    (hw : 2 ≤ w) (hh : 2 ≤ h)
    (hgen : generateMaze w h diff rng = some lv) (hsolv : Solvable lv) :
    ∃ (bs ds asol : Solution) (k : Nat),
      solveBFS lv (bfsFuel lv) = some (some bs) ∧
      solveDijkstra lv (pqFuel lv) = some (some ds) ∧
      solveAStar lv (pqFuel lv) = some (some asol) ∧
      OptimalExitD lv k ∧
      bs.distance = (k : Int) ∧ ds.distance = (k : Int) ∧
      asol.distance = (k : Int) := by
  obtain ⟨_, _, hs, _⟩ := generateMaze_props w h diff rng lv hw hh hgen
  obtain ⟨bs, hb, outB⟩ := solveBFS_solvable lv hs hsolv
  obtain ⟨ds, hd, outD⟩ := solveDijkstra_solvable lv hs hsolv
  obtain ⟨asol, ha, outA⟩ := solveAStar_solvable lv hs hsolv
  refine ⟨bs, ds, asol, bs.path.length - 1, hb, hd, ha, outB.opt, ?_, ?_, ?_⟩
  · have h1 : 1 ≤ bs.path.length := List.length_pos.mpr outB.pathNe
    rw [outB.distEq]
    omega
  · have huk : ds.path.length - 1 = bs.path.length - 1 :=
      optimalExitD_unique outD.opt outB.opt
    have h1 : 1 ≤ ds.path.length := List.length_pos.mpr outD.pathNe
    rw [outD.distEq]
    omega
  · have huk : asol.path.length - 1 = bs.path.length - 1 :=
      optimalExitD_unique outA.opt outB.opt
    have h1 : 1 ≤ asol.path.length := List.length_pos.mpr outA.pathNe
    rw [outA.distEq]
    omega

/-- C1 witness: the 2 × 2 normal-difficulty maze of the all-zero stream. -/
theorem c1_witness :
    (2 ≤ 2) ∧ (2 ≤ 2) ∧
    generateMaze 2 2 Difficulty.normal (fun _ => 0) = some lvGen ∧
    Solvable lvGen ∧
    (∃ (bs ds asol : Solution) (k : Nat),
      solveBFS lvGen (bfsFuel lvGen) = some (some bs) ∧
      solveDijkstra lvGen (pqFuel lvGen) = some (some ds) ∧
      solveAStar lvGen (pqFuel lvGen) = some (some asol) ∧
      OptimalExitD lvGen k ∧
      bs.distance = (k : Int) ∧ ds.distance = (k : Int) ∧
      asol.distance = (k : Int)) := by
  have hgen : generateMaze 2 2 Difficulty.normal (fun _ => 0) = some lvGen :=
    by decide
  have hsolv : Solvable lvGen :=
    ⟨⟨0, 1⟩, 1, ReachN.cons (by decide) (ReachN.refl _), by decide⟩
  exact ⟨by decide, by decide, hgen, hsolv,
    c1_generated_optimal_distance_equal 2 2 Difficulty.normal (fun _ => 0)
      lvGen (by decide) (by decide) hgen hsolv⟩

/-- C2 (amended): the positions of the step trace follow the expansion
order, but BFS and Dijkstra omit the final expanded cell (the push is
skipped when the exit returns), while A* records every expanded cell. -/
theorem c2_trace_alignment_amended (lv : Level) (hs : InBounds lv lv.start) :
    (∀ sol, solveBFS lv (bfsFuel lv) = some (some sol) →
      sol.detailedSteps.map (fun s => s.position) =
        sol.visitedCells.dropLast) ∧
    (∀ sol, solveDijkstra lv (pqFuel lv) = some (some sol) →
      sol.detailedSteps.map (fun s => s.position) =
        sol.visitedCells.dropLast) ∧
    (∀ sol, solveAStar lv (pqFuel lv) = some (some sol) →
      sol.detailedSteps.map (fun s => s.position) = sol.visitedCells) := by
  refine ⟨?_, ?_, ?_⟩
  · intro sol hsol
    exact ((solveBFS_spec lv hs).2.1 sol hsol).traceEq
  · intro sol hsol
    exact ((solveDijkstra_spec lv hs).2.1 sol hsol).traceEq
  · intro sol hsol
    exact ((solveAStar_spec lv hs).2.1 sol hsol).traceEq

/-- C2 counterexample: on the 1 × 1 empty binary level, solveBFS returns a
Solution with one visited cell and an empty step trace, so the trace does
not equal the visited list entry for entry; and on the 3 × 3 wall level,
solveDFS returns three trace entries against five visited cells, the first
entry naming a different cell than the first visited one. -/
theorem c2_trace_counterexample :
    solveBFS lv1 (bfsFuel lv1) = some (some solBFS1) ∧
    solBFS1.detailedSteps.map (fun s => s.position) ≠
      solBFS1.visitedCells ∧
    (solveDFS lv3 (dfsFuel lv3)).map (Option.map (fun sol =>
      (sol.detailedSteps.map (fun s => s.position), sol.visitedCells))) =
      some (some ([⟨0, 1⟩, ⟨2, 1⟩, ⟨1, 0⟩],
        [⟨1, 1⟩, ⟨0, 1⟩, ⟨2, 1⟩, ⟨1, 0⟩, ⟨1, 2⟩])) ∧
    ([⟨0, 1⟩, ⟨2, 1⟩, ⟨1, 0⟩] : List Pos) ≠
      [⟨1, 1⟩, ⟨0, 1⟩, ⟨2, 1⟩, ⟨1, 0⟩, ⟨1, 2⟩] := by
  exact ⟨by decide, by decide, by decide, by decide⟩

/-- C2 witness at the 1 × 1 empty binary level. -/
theorem c2_witness :
    InBounds lv1 lv1.start ∧
    ((∀ sol, solveBFS lv1 (bfsFuel lv1) = some (some sol) →
      sol.detailedSteps.map (fun s => s.position) =
        sol.visitedCells.dropLast) ∧
    (∀ sol, solveDijkstra lv1 (pqFuel lv1) = some (some sol) →
      sol.detailedSteps.map (fun s => s.position) =
        sol.visitedCells.dropLast) ∧
    (∀ sol, solveAStar lv1 (pqFuel lv1) = some (some sol) →
      sol.detailedSteps.map (fun s => s.position) = sol.visitedCells)) :=
  ⟨by decide, c2_trace_alignment_amended lv1 (by decide)⟩

/-- C3 (amended): in binary mode the exit test is exactly the border test;
the grid value of the cell is not consulted. -/
theorem c3_binary_exit_border_amended (lv : Level) (hcells : lv.cells = none)
    (cur : Pos) :
    canExitCheck lv cur = true ↔
      (cur.r = 0 ∨ cur.c = 0 ∨ cur.r = rowsZ lv - 1 ∨
        cur.c = colsZ lv - 1) := by
  unfold canExitCheck
  rw [hcells]
  simp

/-- C3 counterexample: the 1 × 1 binary level whose only cell is a wall;
its blocked border start still passes the exit test and solveBFS terminates
successfully there. -/
theorem c3_binary_exit_counterexample :
    gridAt lv2 ⟨0, 0⟩ = 1 ∧ lv2.cells = none ∧
    canExitCheck lv2 ⟨0, 0⟩ = true ∧
    solveBFS lv2 (bfsFuel lv2) = some (some solBFS2) ∧
    solBFS2.path.getLast? = some ⟨0, 0⟩ := by
  exact ⟨by decide, by decide, by decide, by decide, by decide⟩

/-- C3 witness at the blocked 1 × 1 binary level. -/
theorem c3_witness :
    lv2.cells = none ∧
    (canExitCheck lv2 ⟨0, 0⟩ = true ↔
      ((⟨0, 0⟩ : Pos).r = 0 ∨ (⟨0, 0⟩ : Pos).c = 0 ∨
        (⟨0, 0⟩ : Pos).r = rowsZ lv2 - 1 ∨
        (⟨0, 0⟩ : Pos).c = colsZ lv2 - 1)) :=
  ⟨by decide, c3_binary_exit_border_amended lv2 (by decide) ⟨0, 0⟩⟩

/-- C4: every Solution any of the four solvers returns carries a path whose
consecutive cells pass canMoveBetween, whose head is the start, and whose
last cell passes the exit test. -/
theorem c4_path_validity (lv : Level) (hs : InBounds lv lv.start)
    (sol : Solution)
    (hres : solveBFS lv (bfsFuel lv) = some (some sol) ∨
      solveDFS lv (dfsFuel lv) = some (some sol) ∨
      solveAStar lv (pqFuel lv) = some (some sol) ∨
      solveDijkstra lv (pqFuel lv) = some (some sol)) :
    List.Chain' (fun a b => canMoveBetween lv a b = true) sol.path ∧
    sol.path.head? = some lv.start ∧
    ∃ e, sol.path.getLast? = some e ∧ canExitCheck lv e = true := by
  have himp : ∀ a b : Pos, Edge lv a b → canMoveBetween lv a b = true :=
    fun a b he => he.2.2.2
  rcases hres with hres | hres | hres | hres
  · have out := (solveBFS_spec lv hs).2.1 sol hres
    exact ⟨out.pathEdges.imp himp, out.pathHead, out.pathLast⟩
  · have out := (solveDFS_spec lv hs).2 sol hres
    exact ⟨out.pathEdges.imp himp, out.pathHead, out.pathLast⟩
  · have out := (solveAStar_spec lv hs).2.1 sol hres
    exact ⟨out.pathEdges.imp himp, out.pathHead, out.pathLast⟩
  · have out := (solveDijkstra_spec lv hs).2.1 sol hres
    exact ⟨out.pathEdges.imp himp, out.pathHead, out.pathLast⟩

/-- C4 witness: the BFS Solution of the 1 × 1 empty binary level. -/
theorem c4_witness :
    InBounds lv1 lv1.start ∧
    (solveBFS lv1 (bfsFuel lv1) = some (some solBFS1) ∨
      solveDFS lv1 (dfsFuel lv1) = some (some solBFS1) ∨
      solveAStar lv1 (pqFuel lv1) = some (some solBFS1) ∨
      solveDijkstra lv1 (pqFuel lv1) = some (some solBFS1)) ∧
    (List.Chain' (fun a b => canMoveBetween lv1 a b = true) solBFS1.path ∧
    solBFS1.path.head? = some lv1.start ∧
    ∃ e, solBFS1.path.getLast? = some e ∧ canExitCheck lv1 e = true) :=
  ⟨by decide, Or.inl (by decide),
    c4_path_validity lv1 (by decide) solBFS1 (Or.inl (by decide))⟩

/-- C5: solveDFS on lv3 visits the center, then three dead ends, then the
exit; the step entry for cell (2,1) carries isBacktracking = false although
the previously visited cell (0,1) is not 4-adjacent to it. -/
theorem c5_dfs_backtracking_flag :
    (solveDFS lv3 (dfsFuel lv3)).map (Option.map (fun sol =>
      (sol.visitedCells,
        sol.detailedSteps.map (fun st =>
          (st.position, st.algorithmData.isBacktracking))))) =
      some (some ([⟨1, 1⟩, ⟨0, 1⟩, ⟨2, 1⟩, ⟨1, 0⟩, ⟨1, 2⟩],
        [(⟨0, 1⟩, some false), (⟨2, 1⟩, some false),
          (⟨1, 0⟩, some false)])) ∧
    ¬ Adjacent ⟨0, 1⟩ ⟨2, 1⟩ := by
  exact ⟨by decide, by decide⟩

/-- C6: when no reachable cell passes the exit test, all four solvers
return the NotFound sentinel. -/
theorem c6_unsolvable_notfound (lv : Level) (hs : InBounds lv lv.start)
    (hne : ∀ e n, ReachN lv lv.start e n → canExitCheck lv e = false) :
    solveBFS lv (bfsFuel lv) = some none ∧
    solveDFS lv (dfsFuel lv) = some none ∧
    solveAStar lv (pqFuel lv) = some none ∧
    solveDijkstra lv (pqFuel lv) = some none := by
  refine ⟨solveBFS_notfound lv hs hne, ?_, solveAStar_notfound lv hs hne,
    solveDijkstra_notfound lv hs hne⟩
  obtain ⟨⟨r, hr⟩, hout⟩ := solveDFS_spec lv hs
  match r, hr with
  | none, hr => exact hr
  | some sol, hr =>
    obtain ⟨e, hre, hex⟩ := (hout sol hr).reachDist
    rw [hne e _ hre] at hex
    simp at hex

/-- C6 witness: the fully enclosed 1 × 1 wall level. -/
theorem c6_witness :
    InBounds lv4 lv4.start ∧
    (solveBFS lv4 (bfsFuel lv4) = some none ∧
    solveDFS lv4 (dfsFuel lv4) = some none ∧
    solveAStar lv4 (pqFuel lv4) = some none ∧
    solveDijkstra lv4 (pqFuel lv4) = some none) :=
  ⟨by decide, c6_unsolvable_notfound lv4 (by decide) lv4_unreach⟩

/-- C7: every generated level carries wall data in which the two flags of
every interior wall pair agree: the flag of a cell facing an in-bounds
neighbor is clear exactly when the neighbor's flag facing back is clear. -/
theorem c7_generated_wall_symmetry (w h : Nat) (diff : Difficulty)
    (rng : Nat → Nat) (lv : Level) (hw : 2 ≤ w) (hh : 2 ≤ h)
    (hgen : generateMaze w h diff rng = some lv) :
    ∃ cs, lv.cells = some cs ∧
      ∀ (p d : Pos), d ∈ DIRS → InBounds lv p →
        InBounds lv (stepPos p d) →
        (facingWall (cellAt cs p) d = false ↔
          facingWall (cellAt cs (stepPos p d)) ⟨-d.r, -d.c⟩ = false) := by
  obtain ⟨hrows, hcols, _, cellsE, hcs, hsym⟩ :=
    generateMaze_props w h diff rng lv hw hh hgen
  refine ⟨matCells w h cellsE, hcs, ?_⟩
  have hgb : ∀ z, InBounds lv z → GenInB w h z := by
    intro z ⟨a, b, c, d⟩
    unfold rowsZ at b
    unfold colsZ at d
    rw [hrows] at b
    rw [hcols] at d
    exact ⟨a, b, c, d⟩
  intro p d hd hp hq
  simp only [DIRS, List.mem_cons, List.mem_singleton] at hd
  rcases hd with rfl | rfl | rfl | rfl | h5
  · have hstep : stepPos p ⟨-1, 0⟩ = ⟨p.r - 1, p.c⟩ :=
      posExt (show p.r + (-1 : Int) = p.r - 1 by omega)
        (show p.c + (0 : Int) = p.c by omega)
    rw [hstep] at hq ⊢
    rw [matCells_at2 w h cellsE p (hgb p hp),
      matCells_at2 w h cellsE _ (hgb _ hq)]
    have h1 := hsym.1 p (hgb p hp) (hgb _ hq)
    show (cellsE p).walls.top = false ↔
      (cellsE ⟨p.r - 1, p.c⟩).walls.bottom = false
    rw [h1]
  · have hstep : stepPos p ⟨1, 0⟩ = ⟨p.r + 1, p.c⟩ :=
      posExt (show p.r + (1 : Int) = p.r + 1 by omega)
        (show p.c + (0 : Int) = p.c by omega)
    rw [hstep] at hq ⊢
    rw [matCells_at2 w h cellsE p (hgb p hp),
      matCells_at2 w h cellsE _ (hgb _ hq)]
    have hback : (⟨p.r + 1 - 1, p.c⟩ : Pos) = p :=
      posExt (show p.r + 1 - 1 = p.r by omega) rfl
    have h1 := hsym.1 ⟨p.r + 1, p.c⟩ (hgb _ hq)
      (by rw [show (⟨(⟨p.r + 1, p.c⟩ : Pos).r - 1,
        (⟨p.r + 1, p.c⟩ : Pos).c⟩ : Pos) = p from hback]
          exact hgb p hp)
    rw [hback] at h1
    show (cellsE p).walls.bottom = false ↔
      (cellsE ⟨p.r + 1, p.c⟩).walls.top = false
    rw [h1]
  · have hstep : stepPos p ⟨0, -1⟩ = ⟨p.r, p.c - 1⟩ :=
      posExt (show p.r + (0 : Int) = p.r by omega)
        (show p.c + (-1 : Int) = p.c - 1 by omega)
    rw [hstep] at hq ⊢
    rw [matCells_at2 w h cellsE p (hgb p hp),
      matCells_at2 w h cellsE _ (hgb _ hq)]
    have h1 := hsym.2 p (hgb p hp) (hgb _ hq)
    show (cellsE p).walls.left = false ↔
      (cellsE ⟨p.r, p.c - 1⟩).walls.right = false
    rw [h1]
  · have hstep : stepPos p ⟨0, 1⟩ = ⟨p.r, p.c + 1⟩ :=
      posExt (show p.r + (0 : Int) = p.r by omega)
        (show p.c + (1 : Int) = p.c + 1 by omega)
    rw [hstep] at hq ⊢
    rw [matCells_at2 w h cellsE p (hgb p hp),
      matCells_at2 w h cellsE _ (hgb _ hq)]
    have hback : (⟨p.r, p.c + 1 - 1⟩ : Pos) = p :=
      posExt rfl (show p.c + 1 - 1 = p.c by omega)
    have h1 := hsym.2 ⟨p.r, p.c + 1⟩ (hgb _ hq)
      (by rw [show (⟨(⟨p.r, p.c + 1⟩ : Pos).r,
        (⟨p.r, p.c + 1⟩ : Pos).c - 1⟩ : Pos) = p from hback]
          exact hgb p hp)
    rw [hback] at h1
    show (cellsE p).walls.right = false ↔
      (cellsE ⟨p.r, p.c + 1⟩).walls.left = false
    rw [h1]
  · simp at h5

/-- C7 witness: the 2 × 2 normal maze of the all-zero stream. -/
theorem c7_witness :
    (2 ≤ 2) ∧ (2 ≤ 2) ∧
    generateMaze 2 2 Difficulty.normal (fun _ => 0) = some lvGen ∧
    (∃ cs, lvGen.cells = some cs ∧
      ∀ (p d : Pos), d ∈ DIRS → InBounds lvGen p →
        InBounds lvGen (stepPos p d) →
        (facingWall (cellAt cs p) d = false ↔
          facingWall (cellAt cs (stepPos p d)) ⟨-d.r, -d.c⟩ = false)) :=
  ⟨by decide, by decide, by decide,
    c7_generated_wall_symmetry 2 2 Difficulty.normal (fun _ => 0) lvGen
      (by decide) (by decide) (by decide)⟩

/-- C8: whenever both solveDFS and solveBFS return a Solution on the same
level, the DFS distance is at least the BFS distance. -/
theorem c8_dfs_distance_ge_bfs (lv : Level) (hs : InBounds lv lv.start)
    (bs ds : Solution)
    (hb : solveBFS lv (bfsFuel lv) = some (some bs))
    (hd : solveDFS lv (dfsFuel lv) = some (some ds)) :
    bs.distance ≤ ds.distance := by
  have outB := (solveBFS_spec lv hs).2.1 bs hb
  have outD := (solveDFS_spec lv hs).2 ds hd
  obtain ⟨e, hre, hex⟩ := outD.reachDist
  have hmin : bs.path.length - 1 ≤ ds.path.length - 1 :=
    outB.opt.2 e (ds.path.length - 1) hre hex
  have h1 : 1 ≤ bs.path.length := List.length_pos.mpr outB.pathNe
  have h2 : 1 ≤ ds.path.length := List.length_pos.mpr outD.pathNe
  rw [outB.distEq, outD.distEq]
  omega

/-- C8 witness at the 1 × 1 empty binary level. -/
theorem c8_witness :
    InBounds lv1 lv1.start ∧
    solveBFS lv1 (bfsFuel lv1) = some (some solBFS1) ∧
    solveDFS lv1 (dfsFuel lv1) = some (some solDFS1) ∧
    solBFS1.distance ≤ solDFS1.distance :=
  ⟨by decide, by decide, by decide,
    c8_dfs_distance_ge_bfs lv1 (by decide) solBFS1 solDFS1 (by decide)
      (by decide)⟩

/-- C9: with their canonical fuels all four solvers return an answer
(Solution or NotFound) on every level with an in-bounds start: the loops
cannot run forever. -/
theorem c9_solver_termination (lv : Level) (hs : InBounds lv lv.start) :
    (∃ r, solveBFS lv (bfsFuel lv) = some r) ∧
    (∃ r, solveDFS lv (dfsFuel lv) = some r) ∧
    (∃ r, solveAStar lv (pqFuel lv) = some r) ∧
    (∃ r, solveDijkstra lv (pqFuel lv) = some r) :=
  ⟨(solveBFS_spec lv hs).1, (solveDFS_spec lv hs).1,
    (solveAStar_spec lv hs).1, (solveDijkstra_spec lv hs).1⟩

/-- C9 witness at the 1 × 1 empty binary level. -/
theorem c9_witness :
    InBounds lv1 lv1.start ∧
    ((∃ r, solveBFS lv1 (bfsFuel lv1) = some r) ∧
    (∃ r, solveDFS lv1 (dfsFuel lv1) = some r) ∧
    (∃ r, solveAStar lv1 (pqFuel lv1) = some r) ∧
    (∃ r, solveDijkstra lv1 (pqFuel lv1) = some r)) :=
  ⟨by decide, c9_solver_termination lv1 (by decide)⟩

/-- C10: the visitedCells list of any returned Solution holds no duplicate
position. -/
theorem c10_visited_nodup (lv : Level) (hs : InBounds lv lv.start)
    (sol : Solution)
    (hres : solveBFS lv (bfsFuel lv) = some (some sol) ∨
      solveDFS lv (dfsFuel lv) = some (some sol) ∨
      solveAStar lv (pqFuel lv) = some (some sol) ∨
      solveDijkstra lv (pqFuel lv) = some (some sol)) :
    sol.visitedCells.Nodup := by
  rcases hres with hres | hres | hres | hres
  · exact ((solveBFS_spec lv hs).2.1 sol hres).vcNodup
  · exact ((solveDFS_spec lv hs).2 sol hres).vcNodup
  · exact ((solveAStar_spec lv hs).2.1 sol hres).vcNodup
  · exact ((solveDijkstra_spec lv hs).2.1 sol hres).vcNodup

/-- C10 witness at the 1 × 1 empty binary level. -/
theorem c10_witness :
    InBounds lv1 lv1.start ∧
    (solveBFS lv1 (bfsFuel lv1) = some (some solBFS1) ∨
      solveDFS lv1 (dfsFuel lv1) = some (some solBFS1) ∨
      solveAStar lv1 (pqFuel lv1) = some (some solBFS1) ∨
      solveDijkstra lv1 (pqFuel lv1) = some (some solBFS1)) ∧
    solBFS1.visitedCells.Nodup :=
  ⟨by decide, Or.inl (by decide),
    c10_visited_nodup lv1 (by decide) solBFS1 (Or.inl (by decide))⟩
